import Mathlib

/-!
# S3FileWriter: streaming multipart writer

A shallow embedding of `be/src/io/fs/s3_file_writer.cpp`.

The writer thread's methods (`open`, `appendv`, `finalize`, `close`, `abort`) are
functions on an explicit writer state.  The upload executor is part of the state
(a queue of submitted buffers and a list of outstanding `UploadPart` requests) and
moves by explicit executor steps, so that every interleaving of the uploader
workers with the writer thread can be expressed.  Outcomes of remote calls are
inputs.  A result of `none` means that the call does not return.

`size_t` counters are natural numbers: they count bytes that were really held in
memory, far below `2 ^ 64`.  Bucket, key and path are immutable and only occur in
requests and log texts; they are left out, and an `IOError` carries the remote
message only.
-/

/-!
# ColumnStruct: comparison of rows

A shallow embedding of `ColumnStruct::compare_at` (`be/src/vec/columns/column_struct.cpp`)
and of `ColumnVector<T>::compare_at` with `CompareHelper<T>` for integer `T`
(`be/src/vec/columns/column_vector.h`).  The virtual `compare_at` of the sub-columns
is an argument of the comparison of struct columns.
-/

namespace doris.vectorized

/-- Function `CompareHelper<T>::compare` for an integer type `T` (`column_vector.h`,
lines 82-84); the hint is not used. -/
def CompareHelper.compare (a b : Int) (_nan_direction_hint : Int) : Int :=
  if a > b then 1 else (if a < b then -1 else 0)

/-- Column `ColumnVector<T>` for an integer type `T`: its values, row by row. -/
structure ColumnVector where
  data : List Int
  deriving DecidableEq, Repr

/-- Method `ColumnVector<T>::compare_at` (`column_vector.h`, lines 327-331).  Rows are
taken to be in range; a row out of range, undefined in the source, reads as 0. -/
def ColumnVector.compare_at (self : ColumnVector) (n m : Nat) (rhs : ColumnVector)
    (nan_direction_hint : Int) : Int :=
  CompareHelper.compare (self.data.getD n 0) (rhs.data.getD m 0) nan_direction_hint

/-- Column `ColumnStruct`: its sub-columns, of a column type `C`. -/
structure ColumnStruct (C : Type) where
  columns : List C

/-- The result `res` of line 196 for index `i`: `compare_at` of the two sub-columns
with that index, given as `sub`. -/
def ColumnStruct.res_at {C : Type} (sub : C → Nat → Nat → C → Int → Int)
    (self rhs : ColumnStruct C) (n m : Nat) (nan_direction_hint : Int) (i : Nat) : Int :=
  match self.columns.get? i, rhs.columns.get? i with
  | some a, some b => sub a n m b nan_direction_hint
  | _, _ => 0

/-- The loop of `ColumnStruct::compare_at` (lines 195-199) from index `i` on, with
`fuel` bounding the iterations: the value returned inside the loop, if any. -/
def ColumnStruct.compare_loop {C : Type} (sub : C → Nat → Nat → C → Int → Int)
    (self rhs : ColumnStruct C) (n m : Nat) (nan_direction_hint : Int) (min_size : Nat) :
    Nat → Nat → Option Int
  | 0, _ => none
  | fuel + 1, i =>
    if i < min_size then
      if self.res_at sub rhs n m nan_direction_hint i ≠ 0 then
        some (self.res_at sub rhs n m nan_direction_hint i)
      else ColumnStruct.compare_loop sub self rhs n m nan_direction_hint min_size fuel (i + 1)
    else none

/-- Method `ColumnStruct::compare_at` (`column_struct.cpp`, lines 188-201); `sub` is the
virtual `compare_at` of the sub-columns. -/
def ColumnStruct.compare_at {C : Type} (sub : C → Nat → Nat → C → Int → Int)
    (self : ColumnStruct C) (n m : Nat) (rhs : ColumnStruct C) (nan_direction_hint : Int) :
    Int :=
  let lhs_tuple_size := self.columns.length
  let rhs_tuple_size := rhs.columns.length
  let min_size := min lhs_tuple_size rhs_tuple_size
  match ColumnStruct.compare_loop sub self rhs n m nan_direction_hint min_size min_size 0 with
  | some res => res
  | none => if lhs_tuple_size > rhs_tuple_size then 1
            else (if lhs_tuple_size < rhs_tuple_size then -1 else 0)

/-- The comparison in the words of the specification: the first result that is not
zero among the results of the sub-columns with the same index, in index order, and
without such a result 1, -1 or 0 as the left column has more, fewer or as many
sub-columns as the right one. -/
def lexicographic {C : Type} (cmp : C → C → Int) (lhs rhs : List C) : Int :=
  match (List.zipWith cmp lhs rhs).find? (fun r => r ≠ 0) with
  | some r => r
  | none => if lhs.length > rhs.length then 1 else (if lhs.length < rhs.length then -1 else 0)

end doris.vectorized

namespace doris.io

/-- One byte range handed to `appendv` (`Slice`: pointer and size). -/
abbrev Slice := List UInt8

/-- Status of `common/status.h`, restricted to the two kinds this file produces. -/
inductive Status where
  | OK
  | IOError (msg : String)
  deriving DecidableEq, Repr

/-- Test `Status::ok()`. -/
def Status.ok : Status → Bool
  | .OK => true
  | .IOError _ => false

/-- Error types of `Aws::S3::S3Errors` that the writer distinguishes. -/
inductive S3Errors where
  | NO_SUCH_UPLOAD
  | OTHER (code : Nat)
  deriving DecidableEq, Repr

/-- HTTP response code `Aws::Http::HttpResponseCode::NOT_FOUND`. -/
def NOT_FOUND : Nat := 404

/-- Error part of an SDK outcome (`GetErrorType`, `GetResponseCode`, `GetMessage`). -/
structure AwsError where
  errorType : S3Errors
  responseCode : Nat
  message : String
  deriving DecidableEq, Repr

/-- SDK outcome: `IsSuccess()` with a result, or an error. -/
inductive Outcome (α : Type) where
  | success (result : α)
  | failure (error : AwsError)
  deriving DecidableEq, Repr

/-- Record `Aws::S3::Model::CompletedPart`: part number and etag. -/
structure CompletedPart where
  part_number : Nat
  etag : String
  deriving DecidableEq, Repr

/-- Modelled from the spec: the Buffer of `s3_file_write_bufferpool.h`, a byte region
with its file offset.  Its upload callback captures the part number at allocation
time, kept here as a field; the other three callbacks (`finish_upload`, `is_cancel`,
`on_failed`) close over the writer and are functions on the writer state below. -/
structure S3FileBuffer where
  part_num : Nat
  file_offset : Nat
  data : List UInt8
  deriving DecidableEq, Repr

/-- Buffer size `get_size()`. -/
def S3FileBuffer.get_size (b : S3FileBuffer) : Nat := b.data.length

/-- Buffer `append_data`: copies the slice behind the bytes already held. -/
def S3FileBuffer.append_data (b : S3FileBuffer) (s : Slice) : S3FileBuffer :=
  { b with data := b.data ++ s }

/-- Requests sent to the object store. -/
inductive Request where
  | CreateMultipartUpload
  | UploadPart (part_num : Nat) (upload_id : String) (body : List UInt8)
  | CompleteMultipartUpload (upload_id : String) (parts : List CompletedPart)
  | AbortMultipartUpload (upload_id : String)
  deriving DecidableEq, Repr

/-- Writer state.  The fields up to `wait` are the members of `S3FileWriter`
(`wait` is the count of the wait group).  `queue` and `inflight` are the upload
executor: buffers submitted and not yet picked up, and buffers whose `UploadPart`
is outstanding.  `submitted` and `sent` are histories: every buffer ever submitted
and every request ever sent, oldest first. -/
structure S3FileWriter where
  upload_id : String
  opened : Bool
  closed : Bool
  failed : Bool
  st : Status
  cur_part_num : Nat
  bytes_appended : Nat
  bytes_written : Nat
  pending_buf : Option S3FileBuffer
  completed_parts : List CompletedPart
  wait : Int
  queue : List S3FileBuffer
  inflight : List S3FileBuffer
  submitted : List S3FileBuffer
  sent : List Request
  deriving DecidableEq, Repr

/-- Modelled from the spec: the member initialisers of `s3_file_writer.h`, which is
not part of the sources: `upload_id` empty before open, a 1-based part counter, no
bytes, no buffer, no failure, not opened.  The initial value of `closed` is not
stated and is left as an argument. -/
def S3FileWriter.init (closed0 : Bool) : S3FileWriter :=
  { upload_id := "", opened := false, closed := closed0, failed := false, st := .OK,
    cur_part_num := 1, bytes_appended := 0, bytes_written := 0, pending_buf := none,
    completed_parts := [], wait := 0, queue := [], inflight := [], submitted := [],
    sent := [] }

/-- Modelled from the spec: the upload executor, whose thread pool is not part of the
sources: workers run the upload callback of a submitted buffer and then, on every
path, its `finish_upload`; order across workers is not fixed.  This is one move of
a worker.  With `start` set the worker picks up the queued
buffer number `idx` and runs its upload callback up to the `UploadPart` request
(lines 202-218); otherwise the outstanding request number `idx` returns with
`outcome` and the callback runs to its end (lines 220-239).  A move of a kind for
which there is no work is a move of the other kind, and indices wrap around, so
that a step does something whenever any upload is unfinished. -/
structure ExecStep where
  start : Bool
  idx : Nat
  outcome : Outcome String
  deriving DecidableEq, Repr

namespace S3FileWriter

/-- Method `open` (lines 86-102). -/
def open_ (outcome : Outcome String) (w : S3FileWriter) : S3FileWriter × Status :=
  let w := { w with sent := w.sent ++ [Request.CreateMultipartUpload] }
  match outcome with
  | .success id => ({ w with upload_id := id, closed := false, opened := true }, .OK)
  | .failure e => (w, .IOError e.message)

/-- Callback `on_failed` installed at lines 169-175: under the lock, set `failed`
and store the status. -/
def on_failed (st : Status) (w : S3FileWriter) : S3FileWriter :=
  { w with failed := true, st := st }

/-- Callback `is_cancel` installed at line 168. -/
def is_cancel (w : S3FileWriter) : Bool := w.failed

/-- Callback `finish_upload` installed at line 167: `_wait.done()`. -/
def finish_upload (w : S3FileWriter) : S3FileWriter :=
  { w with wait := w.wait - 1 }

/-- The three statements `_wait.add(); _pending_buf->submit(); _pending_buf = nullptr;`
shared by `appendv`, `close` and `finalize`.  `_wait.add()` adds one to the count of
the wait group, and `submit()` hands the buffer to the executor, which here means
the end of its queue. -/
def submit (b : S3FileBuffer) (w : S3FileWriter) : S3FileWriter :=
  { w with wait := w.wait + 1, queue := w.queue ++ [b],
           submitted := w.submitted ++ [b], pending_buf := none }

/-- First half of `_upload_one_part` (lines 202-218): the cancel test and, when not
cancelled, the `UploadPart` request.  Returns whether the request was issued. -/
def _upload_one_part_issue (part_num : Nat) (buf : S3FileBuffer) (w : S3FileWriter) :
    S3FileWriter × Bool :=
  if w.is_cancel then (w, false)
  else ({ w with sent := w.sent ++ [Request.UploadPart part_num w.upload_id buf.data] }, true)

/-- Second half of `_upload_one_part` (lines 220-239): on failure report through
`on_failed`; on success record the part and count the bytes. -/
def _upload_one_part_result (part_num : Nat) (buf : S3FileBuffer) (outcome : Outcome String)
    (w : S3FileWriter) : S3FileWriter :=
  match outcome with
  | .failure e => w.on_failed (.IOError e.message)
  | .success etag =>
    { w with completed_parts := w.completed_parts ++ [⟨part_num, etag⟩],
             bytes_written := w.bytes_written + buf.get_size }

/-- Whole of `_upload_one_part` (lines 201-240) when nothing else runs in between. -/
def _upload_one_part (part_num : Nat) (buf : S3FileBuffer) (outcome : Outcome String)
    (w : S3FileWriter) : S3FileWriter :=
  match w._upload_one_part_issue part_num buf with
  | (w1, false) => w1
  | (w1, true) => w1._upload_one_part_result part_num buf outcome

/-- A worker picks up queued buffer `i`: cancel test, request, and for a cancelled
buffer at once `finish_upload`. -/
def exec_start (i : Nat) (w : S3FileWriter) : S3FileWriter :=
  match w.queue.get? i with
  | none => w
  | some b =>
    match ({ w with queue := w.queue.eraseIdx i })._upload_one_part_issue b.part_num b with
    | (w1, false) => w1.finish_upload
    | (w1, true) => { w1 with inflight := w1.inflight ++ [b] }

/-- The outstanding request `j` returns: rest of the callback, then `finish_upload`. -/
def exec_finish (j : Nat) (outcome : Outcome String) (w : S3FileWriter) : S3FileWriter :=
  match w.inflight.get? j with
  | none => w
  | some b =>
    (({ w with inflight := w.inflight.eraseIdx j })._upload_one_part_result
      b.part_num b outcome).finish_upload

/-- One executor move. -/
def exec_step (s : ExecStep) (w : S3FileWriter) : S3FileWriter :=
  if s.start && !w.queue.isEmpty then w.exec_start (s.idx % w.queue.length)
  else if !w.inflight.isEmpty then w.exec_finish (s.idx % w.inflight.length) s.outcome
  else if !w.queue.isEmpty then w.exec_start (s.idx % w.queue.length)
  else w

/-- Several executor moves in a row. -/
def exec_steps (ss : List ExecStep) (w : S3FileWriter) : S3FileWriter :=
  ss.foldl (fun w s => w.exec_step s) w

/-- Modelled from the spec: the wait group of `util/s3_util.h` (a counting latch with
`add`, `done` and a bounded `wait` that tells whether it is drained) and the loop
`while (!_wait.wait())`.  The writer thread is blocked while the executor moves;
`sched k` is the executor move made when `k + 1` moves of fuel are left.  The loop
ends as soon as the count is drained; when all executor work is done and the count
is still positive, it never ends. -/
def wait_loop (sched : Nat → ExecStep) : Nat → S3FileWriter → Option S3FileWriter
  | fuel, w =>
    if w.wait ≤ 0 then some w
    else match fuel with
      | 0 => none
      | f + 1 => wait_loop sched f (w.exec_step (sched f))

/-- The loop `while (!_wait.wait())` with fuel for all unfinished uploads: two moves
for a queued buffer, one for an outstanding request. -/
def wait_all (sched : Nat → ExecStep) (w : S3FileWriter) : Option S3FileWriter :=
  wait_loop sched (2 * w.queue.length + w.inflight.length) w

/-- The comparison of `std::sort` in `_complete`, as a non-strict order. -/
def part_le (p q : CompletedPart) : Prop := p.part_number ≤ q.part_number

instance : DecidableRel part_le := fun p q => Nat.decLe p.part_number q.part_number

/-- Method `_complete` (lines 244-277).  The order `std::sort` gives to records with
equal part numbers is unspecified; a stable sort is used here. -/
def _complete (sched : Nat → ExecStep) (outcome : Outcome Unit) (w : S3FileWriter) :
    Option (S3FileWriter × Status) :=
  if w.failed then some (w, w.st)
  else match w.wait_all sched with
    | none => none
    | some w1 =>
      let parts := w1.completed_parts.insertionSort part_le
      let w2 := { w1 with completed_parts := parts,
                          sent := w1.sent ++ [Request.CompleteMultipartUpload w1.upload_id parts] }
      match outcome with
      | .failure e => some (w2, .IOError e.message)
      | .success _ => some (w2, .OK)

/-- First statements of `close` after the early return (lines 136-141). -/
def close_submit (w : S3FileWriter) : S3FileWriter :=
  match w.pending_buf with
  | some b => ({ w with closed := true }).submit b
  | none => { w with closed := true }

/-- Method `close` (lines 131-145).  `early` are the executor moves made between the
submission of the pending buffer and the test of `_failed` in `_complete`. -/
def close (early : List ExecStep) (sched : Nat → ExecStep) (outcome : Outcome Unit)
    (w : S3FileWriter) : Option (S3FileWriter × Status) :=
  if w.closed then some (w, .OK)
  else match (w.close_submit.exec_steps early)._complete sched outcome with
    | none => none
    | some (w1, st) => if st.ok then some (w1, .OK) else some (w1, st)

/-- Method `abort` (lines 104-129). -/
def abort (sched : Nat → ExecStep) (outcome : Outcome Unit) (w : S3FileWriter) :
    Option (S3FileWriter × Status) :=
  let w := { w with failed := true }
  if w.closed || !w.opened then some (w, .OK)
  else match ({ w with closed := true }).wait_all sched with
    | none => none
    | some w1 =>
      let w2 := { w1 with sent := w1.sent ++ [Request.AbortMultipartUpload w1.upload_id] }
      match outcome with
      | .success _ => some (w2, .OK)
      | .failure e =>
        if e.errorType = S3Errors.NO_SUCH_UPLOAD || e.responseCode = NOT_FOUND then some (w2, .OK)
        else some (w2, .IOError e.message)

/-- Method `finalize` (lines 279-289); the debug assertion is compiled out. -/
def finalize (w : S3FileWriter) : S3FileWriter × Status :=
  match w.pending_buf with
  | some b => (w.submit b, .OK)
  | none => (w, .OK)

/-- Lines 158-176 of `appendv`: the pending buffer, or else a buffer allocated from the
pool, with the current part number captured by its callbacks and the file offset
set to `_bytes_appended`.  Allocation always yields an empty buffer (it may block
first, which is not modelled). -/
def pending_or_allocate (w : S3FileWriter) : S3FileBuffer :=
  match w.pending_buf with
  | some b => b
  | none => { part_num := w.cur_part_num, file_offset := w.bytes_appended, data := [] }

/-- Lines 179-180 of `appendv`: the value of `data_size_to_append`. -/
def data_size_to_append (B : Nat) (slice : Slice) (pos : Nat) (w : S3FileWriter) : Nat :=
  min (slice.length - pos) (w.pending_or_allocate.file_offset + B - w.bytes_appended)

/-- Lines 184-195 of `appendv` for the buffer `buf` in hand: append the piece, submit
the buffer when it has reached the buffer size and keep it pending otherwise, then
add `n` to `_bytes_appended`. -/
def append_piece (B : Nat) (buf : S3FileBuffer) (piece : Slice) (n : Nat) (w : S3FileWriter) :
    S3FileWriter :=
  let buf := buf.append_data piece
  let w1 := if buf.get_size = B then ({ w with cur_part_num := w.cur_part_num + 1 }).submit buf
            else { w with pending_buf := some buf }
  { w1 with bytes_appended := w1.bytes_appended + n }

/-- Body of the inner loop of `appendv` (lines 158-195) for the slice `slice` at
position `pos`; returns the new state and `data_size_to_append`. -/
def append_body (B : Nat) (slice : Slice) (pos : Nat) (w : S3FileWriter) : S3FileWriter × Nat :=
  let n := w.data_size_to_append B slice pos
  (w.append_piece B w.pending_or_allocate ((slice.drop pos).take n) n, n)

/-- Inner loop of `appendv` (line 157) with `fuel` bounding the number of iterations. -/
def append_loop (B : Nat) (slice : Slice) : Nat → Nat → S3FileWriter → Option S3FileWriter
  | fuel, pos, w =>
    if pos < slice.length then
      match fuel with
      | 0 => none
      | f + 1 => append_loop B slice f (pos + (w.append_body B slice pos).2)
                   (w.append_body B slice pos).1
    else some w

/-- Outer loop of `appendv` (line 155).  Each slice gets fuel for one iteration more
than it has bytes. -/
def append_slices (B : Nat) : List Slice → S3FileWriter → Option S3FileWriter
  | [], w => some w
  | s :: rest, w =>
    match append_loop B s (s.length + 1) 0 w with
    | none => none
    | some w1 => append_slices B rest w1

/-- Method `appendv` (lines 147-199) with `config::s3_write_buffer_size = B`; `create`
is the outcome of the lazy `open`, used only when the writer is not opened.  The
debug assertion is compiled out. -/
def appendv (B : Nat) (create : Outcome String) (data : List Slice) (w : S3FileWriter) :
    Option (S3FileWriter × Status) :=
  match (if !w.opened then w.open_ create else (w, Status.OK)) with
  | (w1, .IOError m) => some (w1, .IOError m)
  | (w1, .OK) =>
    match append_slices B data w1 with
    | none => none
    | some w2 => some (w2, .OK)

end S3FileWriter

/-- Operations on a writer: the five methods, and a move of the upload executor. -/
inductive Op where
  | open_ (outcome : Outcome String)
  | appendv (create : Outcome String) (data : List Slice)
  | finalize
  | close (early : List ExecStep) (sched : Nat → ExecStep) (outcome : Outcome Unit)
  | abort (sched : Nat → ExecStep) (outcome : Outcome Unit)
  | exec (s : ExecStep)

/-- One operation with buffer size `B`: new state and returned status. -/
def step (B : Nat) (op : Op) (w : S3FileWriter) : Option (S3FileWriter × Status) :=
  match op with
  | .open_ o => some (w.open_ o)
  | .appendv c d => w.appendv B c d
  | .finalize => some w.finalize
  | .close e s o => w.close e s o
  | .abort s o => w.abort s o
  | .exec s => some (w.exec_step s, .OK)

/-- A sequence of operations: final state and the statuses returned, oldest first. -/
def run (B : Nat) : List Op → S3FileWriter → Option (S3FileWriter × List Status)
  | [], w => some (w, [])
  | op :: rest, w =>
    match step B op w with
    | none => none
    | some (w1, st) =>
      match run B rest w1 with
      | none => none
      | some (w2, sts) => some (w2, st :: sts)

/-- Whether an operation is an `appendv` call or a move of the executor. -/
def Op.is_append_or_exec : Op → Bool
  | .appendv _ _ => true
  | .exec _ => true
  | _ => false

/-- Whether an operation is an `abort` call. -/
def Op.is_abort : Op → Bool
  | .abort _ _ => true
  | _ => false

/-- The bytes an operation passes to `appendv`, slice after slice. -/
def Op.bytes : Op → List UInt8
  | .appendv _ data => data.flatten
  | _ => []

/-- The bytes a sequence of operations passes to `appendv`, in call order. -/
def bytes_of (ops : List Op) : List UInt8 := (ops.map Op.bytes).flatten

/-- An error outcome with HTTP code 500. -/
def err500 : AwsError := { errorType := .OTHER 1, responseCode := 500, message := "5xx" }

/-- An error outcome with HTTP code 404. -/
def err404 : AwsError := { errorType := .OTHER 1, responseCode := 404, message := "gone" }

/-- The always-successful executor move used in examples: start the oldest queued
buffer, or complete the oldest outstanding request with etag `"e"`. -/
def fifo : Nat → ExecStep := fun _ => { start := true, idx := 0, outcome := .success "e" }

/-- Executor moves during a wait in which both queued buffers are picked up, the
first request succeeds with etag `"e1"` and the second fails with a 5xx. -/
def late_failure : Nat → ExecStep := fun k =>
  if k = 0 then { start := false, idx := 0, outcome := .failure err500 }
  else if k = 1 then { start := false, idx := 0, outcome := .success "e1" }
  else { start := true, idx := 0, outcome := .success "e" }

open S3FileWriter

/-! ## Auxiliary definitions for the statements -/

/-- The members that only the writer thread touches, with the upload id and the
submission history. -/
def writer_side (w : S3FileWriter) :
    String × Bool × Bool × Nat × Nat × Option S3FileBuffer × List S3FileBuffer :=
  (w.upload_id, w.opened, w.closed, w.cur_part_num, w.bytes_appended, w.pending_buf, w.submitted)

/-- Consistency of the wait group with the executor: the count is the number of
buffers that the executor holds. -/
def wait_ok (w : S3FileWriter) : Prop :=
  w.wait = (w.queue.length : Int) + (w.inflight.length : Int)

instance (w : S3FileWriter) : Decidable (wait_ok w) := by
  unfold wait_ok; infer_instance

/-- Executor work left: two moves for a queued buffer, one for an outstanding request. -/
def work (w : S3FileWriter) : Nat := 2 * w.queue.length + w.inflight.length

/-- Bytes of a list of buffers, in list order. -/
def stream_of : List S3FileBuffer → List UInt8
  | [] => []
  | b :: rest => b.data ++ stream_of rest

/-- Bytes held in the pending buffer. -/
def pending_data (w : S3FileWriter) : List UInt8 :=
  match w.pending_buf with
  | some b => b.data
  | none => []

/-- Bytes taken so far: the submitted buffers in submission order, then the pending one. -/
def content (w : S3FileWriter) : List UInt8 := stream_of w.submitted ++ pending_data w

/-- The members that `appendv` leaves alone once the writer is opened. -/
def exec_side (w : S3FileWriter) :
    String × Bool × Bool × Bool × Status × Nat × List CompletedPart × List S3FileBuffer ×
      List Request :=
  (w.upload_id, w.opened, w.closed, w.failed, w.st, w.bytes_written, w.completed_parts,
    w.inflight, w.sent)

/-- State of the part assembly between two iterations of the inner loop, as long as
only `appendv` has submitted buffers: every submitted buffer is full, the part
numbers of the submitted buffers are 1, 2, ... in submission order, the part counter
is the next number, and a pending buffer carries that number, is neither empty nor
full, and ends at `bytes_appended`. -/
structure append_inv (B : Nat) (w : S3FileWriter) : Prop where
  full : ∀ b ∈ w.submitted, b.get_size = B
  nums : w.submitted.map (fun b => b.part_num) = List.range' 1 w.submitted.length
  cur : w.cur_part_num = w.submitted.length + 1
  pend : ∀ b, w.pending_buf = some b →
    b.part_num = w.cur_part_num ∧ 0 < b.get_size ∧ b.get_size < B ∧
      b.file_offset + b.get_size = w.bytes_appended
  total : w.bytes_appended = (content w).length

/-- State after a successful `open` on a new writer. -/
def fresh (closed0 : Bool) (id : String) : S3FileWriter :=
  ((S3FileWriter.init closed0).open_ (.success id)).1

/-- Order of buffers by part number. -/
def buf_le (a b : S3FileBuffer) : Prop := a.part_num ≤ b.part_num

instance : DecidableRel buf_le := fun a b => Nat.decLe a.part_num b.part_num

/-- The invariant of the failure record: a set `failed` flag comes with a status that
is not ok. -/
def fail_inv (w : S3FileWriter) : Prop := w.failed = true → w.st ≠ Status.OK

/-- The debug assertions `DCHECK(!_closed)` of `appendv` (line 152, reached after the
lazy open, so that it can only fail on a writer that is opened and closed) and of
`finalize` (line 280). -/
def Op.dcheck (op : Op) (w : S3FileWriter) : Bool :=
  match op with
  | .appendv _ _ => !(w.opened && w.closed)
  | .finalize => !w.closed
  | _ => true

/-- The invariant that a closed writer holds no pending buffer. -/
def closed_inv (w : S3FileWriter) : Prop := w.closed = true → w.pending_buf = none

/-- One byte taken by the part assembly: lines 158-195 of `appendv` for a piece of one
byte. -/
def push (B : Nat) (w : S3FileWriter) (x : UInt8) : S3FileWriter :=
  w.append_piece B w.pending_or_allocate [x] 1

/-- A byte stream taken by the part assembly byte after byte. -/
def feed (B : Nat) (w : S3FileWriter) (bytes : List UInt8) : S3FileWriter :=
  bytes.foldl (push B) w

/-- Capacity invariant of the pending buffer: it is not full and it ends at
`bytes_appended`. -/
def pend_ok (B : Nat) (w : S3FileWriter) : Prop :=
  ∀ b, w.pending_buf = some b →
    b.get_size < B ∧ b.file_offset + b.get_size = w.bytes_appended

/-- One `appendv` call per slice, in order; the result of the last call, and `none`
as soon as a call does not return. -/
def appendv_each (B : Nat) (create : Outcome String) (slices : List Slice) (w : S3FileWriter) :
    Option (S3FileWriter × Status) :=
  slices.foldl (fun r s => r.bind (fun p => p.1.appendv B create [s])) (some (w, Status.OK))

/-- Accounting of the submitted buffers: the buffers whose upload succeeded (`done`),
the buffers whose upload failed or was cancelled (`lost`), those with an outstanding
request and those queued make up the submitted buffers, each once; the records in
`completed_parts` carry the part numbers of the `done` buffers; `bytes_written` is
the sum of their sizes; and without a failure no buffer is lost. -/
def acct (w : S3FileWriter) : Prop :=
  ∃ done lost : List S3FileBuffer,
    (done ++ lost ++ w.inflight ++ w.queue).Perm w.submitted ∧
    (w.completed_parts.map (fun p => p.part_number)).Perm (done.map (fun b => b.part_num)) ∧
    w.bytes_written = (done.map S3FileBuffer.get_size).sum ∧
    (w.failed = false → lost = [])

/-- The byte counter agrees with the bytes taken: `bytes_appended` is the number of
bytes in the submitted buffers and the pending one. -/
def total_ok (w : S3FileWriter) : Prop := w.bytes_appended = (content w).length

/-- Capacity invariant of the part assembly: a held pending buffer is neither empty nor
full and ends at `bytes_appended`, and no submitted buffer is empty or larger than
the buffer size. -/
def cap_inv (B : Nat) (w : S3FileWriter) : Prop :=
  (∀ b, w.pending_buf = some b →
    0 < b.get_size ∧ b.get_size < B ∧ b.file_offset + b.get_size = w.bytes_appended) ∧
  (∀ b ∈ w.submitted, 0 < b.get_size ∧ b.get_size ≤ B)

/-- Destructor `~S3FileWriter` (lines 79-84): the conditional `close`, whose status is
dropped, then the condition of `CHECK(!_opened || _closed)`; the result is the state
left and the value of that condition. -/
def S3FileWriter.destructor (early : List ExecStep) (sched : Nat → ExecStep)
    (outcome : Outcome Unit) (w : S3FileWriter) : Option (S3FileWriter × Bool) :=
  if w.opened then
    match w.close early sched outcome with
    | none => none
    | some (w1, _) => some (w1, !w1.opened || w1.closed)
  else some (w, !w.opened || w.closed)

/-- The state of a newly opened writer after a `close` that had nothing to submit and
sent CompleteMultipartUpload with an empty part list. -/
def closed_empty (closed0 : Bool) (id : String) : S3FileWriter :=
  { fresh closed0 id with
    closed := true
    sent := (fresh closed0 id).sent ++ [Request.CompleteMultipartUpload id []] }

/-- Whether the upload of an executor move succeeds when its request returns. -/
def ExecStep.succeeds (s : ExecStep) : Bool :=
  match s.outcome with
  | .success _ => true
  | .failure _ => false

/-- Whether an operation is an `appendv` call, a `finalize` call or a move of the
executor. -/
def Op.is_append_finalize_or_exec : Op → Bool
  | .appendv _ _ => true
  | .finalize => true
  | .exec _ => true
  | _ => false

/-- Whether the upload in an operation, when it is a move of the executor, succeeds. -/
def Op.uploads_succeed : Op → Bool
  | .exec s => s.succeeds
  | _ => true

/-- Whether, in the run of `ops` from `w` with buffer size `B`, no byte is passed to
`appendv` after a `finalize` that found a buffer pending, and so submitted it. -/
def no_append_after_flush (B : Nat) : List Op → S3FileWriter → Bool
  | [], _ => true
  | op :: rest, w =>
    (match op with
      | .finalize => w.pending_buf.isNone || (bytes_of rest).isEmpty
      | _ => true) &&
    (match step B op w with
      | some (w1, _) => no_append_after_flush B rest w1
      | none => true)

/-- Numbering of the buffers: the submitted buffers carry the part numbers 1, 2, ... in
submission order, and a pending buffer carries the number after them. -/
def num_inv (w : S3FileWriter) : Prop :=
  w.submitted.map (fun b => b.part_num) = List.range' 1 w.submitted.length ∧
  ∀ b, w.pending_buf = some b → b.part_num = w.submitted.length + 1

/-- The part counter is the number after those of the submitted buffers. -/
def cur_ok (w : S3FileWriter) : Prop := w.cur_part_num = w.submitted.length + 1

/-! ## Frame of the executor and of the wait loop -/

theorem exec_start_side (i : Nat) (w : S3FileWriter) :
    writer_side (w.exec_start i) = writer_side w := by
  unfold exec_start
  cases h : w.queue.get? i with
  | none => rfl
  | some b =>
    simp only [_upload_one_part_issue, is_cancel]
    cases hf : w.failed <;> simp [writer_side, finish_upload]

theorem exec_finish_side (j : Nat) (o : Outcome String) (w : S3FileWriter) :
    writer_side (w.exec_finish j o) = writer_side w := by
  unfold exec_finish
  cases h : w.inflight.get? j with
  | none => rfl
  | some b =>
    cases o <;> simp [writer_side, finish_upload, _upload_one_part_result, on_failed]

theorem exec_step_side (s : ExecStep) (w : S3FileWriter) :
    writer_side (w.exec_step s) = writer_side w := by
  unfold exec_step
  split
  · exact exec_start_side _ _
  · split
    · exact exec_finish_side _ _ _
    · split
      · exact exec_start_side _ _
      · rfl

theorem exec_steps_side (ss : List ExecStep) (w : S3FileWriter) :
    writer_side (w.exec_steps ss) = writer_side w := by
  induction ss generalizing w with
  | nil => rfl
  | cons s ss ih =>
    show writer_side ((w.exec_step s).exec_steps ss) = _
    rw [ih, exec_step_side]

theorem wait_loop_side (sched : Nat → ExecStep) (fuel : Nat) (w w1 : S3FileWriter)
    (h : wait_loop sched fuel w = some w1) : writer_side w1 = writer_side w := by
  induction fuel generalizing w with
  | zero =>
    unfold wait_loop at h
    split at h
    · cases h; rfl
    · cases h
  | succ f ih =>
    unfold wait_loop at h
    split at h
    · cases h; rfl
    · rw [ih _ h, exec_step_side]

theorem exec_start_ok (i : Nat) (w : S3FileWriter) (hi : i < w.queue.length) (h : wait_ok w) :
    wait_ok (w.exec_start i) ∧ work (w.exec_start i) < work w := by
  unfold exec_start
  rw [List.get?_eq_get hi]
  simp only [_upload_one_part_issue, is_cancel]
  unfold wait_ok at h
  cases hf : w.failed <;>
    simp [wait_ok, work, finish_upload, List.length_eraseIdx, hi, h] <;> omega

theorem exec_finish_ok (j : Nat) (o : Outcome String) (w : S3FileWriter)
    (hj : j < w.inflight.length) (h : wait_ok w) :
    wait_ok (w.exec_finish j o) ∧ work (w.exec_finish j o) < work w := by
  unfold exec_finish
  rw [List.get?_eq_get hj]
  unfold wait_ok at h
  cases o <;>
    simp [wait_ok, work, finish_upload, _upload_one_part_result, on_failed,
      List.length_eraseIdx, hj, h] <;> omega

theorem exec_step_ok (s : ExecStep) (w : S3FileWriter) (h : wait_ok w) :
    wait_ok (w.exec_step s) := by
  unfold exec_step
  split
  · rename_i hc
    simp at hc
    exact (exec_start_ok _ w (Nat.mod_lt _ (List.length_pos.mpr hc.2)) h).1
  · split
    · rename_i hc
      simp at hc
      exact (exec_finish_ok _ _ w (Nat.mod_lt _ (List.length_pos.mpr hc)) h).1
    · split
      · rename_i hc
        simp at hc
        exact (exec_start_ok _ w (Nat.mod_lt _ (List.length_pos.mpr hc)) h).1
      · exact h

theorem exec_step_work (s : ExecStep) (w : S3FileWriter) (h : wait_ok w) (hw : 0 < work w) :
    work (w.exec_step s) < work w := by
  unfold exec_step
  split
  · rename_i hc
    simp at hc
    exact (exec_start_ok _ w (Nat.mod_lt _ (List.length_pos.mpr hc.2)) h).2
  · split
    · rename_i hc
      simp at hc
      exact (exec_finish_ok _ _ w (Nat.mod_lt _ (List.length_pos.mpr hc)) h).2
    · split
      · rename_i hc
        simp at hc
        exact (exec_start_ok _ w (Nat.mod_lt _ (List.length_pos.mpr hc)) h).2
      · rename_i h1 h2 h3
        simp at h2 h3
        simp [work, h2, h3] at hw

theorem exec_steps_ok (ss : List ExecStep) (w : S3FileWriter) (h : wait_ok w) :
    wait_ok (w.exec_steps ss) := by
  induction ss generalizing w with
  | nil => exact h
  | cons s ss ih => exact ih _ (exec_step_ok s w h)

/-- With a consistent wait group the wait loop returns, drained, once the fuel covers
the executor work left. -/
theorem wait_loop_returns (sched : Nat → ExecStep) (fuel : Nat) (w : S3FileWriter)
    (h : wait_ok w) (hf : work w ≤ fuel) :
    ∃ w1, wait_loop sched fuel w = some w1 ∧ wait_ok w1 ∧ w1.wait = 0 := by
  induction fuel generalizing w with
  | zero =>
    have hq : w.queue.length = 0 := by unfold work at hf; omega
    have hi : w.inflight.length = 0 := by unfold work at hf; omega
    have h0 : w.wait = 0 := by unfold wait_ok at h; rw [h, hq, hi]; rfl
    refine ⟨w, ?_, h, h0⟩
    unfold wait_loop
    simp [h0]
  | succ f ih =>
    unfold wait_loop
    by_cases h0 : w.wait ≤ 0
    · have : w.wait = 0 := by unfold wait_ok at h; omega
      exact ⟨w, by simp [h0], h, this⟩
    · simp only [h0, if_false]
      have hpos : 0 < work w := by unfold wait_ok at h; unfold work; omega
      have := exec_step_work (sched f) w h hpos
      exact ih _ (exec_step_ok _ w h) (by omega)

theorem wait_all_returns (sched : Nat → ExecStep) (w : S3FileWriter) (h : wait_ok w) :
    ∃ w1, w.wait_all sched = some w1 ∧ wait_ok w1 ∧ w1.wait = 0 :=
  wait_loop_returns sched _ w h (le_refl _)

theorem complete_side (sched : Nat → ExecStep) (o : Outcome Unit) (w w1 : S3FileWriter)
    (st : Status) (h : w._complete sched o = some (w1, st)) :
    writer_side w1 = writer_side w := by
  unfold _complete at h
  split at h
  · cases h; rfl
  · cases hw : w.wait_all sched with
    | none => simp [hw] at h
    | some w2 =>
      have hs := wait_loop_side sched _ w w2 hw
      simp only [hw] at h
      cases o <;> simp at h <;> obtain ⟨rfl, -⟩ := h <;> simpa [writer_side] using hs

theorem close_submit_closed (w : S3FileWriter) : w.close_submit.closed = true := by
  unfold close_submit
  cases w.pending_buf <;> simp [submit]

theorem close_closed (early : List ExecStep) (sched : Nat → ExecStep) (o : Outcome Unit)
    (w w1 : S3FileWriter) (st : Status) (h : w.close early sched o = some (w1, st)) :
    w1.closed = true := by
  unfold close at h
  split at h
  · rename_i hc
    cases h; exact hc
  · cases hc : (w.close_submit.exec_steps early)._complete sched o with
    | none => simp [hc] at h
    | some r =>
      obtain ⟨w2, st2⟩ := r
      have hs := complete_side sched o _ w2 st2 hc
      rw [exec_steps_side] at hs
      have h2 : w2.closed = true := by
        have := congrArg (fun t => t.2.2.1) hs
        simp only [writer_side] at this
        rw [this, close_submit_closed]
      simp only [hc] at h
      split at h <;> cases h <;> exact h2

/-! ## Invariant of the part assembly in `appendv` -/

theorem stream_of_append (xs ys : List S3FileBuffer) :
    stream_of (xs ++ ys) = stream_of xs ++ stream_of ys := by
  induction xs with
  | nil => rfl
  | cons x xs ih => simp [stream_of, ih]

theorem stream_of_length (B : Nat) (xs : List S3FileBuffer) (h : ∀ b ∈ xs, b.get_size = B) :
    (stream_of xs).length = xs.length * B := by
  induction xs with
  | nil => simp [stream_of]
  | cons x xs ih =>
    have hx : x.data.length = B := h x (List.mem_cons_self _ _)
    have := ih (fun b hb => h b (List.mem_cons_of_mem _ hb))
    simp [stream_of, this, hx, Nat.succ_mul]
    omega

theorem append_piece_eq (B : Nat) (buf : S3FileBuffer) (piece : Slice) (n : Nat)
    (w : S3FileWriter) :
    w.append_piece B buf piece n =
      if buf.data.length + piece.length = B then
        { w with cur_part_num := w.cur_part_num + 1, wait := w.wait + 1,
                 queue := w.queue ++ [⟨buf.part_num, buf.file_offset, buf.data ++ piece⟩],
                 submitted := w.submitted ++ [⟨buf.part_num, buf.file_offset, buf.data ++ piece⟩],
                 pending_buf := none, bytes_appended := w.bytes_appended + n }
      else
        { w with pending_buf := some ⟨buf.part_num, buf.file_offset, buf.data ++ piece⟩,
                 bytes_appended := w.bytes_appended + n } := by
  unfold append_piece
  simp only [S3FileBuffer.append_data, S3FileBuffer.get_size, List.length_append]
  split <;> rfl

theorem append_piece_spec (B : Nat) (buf : S3FileBuffer) (piece : Slice) (n : Nat)
    (w : S3FileWriter)
    (hfull : ∀ b ∈ w.submitted, b.get_size = B)
    (hnums : w.submitted.map (fun b => b.part_num) = List.range' 1 w.submitted.length)
    (hcur : w.cur_part_num = w.submitted.length + 1)
    (hnum : buf.part_num = w.cur_part_num)
    (hoff : buf.file_offset + buf.data.length = w.bytes_appended)
    (htot : w.bytes_appended = (stream_of w.submitted).length + buf.data.length)
    (hlen : piece.length = n) (hn : 0 < n) (hcap : buf.data.length + n ≤ B)
    (hw : wait_ok w) :
    append_inv B (w.append_piece B buf piece n) ∧
    content (w.append_piece B buf piece n) = stream_of w.submitted ++ buf.data ++ piece ∧
    wait_ok (w.append_piece B buf piece n) ∧
    exec_side (w.append_piece B buf piece n) = exec_side w := by
  rw [append_piece_eq]
  by_cases hfill : buf.data.length + piece.length = B
  · rw [if_pos hfill]
    refine ⟨⟨?_, ?_, ?_, ?_, ?_⟩, ?_, ?_, rfl⟩
    · intro b hb
      simp only [List.mem_append, List.mem_singleton] at hb
      rcases hb with hb | rfl
      · exact hfull b hb
      · simpa [S3FileBuffer.get_size] using hfill
    · simp [hnums, List.range'_concat, hcur, hnum]
      omega
    · simp [hcur]
    · intro b hb
      simp at hb
    · simp only [content, pending_data, stream_of_append, stream_of, List.append_nil,
        List.length_append]
      omega
    · simp [content, pending_data, stream_of_append, stream_of]
    · unfold wait_ok at hw ⊢
      simp [hw]
      omega
  · rw [if_neg hfill]
    refine ⟨⟨hfull, hnums, hcur, ?_, ?_⟩, ?_, hw, rfl⟩
    · intro b hb
      simp only [Option.some.injEq] at hb
      subst hb
      simp only [S3FileBuffer.get_size, List.length_append]
      exact ⟨hnum, by omega, by omega, by omega⟩
    · simp only [content, pending_data, List.length_append]
      omega
    · simp [content, pending_data]

theorem append_body_spec (B : Nat) (hB : 0 < B) (slice : Slice) (pos : Nat) (w : S3FileWriter)
    (hp : pos < slice.length) (hi : append_inv B w) (hw : wait_ok w) :
    0 < (w.append_body B slice pos).2 ∧
    pos + (w.append_body B slice pos).2 ≤ slice.length ∧
    append_inv B (w.append_body B slice pos).1 ∧
    content (w.append_body B slice pos).1
      = content w ++ (slice.drop pos).take (w.append_body B slice pos).2 ∧
    wait_ok (w.append_body B slice pos).1 ∧
    exec_side (w.append_body B slice pos).1 = exec_side w := by
  obtain ⟨hfull, hnums, hcur, hpend, htotal⟩ := hi
  have hb0 : w.pending_or_allocate.part_num = w.cur_part_num ∧
      w.pending_or_allocate.data.length < B ∧
      w.pending_or_allocate.file_offset + w.pending_or_allocate.data.length = w.bytes_appended ∧
      content w = stream_of w.submitted ++ w.pending_or_allocate.data := by
    unfold pending_or_allocate
    cases hpb : w.pending_buf with
    | none => simp [content, pending_data, hpb, hB]
    | some b0 =>
      obtain ⟨h1, -, h3, h4⟩ := hpend b0 hpb
      exact ⟨h1, h3, h4, by simp [content, pending_data, hpb]⟩
  obtain ⟨h1, h2, h3, h4⟩ := hb0
  have hn : w.data_size_to_append B slice pos
      = min (slice.length - pos) (B - w.pending_or_allocate.data.length) := by
    unfold data_size_to_append
    congr 1
    omega
  have hlen : ((slice.drop pos).take (w.data_size_to_append B slice pos)).length
      = w.data_size_to_append B slice pos := by
    rw [hn]
    simp [List.length_take, List.length_drop]
  have htot : w.bytes_appended
      = (stream_of w.submitted).length + w.pending_or_allocate.data.length := by
    rw [htotal, h4, List.length_append]
  have hpos : 0 < w.data_size_to_append B slice pos := by rw [hn]; omega
  have hcap : w.pending_or_allocate.data.length + w.data_size_to_append B slice pos ≤ B := by
    rw [hn]; omega
  have hle : pos + w.data_size_to_append B slice pos ≤ slice.length := by rw [hn]; omega
  obtain ⟨k1, k2, k3, k4⟩ := append_piece_spec B w.pending_or_allocate
    ((slice.drop pos).take (w.data_size_to_append B slice pos))
    (w.data_size_to_append B slice pos) w hfull hnums hcur h1 h3 htot hlen hpos hcap hw
  refine ⟨hpos, hle, k1, ?_, k3, k4⟩
  show content (w.append_piece B w.pending_or_allocate _ _) = _
  rw [k2, h4]
  rfl

theorem append_loop_spec (B : Nat) (hB : 0 < B) (slice : Slice) (fuel pos : Nat)
    (w : S3FileWriter) (hp : pos ≤ slice.length) (hf : slice.length - pos ≤ fuel)
    (hi : append_inv B w) (hw : wait_ok w) :
    ∃ w1, append_loop B slice fuel pos w = some w1 ∧ append_inv B w1 ∧
      content w1 = content w ++ slice.drop pos ∧ wait_ok w1 ∧ exec_side w1 = exec_side w := by
  induction fuel generalizing pos w with
  | zero =>
    have : ¬ pos < slice.length := by omega
    refine ⟨w, ?_, hi, ?_, hw, rfl⟩
    · unfold append_loop; simp [this]
    · rw [List.drop_eq_nil_of_le (by omega), List.append_nil]
  | succ f ih =>
    by_cases hlt : pos < slice.length
    · obtain ⟨h1, h2, h3, h4, h5, h6⟩ := append_body_spec B hB slice pos w hlt hi hw
      obtain ⟨w1, k1, k2, k3, k4, k5⟩ := ih (pos + (w.append_body B slice pos).2)
        (w.append_body B slice pos).1 h2 (by omega) h3 h5
      refine ⟨w1, ?_, k2, ?_, k4, k5.trans h6⟩
      · rw [append_loop]; simp only [hlt, if_true]; exact k1
      · rw [k3, h4, List.append_assoc, ← List.drop_drop, List.take_append_drop]
    · refine ⟨w, ?_, hi, ?_, hw, rfl⟩
      · unfold append_loop; simp [hlt]
      · rw [List.drop_eq_nil_of_le (by omega), List.append_nil]

theorem append_slices_spec (B : Nat) (hB : 0 < B) (data : List Slice) (w : S3FileWriter)
    (hi : append_inv B w) (hw : wait_ok w) :
    ∃ w1, append_slices B data w = some w1 ∧ append_inv B w1 ∧
      content w1 = content w ++ data.flatten ∧ wait_ok w1 ∧ exec_side w1 = exec_side w := by
  induction data generalizing w with
  | nil => exact ⟨w, rfl, hi, by simp, hw, rfl⟩
  | cons s rest ih =>
    obtain ⟨w1, h1, h2, h3, h4, h5⟩ :=
      append_loop_spec B hB s (s.length + 1) 0 w (Nat.zero_le _) (by omega) hi hw
    obtain ⟨w2, k1, k2, k3, k4, k5⟩ := ih w1 h2 h4
    refine ⟨w2, ?_, k2, ?_, k4, k5.trans h5⟩
    · simp only [append_slices, h1]; exact k1
    · rw [k3, h3]; simp

theorem appendv_spec (B : Nat) (hB : 0 < B) (create : Outcome String) (data : List Slice)
    (w : S3FileWriter) (ho : w.opened = true) (hi : append_inv B w) (hw : wait_ok w) :
    ∃ w1, w.appendv B create data = some (w1, Status.OK) ∧ append_inv B w1 ∧
      content w1 = content w ++ data.flatten ∧ wait_ok w1 ∧ exec_side w1 = exec_side w := by
  obtain ⟨w1, h1, h2, h3, h4, h5⟩ := append_slices_spec B hB data w hi hw
  refine ⟨w1, ?_, h2, h3, h4, h5⟩
  simp [appendv, ho, h1]

theorem append_inv_of_side (B : Nat) (w w1 : S3FileWriter)
    (h : writer_side w1 = writer_side w) (hi : append_inv B w) :
    append_inv B w1 ∧ content w1 = content w := by
  simp only [writer_side, Prod.mk.injEq] at h
  obtain ⟨-, -, -, h4, h5, h6, h7⟩ := h
  obtain ⟨i1, i2, i3, i4, i5⟩ := hi
  have hc : content w1 = content w := by simp [content, pending_data, h6, h7]
  exact ⟨⟨by rw [h7]; exact i1, by rw [h7]; exact i2, by rw [h4, h7]; exact i3,
    by rw [h4, h5, h6]; exact i4, by rw [h5, hc]; exact i5⟩, hc⟩

/-- Runs of `appendv` calls and executor moves on an opened writer: every call returns
ok, the part assembly keeps its invariant, and the bytes taken are the bytes passed. -/
theorem run_append_spec (B : Nat) (hB : 0 < B) (ops : List Op) (w : S3FileWriter)
    (hops : ∀ op ∈ ops, op.is_append_or_exec = true)
    (ho : w.opened = true) (hi : append_inv B w) (hw : wait_ok w) :
    ∃ w1 sts, run B ops w = some (w1, sts) ∧ w1.opened = true ∧ w1.closed = w.closed ∧
      w1.upload_id = w.upload_id ∧ append_inv B w1 ∧ wait_ok w1 ∧
      content w1 = content w ++ bytes_of ops ∧ (∀ st ∈ sts, st = Status.OK) := by
  induction ops generalizing w with
  | nil => exact ⟨w, [], rfl, ho, rfl, rfl, hi, hw, by simp [bytes_of], by simp⟩
  | cons op rest ih =>
    have hrest : ∀ op ∈ rest, op.is_append_or_exec = true :=
      fun o ho => hops o (List.mem_cons_of_mem _ ho)
    have hop := hops op (List.mem_cons_self _ _)
    cases op with
    | appendv c d =>
      obtain ⟨w1, h1, h2, h3, h4, h5⟩ := appendv_spec B hB c d w ho hi hw
      simp only [exec_side, Prod.mk.injEq] at h5
      obtain ⟨e1, e2, e3, -⟩ := h5
      obtain ⟨w2, sts, k1, k2, k3, k4, k5, k6, k7, k8⟩ := ih w1 hrest (by rw [e2, ho]) h2 h4
      refine ⟨w2, Status.OK :: sts, ?_, k2, by rw [k3, e3], by rw [k4, e1], k5, k6, ?_, ?_⟩
      · simp only [run, step, h1, k1]
      · rw [k7, h3]; simp [bytes_of, Op.bytes]
      · intro st hst
        rcases List.mem_cons.mp hst with rfl | hst
        · rfl
        · exact k8 st hst
    | exec s =>
      have hs := exec_step_side s w
      obtain ⟨i1, i2⟩ := append_inv_of_side B w _ hs hi
      simp only [writer_side, Prod.mk.injEq] at hs
      obtain ⟨e1, e2, e3, -⟩ := hs
      obtain ⟨w2, sts, k1, k2, k3, k4, k5, k6, k7, k8⟩ :=
        ih (w.exec_step s) hrest (by rw [e2, ho]) i1 (exec_step_ok s w hw)
      refine ⟨w2, Status.OK :: sts, ?_, k2, by rw [k3, e3], by rw [k4, e1], k5, k6, ?_, ?_⟩
      · simp only [run, step, k1]
      · rw [k7, i2]; simp [bytes_of, Op.bytes]
      · intro st hst
        rcases List.mem_cons.mp hst with rfl | hst
        · rfl
        · exact k8 st hst
    | open_ o => simp [Op.is_append_or_exec] at hop
    | finalize => simp [Op.is_append_or_exec] at hop
    | close e s o => simp [Op.is_append_or_exec] at hop
    | abort s o => simp [Op.is_append_or_exec] at hop

theorem close_submit_ok (w : S3FileWriter) (hw : wait_ok w) : wait_ok w.close_submit := by
  unfold close_submit
  cases w.pending_buf with
  | none => exact hw
  | some b =>
    unfold wait_ok at hw ⊢
    simp [submit, hw]
    omega

theorem complete_returns (sched : Nat → ExecStep) (o : Outcome Unit) (w : S3FileWriter)
    (hw : wait_ok w) : ∃ w1 st, w._complete sched o = some (w1, st) := by
  unfold _complete
  by_cases hf : w.failed = true
  · exact ⟨w, w.st, by simp [hf]⟩
  · obtain ⟨w1, h1, -⟩ := wait_all_returns sched w hw
    simp only [hf, h1]
    cases o <;> exact ⟨_, _, rfl⟩

/-- On a writer that is not closed and whose wait group is consistent, `close`
returns, and the writer thread's members are those left by its first statements. -/
theorem close_returns (early : List ExecStep) (sched : Nat → ExecStep) (o : Outcome Unit)
    (w : S3FileWriter) (hc : w.closed = false) (hw : wait_ok w) :
    ∃ w2 st, w.close early sched o = some (w2, st) ∧
      writer_side w2 = writer_side w.close_submit := by
  obtain ⟨w1, st, h⟩ := complete_returns sched o (w.close_submit.exec_steps early)
    (exec_steps_ok early _ (close_submit_ok w hw))
  have hs := complete_side sched o _ w1 st h
  rw [exec_steps_side] at hs
  cases hok : st.ok
  · exact ⟨w1, st, by simp [close, hc, h, hok], hs⟩
  · exact ⟨w1, Status.OK, by simp [close, hc, h, hok], hs⟩

theorem ceil_div_full (B k : Nat) (hB : 0 < B) : (k * B + B - 1) / B = k := by
  apply Nat.div_eq_of_lt_le
  · omega
  · rw [Nat.succ_mul]; omega

theorem ceil_div_part (B k p : Nat) (h0 : 0 < p) (hp : p < B) :
    (k * B + p + B - 1) / B = k + 1 := by
  apply Nat.div_eq_of_lt_le
  · rw [Nat.succ_mul]; omega
  · rw [Nat.succ_mul, Nat.succ_mul]; omega

theorem mod_part (B k p : Nat) (hp : p < B) : (k * B + p) % B = p := by
  rw [Nat.add_comm, Nat.add_mul_mod_self_right, Nat.mod_eq_of_lt hp]

/-- The buffers submitted once `close` has submitted the pending one, for a writer
whose part assembly is in its invariant: their bytes, their part numbers, their
number and their sizes. -/
theorem final_parts (B : Nat) (hB : 0 < B) (w : S3FileWriter) (hi : append_inv B w) :
    stream_of w.close_submit.submitted = content w ∧
    w.close_submit.submitted.map (fun b => b.part_num)
      = List.range' 1 w.close_submit.submitted.length ∧
    w.close_submit.submitted.length = ((content w).length + B - 1) / B ∧
    (∀ b ∈ w.close_submit.submitted.dropLast, b.get_size = B) ∧
    (∀ b, w.close_submit.submitted.getLast? = some b →
      b.get_size = if (content w).length % B = 0 then B else (content w).length % B) := by
  obtain ⟨hfull, hnums, hcur, hpend, -⟩ := hi
  have hlen := stream_of_length B w.submitted hfull
  cases hpb : w.pending_buf with
  | none =>
    have hs : w.close_submit.submitted = w.submitted := by simp [close_submit, hpb]
    have hc : content w = stream_of w.submitted := by simp [content, pending_data, hpb]
    rw [hs, hc, hlen]
    refine ⟨rfl, hnums, (ceil_div_full B _ hB).symm, ?_, ?_⟩
    · intro b hb
      exact hfull b (List.mem_of_mem_dropLast hb)
    · intro b hb
      simp only [Nat.mul_mod_left, if_true]
      exact hfull b (List.mem_of_mem_getLast? hb)
  | some b0 =>
    obtain ⟨h1, h2, h3, -⟩ := hpend b0 hpb
    simp only [S3FileBuffer.get_size] at h2 h3
    have hs : w.close_submit.submitted = w.submitted ++ [b0] := by
      simp [close_submit, hpb, submit]
    have hc : content w = stream_of w.submitted ++ b0.data := by
      simp [content, pending_data, hpb]
    have hcl : (stream_of w.submitted ++ b0.data).length
        = w.submitted.length * B + b0.data.length := by
      rw [List.length_append, hlen]
    rw [hs, hc, hcl]
    refine ⟨by simp [stream_of_append, stream_of], ?_, ?_, ?_, ?_⟩
    · simp [hnums, List.range'_concat, h1, hcur]
      omega
    · rw [ceil_div_part B _ _ h2 h3]; simp
    · intro b hb
      rw [List.dropLast_concat] at hb
      exact hfull b hb
    · intro b hb
      rw [List.getLast?_concat] at hb
      cases hb
      rw [mod_part B _ _ h3]
      have : b0.data.length ≠ 0 := by omega
      simp [S3FileBuffer.get_size, this]

theorem fresh_spec (B : Nat) (closed0 : Bool) (id : String) :
    (fresh closed0 id).opened = true ∧ (fresh closed0 id).closed = false ∧
    append_inv B (fresh closed0 id) ∧ wait_ok (fresh closed0 id) ∧
    content (fresh closed0 id) = [] := by
  refine ⟨rfl, rfl, ⟨?_, ?_, ?_, ?_, ?_⟩, ?_, ?_⟩
  · intro b hb; simp [fresh, S3FileWriter.init, open_] at hb
  · simp [fresh, S3FileWriter.init, open_]
  · simp [fresh, S3FileWriter.init, open_]
  · intro b hb; simp [fresh, S3FileWriter.init, open_] at hb
  · simp [fresh, S3FileWriter.init, open_, content, pending_data, stream_of]
  · simp [fresh, S3FileWriter.init, open_, wait_ok]
  · simp [fresh, S3FileWriter.init, open_, content, pending_data, stream_of]

theorem sorted_of_nums (xs : List S3FileBuffer) (n : Nat)
    (h : xs.map (fun b => b.part_num) = List.range' 1 n) : List.Sorted buf_le xs := by
  have h1 : List.Pairwise (fun a b : Nat => a < b) (xs.map (fun b => b.part_num)) := by
    rw [h]; exact List.pairwise_lt_range' 1 n
  rw [List.pairwise_map] at h1
  exact h1.imp (fun hab => Nat.le_of_lt hab)

/-- A run of `appendv` calls and executor moves on a newly opened writer, then
`close`: both return, and the buffers submitted in the end are those of the part
assembly with the pending buffer behind them. -/
theorem run_close_spec (B : Nat) (hB : 0 < B) (closed0 : Bool) (id : String) (ops : List Op)
    (hops : ∀ op ∈ ops, op.is_append_or_exec = true)
    (early : List ExecStep) (sched : Nat → ExecStep) (o : Outcome Unit) :
    ∃ w1 sts w2 st, run B ops (fresh closed0 id) = some (w1, sts) ∧
      w1.close early sched o = some (w2, st) ∧
      w2.submitted = w1.close_submit.submitted ∧
      append_inv B w1 ∧ content w1 = bytes_of ops := by
  obtain ⟨f1, f2, f3, f4, f5⟩ := fresh_spec B closed0 id
  obtain ⟨w1, sts, h1, h2, h3, -, h5, h6, h7, -⟩ :=
    run_append_spec B hB ops (fresh closed0 id) hops f1 f3 f4
  obtain ⟨w2, st, k1, k2⟩ := close_returns early sched o w1 (by rw [h3, f2]) h6
  refine ⟨w1, sts, w2, st, h1, k1, ?_, h5, by rw [h7, f5]; rfl⟩
  have := congrArg (fun t => t.2.2.2.2.2.2) k2
  simpa [writer_side] using this

/-! ## The failure flag -/

theorem exec_start_failed (i : Nat) (w : S3FileWriter) (hf : w.failed = true) :
    (w.exec_start i).failed = true ∧ (w.exec_start i).sent = w.sent := by
  unfold exec_start
  cases h : w.queue.get? i with
  | none => exact ⟨hf, rfl⟩
  | some b => simp [_upload_one_part_issue, is_cancel, hf, finish_upload]

theorem exec_finish_failed (j : Nat) (o : Outcome String) (w : S3FileWriter)
    (hf : w.failed = true) :
    (w.exec_finish j o).failed = true ∧ (w.exec_finish j o).sent = w.sent := by
  unfold exec_finish
  cases h : w.inflight.get? j with
  | none => exact ⟨hf, rfl⟩
  | some b => cases o <;> simp [_upload_one_part_result, on_failed, finish_upload, hf]

/-- Once `failed` is set, an executor move keeps it set and sends no request. -/
theorem exec_step_failed (s : ExecStep) (w : S3FileWriter) (hf : w.failed = true) :
    (w.exec_step s).failed = true ∧ (w.exec_step s).sent = w.sent := by
  unfold exec_step
  split
  · exact exec_start_failed _ w hf
  · split
    · exact exec_finish_failed _ _ w hf
    · split
      · exact exec_start_failed _ w hf
      · exact ⟨hf, rfl⟩

theorem exec_steps_failed (ss : List ExecStep) (w : S3FileWriter) (hf : w.failed = true) :
    (w.exec_steps ss).failed = true ∧ (w.exec_steps ss).sent = w.sent := by
  induction ss generalizing w with
  | nil => exact ⟨hf, rfl⟩
  | cons s ss ih =>
    obtain ⟨h1, h2⟩ := exec_step_failed s w hf
    obtain ⟨k1, k2⟩ := ih (w.exec_step s) h1
    exact ⟨k1, k2.trans h2⟩

/-- In a writer whose part assembly is in its invariant, the number of submitted
buffers and the part counter are given by the number of bytes taken. -/
theorem inv_counts (B : Nat) (hB : 0 < B) (w : S3FileWriter) (hi : append_inv B w) :
    w.submitted.map (fun b => b.part_num) = List.range' 1 ((content w).length / B) ∧
    w.cur_part_num = (content w).length / B + 1 := by
  obtain ⟨hfull, hnums, hcur, hpend, -⟩ := hi
  have hlen := stream_of_length B w.submitted hfull
  have hk : (content w).length / B = w.submitted.length := by
    cases hpb : w.pending_buf with
    | none =>
      have hc : content w = stream_of w.submitted := by simp [content, pending_data, hpb]
      rw [hc, hlen]
      exact Nat.mul_div_cancel _ hB
    | some b0 =>
      obtain ⟨-, h2, h3, -⟩ := hpend b0 hpb
      simp only [S3FileBuffer.get_size] at h2 h3
      have hc : content w = stream_of w.submitted ++ b0.data := by
        simp [content, pending_data, hpb]
      rw [hc, List.length_append, hlen]
      apply Nat.div_eq_of_lt_le
      · omega
      · rw [Nat.succ_mul]; omega
  rw [hk]
  exact ⟨hnums, hcur⟩

/-- A run of `appendv` calls and executor moves on a newly opened writer returns ok
throughout and leaves the part assembly in its invariant. -/
theorem run_fresh_spec (B : Nat) (hB : 0 < B) (closed0 : Bool) (id : String) (ops : List Op)
    (hops : ∀ op ∈ ops, op.is_append_or_exec = true) :
    ∃ w1 sts, run B ops (fresh closed0 id) = some (w1, sts) ∧ (∀ st ∈ sts, st = Status.OK) ∧
      append_inv B w1 ∧ content w1 = bytes_of ops := by
  obtain ⟨f1, -, f3, f4, f5⟩ := fresh_spec B closed0 id
  obtain ⟨w1, sts, h1, -, -, -, h5, -, h7, h8⟩ :=
    run_append_spec B hB ops (fresh closed0 id) hops f1 f3 f4
  exact ⟨w1, sts, h1, h8, h5, by rw [h7, f5]; rfl⟩

/-! ## Frame of `appendv` on the failure record -/

theorem append_piece_exec_side (B : Nat) (buf : S3FileBuffer) (piece : Slice) (n : Nat)
    (w : S3FileWriter) : exec_side (w.append_piece B buf piece n) = exec_side w := by
  rw [append_piece_eq]
  split <;> rfl

theorem append_loop_exec_side (B : Nat) (slice : Slice) (fuel pos : Nat) (w w1 : S3FileWriter)
    (h : append_loop B slice fuel pos w = some w1) : exec_side w1 = exec_side w := by
  induction fuel generalizing pos w with
  | zero =>
    unfold append_loop at h
    split at h
    · cases h
    · cases h; rfl
  | succ f ih =>
    unfold append_loop at h
    split at h
    · rw [ih _ _ h]
      exact append_piece_exec_side _ _ _ _ _
    · cases h; rfl

theorem append_slices_exec_side (B : Nat) (data : List Slice) (w w1 : S3FileWriter)
    (h : append_slices B data w = some w1) : exec_side w1 = exec_side w := by
  induction data generalizing w with
  | nil => cases h; rfl
  | cons s rest ih =>
    unfold append_slices at h
    cases hl : append_loop B s (s.length + 1) 0 w with
    | none => simp [hl] at h
    | some w2 =>
      simp only [hl] at h
      rw [ih _ h]
      exact append_loop_exec_side B s _ _ w w2 hl

theorem appendv_fail_inv (B : Nat) (c : Outcome String) (data : List Slice)
    (w w1 : S3FileWriter) (st : Status) (h : w.appendv B c data = some (w1, st))
    (hi : fail_inv w) : fail_inv w1 := by
  have hopen : ∀ w2 st2, (if (!w.opened) = true then w.open_ c else (w, Status.OK)) = (w2, st2) →
      w2.failed = w.failed ∧ w2.st = w.st := by
    intro w2 st2 h2
    split at h2
    · unfold open_ at h2
      cases c <;> simp at h2 <;> obtain ⟨rfl, -⟩ := h2 <;> exact ⟨rfl, rfl⟩
    · cases h2; exact ⟨rfl, rfl⟩
  unfold appendv at h
  generalize hr : (if (!w.opened) = true then w.open_ c else (w, Status.OK)) = r at h
  obtain ⟨w2, st2⟩ := r
  obtain ⟨e1, e2⟩ := hopen w2 st2 hr
  cases st2 with
  | IOError m =>
    simp at h
    obtain ⟨rfl, -⟩ := h
    unfold fail_inv at hi ⊢
    rw [e1, e2]; exact hi
  | OK =>
    simp only at h
    cases hs : append_slices B data w2 with
    | none => simp [hs] at h
    | some w3 =>
      simp [hs] at h
      obtain ⟨rfl, -⟩ := h
      have hx := append_slices_exec_side B data w2 w3 hs
      simp only [exec_side, Prod.mk.injEq] at hx
      obtain ⟨-, -, -, x4, x5, -⟩ := hx
      unfold fail_inv at hi ⊢
      rw [x4, x5, e1, e2]; exact hi

theorem exec_step_fail_inv (s : ExecStep) (w : S3FileWriter) (hi : fail_inv w) :
    fail_inv (w.exec_step s) := by
  have hstart : ∀ i, fail_inv (w.exec_start i) := by
    intro i
    unfold exec_start
    cases h : w.queue.get? i with
    | none => exact hi
    | some b =>
      unfold fail_inv at hi ⊢
      simp only [_upload_one_part_issue, is_cancel]
      cases hf : w.failed <;> simp [finish_upload, hf] at hi ⊢
      exact hi
  have hfinish : ∀ j o, fail_inv (w.exec_finish j o) := by
    intro j o
    unfold exec_finish
    cases h : w.inflight.get? j with
    | none => exact hi
    | some b =>
      unfold fail_inv at hi ⊢
      cases o <;> simp [_upload_one_part_result, on_failed, finish_upload]
      exact hi
  unfold exec_step
  split
  · exact hstart _
  · split
    · exact hfinish _ _
    · split
      · exact hstart _
      · exact hi

theorem exec_steps_fail_inv (ss : List ExecStep) (w : S3FileWriter) (hi : fail_inv w) :
    fail_inv (w.exec_steps ss) := by
  induction ss generalizing w with
  | nil => exact hi
  | cons s ss ih => exact ih _ (exec_step_fail_inv s w hi)

theorem wait_loop_fail_inv (sched : Nat → ExecStep) (fuel : Nat) (w w1 : S3FileWriter)
    (h : wait_loop sched fuel w = some w1) (hi : fail_inv w) : fail_inv w1 := by
  induction fuel generalizing w with
  | zero =>
    unfold wait_loop at h
    split at h
    · cases h; exact hi
    · cases h
  | succ f ih =>
    unfold wait_loop at h
    split at h
    · cases h; exact hi
    · exact ih _ h (exec_step_fail_inv _ w hi)

theorem complete_fail_inv (sched : Nat → ExecStep) (o : Outcome Unit) (w w1 : S3FileWriter)
    (st : Status) (h : w._complete sched o = some (w1, st)) (hi : fail_inv w) :
    fail_inv w1 := by
  unfold _complete at h
  split at h
  · cases h; exact hi
  · cases hw : w.wait_all sched with
    | none => simp [hw] at h
    | some w2 =>
      have h2 := wait_loop_fail_inv sched _ w w2 hw hi
      simp only [hw] at h
      cases o <;> simp at h <;> obtain ⟨rfl, -⟩ := h <;> exact h2

theorem close_fail_inv (early : List ExecStep) (sched : Nat → ExecStep) (o : Outcome Unit)
    (w w1 : S3FileWriter) (st : Status) (h : w.close early sched o = some (w1, st))
    (hi : fail_inv w) : fail_inv w1 := by
  unfold close at h
  split at h
  · cases h; exact hi
  · have hcs : fail_inv w.close_submit := by
      unfold close_submit
      cases w.pending_buf <;> exact hi
    cases hc : (w.close_submit.exec_steps early)._complete sched o with
    | none => simp [hc] at h
    | some r =>
      obtain ⟨w2, st2⟩ := r
      have h2 := complete_fail_inv sched o _ w2 st2 hc (exec_steps_fail_inv early _ hcs)
      simp only [hc] at h
      split at h <;> cases h <;> exact h2

/-! ## Properties kept by every operation -/

/-- A property of writer states that the elementary state changes keep is kept by
every operation that returns. -/
theorem step_preserves (B : Nat) (P : S3FileWriter → Prop)
    (h_open : ∀ w o, P w → P (w.open_ o).1)
    (h_body : ∀ w slice pos, pos < slice.length → P w → P (w.append_body B slice pos).1)
    (h_fin : ∀ w, P w → P w.finalize.1)
    (h_cs : ∀ w, P w → P w.close_submit)
    (h_exec : ∀ w s, P w → P (w.exec_step s))
    (h_sort : ∀ w, P w →
      P { w with completed_parts := w.completed_parts.insertionSort part_le })
    (h_sent : ∀ w r, P w → P { w with sent := w.sent ++ [r] })
    (h_failed : ∀ w, P w → P { w with failed := true })
    (h_closed : ∀ w, P w → P { w with closed := true })
    (op : Op) (w w1 : S3FileWriter) (st : Status) (hP : P w)
    (h : step B op w = some (w1, st)) : P w1 := by
  have h_loop : ∀ slice fuel pos v v1, P v → append_loop B slice fuel pos v = some v1 → P v1 := by
    intro slice fuel
    induction fuel with
    | zero =>
      intro pos v v1 hv hl
      unfold append_loop at hl
      split at hl
      · cases hl
      · cases hl; exact hv
    | succ f ih =>
      intro pos v v1 hv hl
      unfold append_loop at hl
      split at hl
      · rename_i hlt
        exact ih _ _ v1 (h_body v slice pos hlt hv) hl
      · cases hl; exact hv
  have h_slices : ∀ data v v1, P v → append_slices B data v = some v1 → P v1 := by
    intro data
    induction data with
    | nil => intro v v1 hv hs; cases hs; exact hv
    | cons s rest ih =>
      intro v v1 hv hs
      unfold append_slices at hs
      cases hl : append_loop B s (s.length + 1) 0 v with
      | none => simp [hl] at hs
      | some v2 =>
        simp only [hl] at hs
        exact ih v2 v1 (h_loop s _ 0 v v2 hv hl) hs
  have h_wait : ∀ sched fuel v v1, P v → wait_loop sched fuel v = some v1 → P v1 := by
    intro sched fuel
    induction fuel with
    | zero =>
      intro v v1 hv hl
      unfold wait_loop at hl
      split at hl
      · cases hl; exact hv
      · cases hl
    | succ f ih =>
      intro v v1 hv hl
      unfold wait_loop at hl
      split at hl
      · cases hl; exact hv
      · exact ih _ v1 (h_exec v _ hv) hl
  have h_execs : ∀ ss v, P v → P (v.exec_steps ss) := by
    intro ss
    induction ss with
    | nil => intro v hv; exact hv
    | cons s ss ih => intro v hv; exact ih _ (h_exec v s hv)
  cases op with
  | open_ o =>
    simp only [step, Option.some.injEq] at h
    have := h_open w o hP
    rw [h] at this
    exact this
  | appendv c d =>
    simp only [step] at h
    unfold appendv at h
    have hP2 : P (if (!w.opened) = true then w.open_ c else (w, Status.OK)).1 := by
      split
      · exact h_open w c hP
      · exact hP
    generalize (if (!w.opened) = true then w.open_ c else (w, Status.OK)) = r at h hP2
    obtain ⟨w2, st2⟩ := r
    cases st2 with
    | IOError m =>
      simp at h
      obtain ⟨rfl, -⟩ := h
      exact hP2
    | OK =>
      simp only at h
      cases hs : append_slices B d w2 with
      | none => simp [hs] at h
      | some w3 =>
        simp [hs] at h
        obtain ⟨rfl, -⟩ := h
        exact h_slices d w2 w3 hP2 hs
  | finalize =>
    simp only [step, Option.some.injEq] at h
    have := h_fin w hP
    rw [h] at this
    exact this
  | close e s o =>
    simp only [step] at h
    unfold close at h
    split at h
    · cases h; exact hP
    · have hP2 := h_execs e _ (h_cs w hP)
      generalize w.close_submit.exec_steps e = v at h hP2
      have hc : ∀ v1 st1, v._complete s o = some (v1, st1) → P v1 := by
        intro v1 st1 hcm
        unfold _complete at hcm
        split at hcm
        · cases hcm; exact hP2
        · cases hw : v.wait_all s with
          | none => simp [hw] at hcm
          | some v2 =>
            have hv2 := h_wait s _ v v2 hP2 hw
            have hv3 := h_sent _ (Request.CompleteMultipartUpload v2.upload_id
              (v2.completed_parts.insertionSort part_le)) (h_sort v2 hv2)
            simp only [hw] at hcm
            cases o <;> simp at hcm <;> obtain ⟨rfl, -⟩ := hcm <;> exact hv3
      cases hcm : v._complete s o with
      | none => simp [hcm] at h
      | some r =>
        obtain ⟨v1, st1⟩ := r
        simp only [hcm] at h
        split at h <;> cases h <;> exact hc _ _ hcm
  | abort s o =>
    simp only [step] at h
    unfold abort at h
    simp only at h
    split at h
    · cases h; exact h_failed w hP
    · have hP2 := h_closed _ (h_failed w hP)
      cases hw : ({ w with failed := true, closed := true } : S3FileWriter).wait_all s with
      | none => simp [hw] at h
      | some v2 =>
        have hv2 := h_wait s _ _ v2 hP2 hw
        have hv3 := h_sent _ (Request.AbortMultipartUpload v2.upload_id) hv2
        simp only [hw] at h
        cases o with
        | success r => simp at h; obtain ⟨rfl, -⟩ := h; exact hv3
        | failure e =>
          simp only at h
          split at h <;> cases h <;> exact hv3
  | exec s =>
    simp only [step, Option.some.injEq, Prod.mk.injEq] at h
    obtain ⟨rfl, -⟩ := h
    exact h_exec w s hP

/-- A property kept by every operation holds after every run that returns. -/
theorem run_preserves (B : Nat) (P : S3FileWriter → Prop)
    (hstep : ∀ (op : Op) (w w1 : S3FileWriter) (st : Status), P w →
      step B op w = some (w1, st) → P w1)
    (ops : List Op) (v w : S3FileWriter) (sts : List Status) (hv : P v)
    (h : run B ops v = some (w, sts)) : P w := by
  induction ops generalizing v sts with
  | nil =>
    simp only [run, Option.some.injEq, Prod.mk.injEq] at h
    obtain ⟨rfl, -⟩ := h
    exact hv
  | cons op rest ih =>
    unfold run at h
    cases hs : step B op v with
    | none => simp [hs] at h
    | some r =>
      obtain ⟨v1, st1⟩ := r
      simp only [hs] at h
      cases hr : run B rest v1 with
      | none => simp [hr] at h
      | some r2 =>
        obtain ⟨v2, sts2⟩ := r2
        simp only [hr, Option.some.injEq, Prod.mk.injEq] at h
        obtain ⟨rfl, -⟩ := h
        exact ih v1 sts2 (hstep op v v1 st1 hv hs) hr

theorem append_body_wait_ok (B : Nat) (slice : Slice) (pos : Nat) (w : S3FileWriter)
    (hw : wait_ok w) : wait_ok (w.append_body B slice pos).1 := by
  show wait_ok (w.append_piece B _ _ _)
  rw [append_piece_eq]
  unfold wait_ok at hw ⊢
  split
  · simp [hw]; omega
  · exact hw

theorem finalize_wait_ok (w : S3FileWriter) (hw : wait_ok w) : wait_ok w.finalize.1 := by
  unfold finalize
  cases w.pending_buf with
  | none => exact hw
  | some b =>
    unfold wait_ok at hw ⊢
    simp [submit, hw]
    omega

theorem open_wait_ok (w : S3FileWriter) (o : Outcome String) (hw : wait_ok w) :
    wait_ok (w.open_ o).1 := by
  unfold open_
  cases o <;> exact hw

/-- Every operation keeps the wait group consistent with the executor. -/
theorem step_wait_ok (B : Nat) (op : Op) (w w1 : S3FileWriter) (st : Status)
    (hw : wait_ok w) (h : step B op w = some (w1, st)) : wait_ok w1 :=
  step_preserves B wait_ok open_wait_ok
    (fun w slice pos _ hw => append_body_wait_ok B slice pos w hw)
    finalize_wait_ok close_submit_ok (fun w s hw => exec_step_ok s w hw)
    (fun _ hw => hw) (fun _ _ hw => hw) (fun _ hw => hw) (fun _ hw => hw) op w w1 st hw h

theorem init_wait_ok (closed0 : Bool) : wait_ok (S3FileWriter.init closed0) := by
  simp [wait_ok, S3FileWriter.init]

/-- In every state reached from the initial one the wait group is consistent with the
executor. -/
theorem run_wait_ok (B : Nat) (closed0 : Bool) (ops : List Op) (w : S3FileWriter)
    (sts : List Status) (h : run B ops (S3FileWriter.init closed0) = some (w, sts)) :
    wait_ok w :=
  run_preserves B wait_ok (fun op v v1 st hv hs => step_wait_ok B op v v1 st hv hs)
    ops _ w sts (init_wait_ok closed0) h

/-- Whenever `close` returns on a writer that is not closed, the writer thread's
members are those left by its first statements. -/
theorem close_returns_side (early : List ExecStep) (sched : Nat → ExecStep) (o : Outcome Unit)
    (w w1 : S3FileWriter) (st : Status) (hc : w.closed = false)
    (h : w.close early sched o = some (w1, st)) :
    ∃ w2 st2, (w.close_submit.exec_steps early)._complete sched o = some (w2, st2) ∧
      writer_side w1 = writer_side w.close_submit := by
  unfold close at h
  simp only [hc, Bool.false_eq_true, if_false] at h
  cases hcm : (w.close_submit.exec_steps early)._complete sched o with
  | none => simp [hcm] at h
  | some r =>
    obtain ⟨w2, st2⟩ := r
    have hs := complete_side sched o _ w2 st2 hcm
    rw [exec_steps_side] at hs
    simp only [hcm] at h
    refine ⟨w2, st2, rfl, ?_⟩
    split at h <;> cases h <;> exact hs

/-- The three ways in which `appendv` returns: on an opened writer through the loops;
on a writer that is not opened through a failed `open`, or through a successful
`open` and the loops. -/
theorem appendv_cases (B : Nat) (c : Outcome String) (d : List Slice) (w w1 : S3FileWriter)
    (st : Status) (h : w.appendv B c d = some (w1, st)) :
    (w.opened = true ∧ append_slices B d w = some w1 ∧ st = Status.OK) ∨
    (w.opened = false ∧ ∃ e, c = Outcome.failure e ∧ w1 = (w.open_ c).1 ∧
      st = Status.IOError e.message) ∨
    (w.opened = false ∧ ∃ id, c = Outcome.success id ∧
      append_slices B d (w.open_ c).1 = some w1 ∧ st = Status.OK) := by
  unfold appendv at h
  cases ho : w.opened with
  | true =>
    left
    simp only [ho, Bool.not_true, Bool.false_eq_true, if_false] at h
    cases hs : append_slices B d w with
    | none => simp [hs] at h
    | some w3 =>
      simp [hs] at h
      exact ⟨rfl, by rw [h.1], h.2.symm⟩
  | false =>
    right
    simp only [ho, Bool.not_false, if_true] at h
    cases c with
    | failure e =>
      left
      simp [open_] at h
      exact ⟨rfl, e, rfl, h.1.symm, h.2.symm⟩
    | success id =>
      right
      have ho1 : (w.open_ (Outcome.success id)).2 = Status.OK := rfl
      generalize hr : w.open_ (Outcome.success id) = r at h ho1
      obtain ⟨v, stv⟩ := r
      simp only at ho1
      subst ho1
      simp only at h
      cases hs : append_slices B d v with
      | none => simp [hs] at h
      | some w3 =>
        simp [hs] at h
        exact ⟨rfl, id, rfl, by rw [h.1], h.2.symm⟩

/-! ## The part assembly as a function of the byte stream -/

theorem pending_or_allocate_ok (B : Nat) (hB : 0 < B) (w : S3FileWriter) (hp : pend_ok B w) :
    w.pending_or_allocate.data.length < B ∧
    w.pending_or_allocate.file_offset + w.pending_or_allocate.data.length
      = w.bytes_appended := by
  unfold pending_or_allocate
  cases hpb : w.pending_buf with
  | none => exact ⟨hB, rfl⟩
  | some b => exact hp b hpb

theorem push_eq (B : Nat) (w : S3FileWriter) (x : UInt8)
    (h : w.pending_or_allocate.data.length + 1 ≠ B) :
    push B w x = { w with
      pending_buf := some ⟨w.pending_or_allocate.part_num, w.pending_or_allocate.file_offset,
        w.pending_or_allocate.data ++ [x]⟩,
      bytes_appended := w.bytes_appended + 1 } := by
  unfold push
  rw [append_piece_eq]
  simp only [List.length_singleton]
  rw [if_neg h]

theorem push_pend_ok (B : Nat) (hB : 0 < B) (w : S3FileWriter) (x : UInt8)
    (hp : pend_ok B w) : pend_ok B (push B w x) := by
  obtain ⟨h1, h2⟩ := pending_or_allocate_ok B hB w hp
  by_cases h : w.pending_or_allocate.data.length + 1 = B
  · unfold push
    rw [append_piece_eq]
    simp only [List.length_singleton]
    rw [if_pos h]
    intro b hb
    simp at hb
  · rw [push_eq B w x h]
    intro b hb
    simp only [Option.some.injEq] at hb
    subst hb
    simp only [S3FileBuffer.get_size, List.length_append, List.length_singleton]
    exact ⟨by omega, by omega⟩

theorem feed_pend_ok (B : Nat) (hB : 0 < B) (bytes : List UInt8) (w : S3FileWriter)
    (hp : pend_ok B w) : pend_ok B (feed B w bytes) := by
  induction bytes generalizing w with
  | nil => exact hp
  | cons x rest ih => exact ih _ (push_pend_ok B hB w x hp)

theorem feed_append (B : Nat) (w : S3FileWriter) (xs ys : List UInt8) :
    feed B w (xs ++ ys) = feed B (feed B w xs) ys := by
  unfold feed
  rw [List.foldl_append]

/-- A piece that fits into the buffer in hand is taken as its bytes one by one. -/
theorem append_piece_feed (B : Nat) (piece : Slice) (w : S3FileWriter) (hne : piece ≠ [])
    (hcap : w.pending_or_allocate.data.length + piece.length ≤ B) :
    w.append_piece B w.pending_or_allocate piece piece.length = feed B w piece := by
  induction piece generalizing w with
  | nil => exact absurd rfl hne
  | cons x rest ih =>
    cases rest with
    | nil => rfl
    | cons y rest =>
      simp only [List.length_cons] at hcap
      have hx : w.pending_or_allocate.data.length + 1 ≠ B := by omega
      have hpush := push_eq B w x hx
      have hpoa : (push B w x).pending_or_allocate
          = ⟨w.pending_or_allocate.part_num, w.pending_or_allocate.file_offset,
              w.pending_or_allocate.data ++ [x]⟩ := by
        rw [hpush]; rfl
      have hih := ih (push B w x) (by simp) (by
        rw [hpoa]
        simp only [List.length_append, List.length_singleton, List.length_cons,
          List.length_nil, Nat.zero_add]
        omega)
      show _ = feed B (push B w x) (y :: rest)
      rw [← hih, hpoa, append_piece_eq, append_piece_eq, hpush]
      simp only [List.length_cons, List.length_append, List.length_singleton,
        List.append_assoc, List.singleton_append, List.length_nil, Nat.zero_add]
      have e1 : w.pending_or_allocate.data.length + (rest.length + 1 + 1) = B ↔
          w.pending_or_allocate.data.length + 1 + (rest.length + 1) = B := by omega
      by_cases hf : w.pending_or_allocate.data.length + (rest.length + 1 + 1) = B
      · rw [if_pos hf, if_pos (e1.mp hf)]
        simp only [Nat.add_assoc, Nat.add_comm 1]
      · rw [if_neg hf, if_neg (fun h => hf (e1.mpr h))]
        simp only [Nat.add_assoc, Nat.add_comm 1]

theorem append_body_feed (B : Nat) (hB : 0 < B) (slice : Slice) (pos : Nat) (w : S3FileWriter)
    (hlt : pos < slice.length) (hp : pend_ok B w) :
    0 < (w.append_body B slice pos).2 ∧
    pos + (w.append_body B slice pos).2 ≤ slice.length ∧
    (w.append_body B slice pos).1
      = feed B w ((slice.drop pos).take (w.append_body B slice pos).2) := by
  obtain ⟨h1, h2⟩ := pending_or_allocate_ok B hB w hp
  have hn : w.data_size_to_append B slice pos
      = min (slice.length - pos) (B - w.pending_or_allocate.data.length) := by
    unfold data_size_to_append
    congr 1
    omega
  have hlen : ((slice.drop pos).take (w.data_size_to_append B slice pos)).length
      = w.data_size_to_append B slice pos := by
    rw [hn]
    simp [List.length_take, List.length_drop]
  have hpos : 0 < w.data_size_to_append B slice pos := by rw [hn]; omega
  refine ⟨hpos, by show pos + w.data_size_to_append B slice pos ≤ _; rw [hn]; omega, ?_⟩
  show w.append_piece B w.pending_or_allocate _ (w.data_size_to_append B slice pos)
    = feed B w ((slice.drop pos).take (w.data_size_to_append B slice pos))
  have hne : (slice.drop pos).take (w.data_size_to_append B slice pos) ≠ [] := by
    intro h
    rw [h] at hlen
    simp at hlen
    omega
  rw [← append_piece_feed B _ w hne (by rw [hlen, hn]; omega), hlen]

/-- With enough fuel the inner loop of `appendv` takes the rest of the slice byte by
byte, from every state in which the pending buffer is within its capacity. -/
theorem append_loop_feed (B : Nat) (hB : 0 < B) (slice : Slice) (fuel pos : Nat)
    (w : S3FileWriter) (hple : pos ≤ slice.length) (hf : slice.length - pos ≤ fuel)
    (hp : pend_ok B w) :
    append_loop B slice fuel pos w = some (feed B w (slice.drop pos)) := by
  induction fuel generalizing pos w with
  | zero =>
    have : ¬ pos < slice.length := by omega
    unfold append_loop
    rw [if_neg this, List.drop_eq_nil_of_le (by omega)]
    rfl
  | succ f ih =>
    by_cases hlt : pos < slice.length
    · obtain ⟨h1, h2, h3⟩ := append_body_feed B hB slice pos w hlt hp
      rw [append_loop]
      simp only [hlt, if_true]
      rw [ih _ _ h2 (by omega) (by rw [h3]; exact feed_pend_ok B hB _ w hp), h3,
        ← feed_append, ← List.drop_drop, List.take_append_drop]
    · unfold append_loop
      rw [if_neg hlt, List.drop_eq_nil_of_le (by omega)]
      rfl

theorem append_slices_feed (B : Nat) (hB : 0 < B) (data : List Slice) (w : S3FileWriter)
    (hp : pend_ok B w) : append_slices B data w = some (feed B w data.flatten) := by
  induction data generalizing w with
  | nil => rfl
  | cons s rest ih =>
    have h1 := append_loop_feed B hB s (s.length + 1) 0 w (Nat.zero_le _) (by omega) hp
    rw [List.drop_zero] at h1
    simp only [append_slices, h1]
    rw [ih _ (feed_pend_ok B hB s w hp), List.flatten_cons, feed_append]

theorem feed_exec_side (B : Nat) (bytes : List UInt8) (w : S3FileWriter) :
    exec_side (feed B w bytes) = exec_side w := by
  induction bytes generalizing w with
  | nil => rfl
  | cons x rest ih =>
    show exec_side (feed B (push B w x) rest) = _
    rw [ih]
    exact append_piece_exec_side _ _ _ _ _

theorem appendv_feed (B : Nat) (hB : 0 < B) (c : Outcome String) (data : List Slice)
    (w : S3FileWriter) (ho : w.opened = true) (hp : pend_ok B w) :
    w.appendv B c data = some (feed B w data.flatten, Status.OK) := by
  simp [appendv, ho, append_slices_feed B hB data w hp]

theorem appendv_each_feed (B : Nat) (hB : 0 < B) (c : Outcome String) (slices : List Slice)
    (w : S3FileWriter) (ho : w.opened = true) (hp : pend_ok B w) :
    appendv_each B c slices w = some (feed B w slices.flatten, Status.OK) := by
  unfold appendv_each
  induction slices generalizing w with
  | nil => rfl
  | cons s rest ih =>
    have h1 := appendv_feed B hB c [s] w ho hp
    simp only [List.flatten_cons, List.flatten_nil, List.append_nil] at h1
    have hb : ((some (w, Status.OK) : Option (S3FileWriter × Status)).bind
        fun p => p.1.appendv B c [s]) = some (feed B w s, Status.OK) := h1
    simp only [List.foldl_cons]
    rw [hb]
    have ho2 : (feed B w s).opened = true := by
      have := feed_exec_side B s w
      simp only [exec_side, Prod.mk.injEq] at this
      rw [this.2.1, ho]
    rw [ih _ ho2 (feed_pend_ok B hB s w hp), List.flatten_cons, feed_append]

theorem pend_ok_of_side (B : Nat) (w w1 : S3FileWriter)
    (h : writer_side w1 = writer_side w) (hp : pend_ok B w) : pend_ok B w1 := by
  simp only [writer_side, Prod.mk.injEq] at h
  obtain ⟨-, -, -, -, h5, h6, -⟩ := h
  unfold pend_ok at hp ⊢
  rw [h5, h6]
  exact hp

/-- Every operation keeps the pending buffer within its capacity, for `B >= 1`. -/
theorem step_pend_ok (B : Nat) (hB : 0 < B) (op : Op) (w w1 : S3FileWriter) (st : Status)
    (hp : pend_ok B w) (h : step B op w = some (w1, st)) : pend_ok B w1 := by
  refine step_preserves B (pend_ok B) ?_ ?_ ?_ ?_ ?_ (fun _ hw => hw) (fun _ _ hw => hw)
    (fun _ hw => hw) (fun _ hw => hw) op w w1 st hp h
  · intro v o hv
    unfold open_
    cases o <;> exact hv
  · intro v slice pos hlt hv
    rw [(append_body_feed B hB slice pos v hlt hv).2.2]
    exact feed_pend_ok B hB _ v hv
  · intro v hv
    unfold finalize
    cases hpb : v.pending_buf with
    | none => exact hv
    | some b => intro b2 hb2; simp [submit] at hb2
  · intro v hv
    unfold close_submit
    cases hpb : v.pending_buf with
    | none =>
      intro b2 hb2
      simp [hpb] at hb2
    | some b => intro b2 hb2; simp [submit] at hb2
  · intro v s hv
    exact pend_ok_of_side B v _ (exec_step_side s v) hv

/-- In every state reached from the initial one the pending buffer is within its
capacity, for `B >= 1`. -/
theorem run_pend_ok (B : Nat) (hB : 0 < B) (closed0 : Bool) (ops : List Op) (w : S3FileWriter)
    (sts : List Status) (h : run B ops (S3FileWriter.init closed0) = some (w, sts)) :
    pend_ok B w :=
  run_preserves B (pend_ok B) (fun op v v1 st hv hs => step_pend_ok B hB op v v1 st hv hs)
    ops _ w sts (by intro b hb; simp [S3FileWriter.init] at hb) h

/-! ## Accounting of uploads -/

theorem get_perm_eraseIdx (l : List S3FileBuffer) (i : Nat) (b : S3FileBuffer)
    (h : l.get? i = some b) : l.Perm (b :: l.eraseIdx i) := by
  induction l generalizing i with
  | nil => simp at h
  | cons a l ih =>
    cases i with
    | zero =>
      simp only [List.get?_cons_zero, Option.some.injEq] at h
      subst h
      exact List.Perm.refl _
    | succ i =>
      simp only [List.get?_cons_succ] at h
      simp only [List.eraseIdx_cons_succ]
      exact (List.Perm.cons a (ih i h)).trans (List.Perm.swap b a _)

theorem exec_start_acct (i : Nat) (w : S3FileWriter) (ha : acct w) : acct (w.exec_start i) := by
  unfold exec_start
  cases h : w.queue.get? i with
  | none => exact ha
  | some b =>
    obtain ⟨done, lost, h1, h2, h3, h4⟩ := ha
    have hq := get_perm_eraseIdx w.queue i b h
    simp only [_upload_one_part_issue, is_cancel]
    cases hf : w.failed with
    | false =>
      refine ⟨done, lost, ?_, h2, h3, fun _ => h4 hf⟩
      show (done ++ lost ++ (w.inflight ++ [b]) ++ w.queue.eraseIdx i).Perm w.submitted
      refine List.Perm.trans ?_ h1
      rw [← Multiset.coe_eq_coe] at hq ⊢
      simp only [← Multiset.coe_add, hq, ← Multiset.cons_coe, ← Multiset.singleton_add,
        Multiset.coe_nil, add_zero]
      abel
    | true =>
      refine ⟨done, b :: lost, ?_, h2, h3, ?_⟩
      · show (done ++ b :: lost ++ w.inflight ++ w.queue.eraseIdx i).Perm w.submitted
        refine List.Perm.trans ?_ h1
        rw [← Multiset.coe_eq_coe] at hq ⊢
        simp only [← Multiset.coe_add, hq, ← Multiset.cons_coe, ← Multiset.singleton_add,
          Multiset.coe_nil, add_zero]
        abel
      · intro hc
        simp [finish_upload, hf] at hc

theorem exec_finish_acct (j : Nat) (o : Outcome String) (w : S3FileWriter) (ha : acct w) :
    acct (w.exec_finish j o) := by
  unfold exec_finish
  cases h : w.inflight.get? j with
  | none => exact ha
  | some b =>
    obtain ⟨done, lost, h1, h2, h3, h4⟩ := ha
    have hq := get_perm_eraseIdx w.inflight j b h
    cases o with
    | success etag =>
      refine ⟨b :: done, lost, ?_, ?_, ?_, h4⟩
      · show (b :: done ++ lost ++ w.inflight.eraseIdx j ++ w.queue).Perm w.submitted
        refine List.Perm.trans ?_ h1
        rw [← Multiset.coe_eq_coe] at hq ⊢
        simp only [← Multiset.coe_add, hq, ← Multiset.cons_coe, ← Multiset.singleton_add,
          Multiset.coe_nil, add_zero]
        abel
      · show ((w.completed_parts ++ [(⟨b.part_num, etag⟩ : CompletedPart)]).map
            (fun p : CompletedPart => p.part_number)).Perm
          ((b :: done).map (fun b : S3FileBuffer => b.part_num))
        simp only [List.map_append, List.map_cons, List.map_nil]
        exact (List.perm_append_comm).trans (List.Perm.cons _ h2)
      · show w.bytes_written + b.get_size = ((b :: done).map S3FileBuffer.get_size).sum
        simp only [List.map_cons, List.sum_cons]
        omega
    | failure e =>
      refine ⟨done, b :: lost, ?_, h2, h3, ?_⟩
      · show (done ++ b :: lost ++ w.inflight.eraseIdx j ++ w.queue).Perm w.submitted
        refine List.Perm.trans ?_ h1
        rw [← Multiset.coe_eq_coe] at hq ⊢
        simp only [← Multiset.coe_add, hq, ← Multiset.cons_coe, ← Multiset.singleton_add,
          Multiset.coe_nil, add_zero]
        abel
      · intro hc
        simp [finish_upload, _upload_one_part_result, on_failed] at hc

theorem exec_step_acct (s : ExecStep) (w : S3FileWriter) (ha : acct w) :
    acct (w.exec_step s) := by
  unfold exec_step
  split
  · exact exec_start_acct _ w ha
  · split
    · exact exec_finish_acct _ _ w ha
    · split
      · exact exec_start_acct _ w ha
      · exact ha

theorem submit_acct (b : S3FileBuffer) (w : S3FileWriter) (ha : acct w) :
    acct (w.submit b) := by
  obtain ⟨done, lost, h1, h2, h3, h4⟩ := ha
  refine ⟨done, lost, ?_, h2, h3, h4⟩
  show (done ++ lost ++ w.inflight ++ (w.queue ++ [b])).Perm (w.submitted ++ [b])
  rw [← List.append_assoc]
  exact List.Perm.append_right _ h1

theorem append_body_acct (B : Nat) (slice : Slice) (pos : Nat) (w : S3FileWriter)
    (ha : acct w) : acct (w.append_body B slice pos).1 := by
  show acct (w.append_piece B _ _ _)
  rw [append_piece_eq]
  split
  · obtain ⟨done, lost, h1, h2, h3, h4⟩ := ha
    refine ⟨done, lost, ?_, h2, h3, h4⟩
    show (done ++ lost ++ w.inflight ++ (w.queue ++ [_])).Perm (w.submitted ++ [_])
    rw [← List.append_assoc]
    exact List.Perm.append_right _ h1
  · exact ha

/-- Every operation keeps the accounting of the submitted buffers. -/
theorem step_acct (B : Nat) (op : Op) (w w1 : S3FileWriter) (st : Status)
    (ha : acct w) (h : step B op w = some (w1, st)) : acct w1 := by
  refine step_preserves B acct ?_ (fun v slice pos _ hv => append_body_acct B slice pos v hv)
    ?_ ?_ (fun v s hv => exec_step_acct s v hv) ?_ (fun _ _ hw => hw) ?_ (fun _ hw => hw)
    op w w1 st ha h
  · intro v o hv
    unfold open_
    cases o <;> exact hv
  · intro v hv
    unfold finalize
    cases v.pending_buf with
    | none => exact hv
    | some b => exact submit_acct b v hv
  · intro v hv
    unfold close_submit
    cases v.pending_buf with
    | none => exact hv
    | some b => exact submit_acct b { v with closed := true } hv
  · intro v hv
    obtain ⟨done, lost, h1, h2, h3, h4⟩ := hv
    refine ⟨done, lost, h1, ?_, h3, h4⟩
    exact ((List.perm_insertionSort part_le v.completed_parts).map _).trans h2
  · intro v hv
    obtain ⟨done, lost, h1, h2, h3, h4⟩ := hv
    exact ⟨done, lost, h1, h2, h3, fun hc => by simp at hc⟩

theorem run_acct (B : Nat) (closed0 : Bool) (ops : List Op) (w : S3FileWriter)
    (sts : List Status) (h : run B ops (S3FileWriter.init closed0) = some (w, sts)) :
    acct w :=
  run_preserves B acct (fun op v v1 st hv hs => step_acct B op v v1 st hv hs)
    ops _ w sts ⟨[], [], by simp [S3FileWriter.init], by simp [S3FileWriter.init],
      by simp [S3FileWriter.init], fun _ => rfl⟩ h

theorem content_pending_or_allocate (w : S3FileWriter) :
    content w = stream_of w.submitted ++ w.pending_or_allocate.data := by
  unfold content pending_data pending_or_allocate
  cases w.pending_buf <;> rfl

theorem append_piece_content (B : Nat) (piece : Slice) (n : Nat) (w : S3FileWriter) :
    content (w.append_piece B w.pending_or_allocate piece n) = content w ++ piece ∧
    (w.append_piece B w.pending_or_allocate piece n).bytes_appended = w.bytes_appended + n := by
  rw [append_piece_eq, content_pending_or_allocate w]
  split
  · exact ⟨by simp [content, pending_data, stream_of_append, stream_of], rfl⟩
  · exact ⟨by simp [content, pending_data], rfl⟩

theorem append_body_total_ok (B : Nat) (slice : Slice) (pos : Nat) (w : S3FileWriter)
    (ht : total_ok w) : total_ok (w.append_body B slice pos).1 := by
  obtain ⟨h1, h2⟩ := append_piece_content B
    ((slice.drop pos).take (w.data_size_to_append B slice pos))
    (w.data_size_to_append B slice pos) w
  show total_ok (w.append_piece B w.pending_or_allocate _ _)
  unfold total_ok at ht ⊢
  rw [h1, h2, List.length_append, ht]
  have : ((slice.drop pos).take (w.data_size_to_append B slice pos)).length
      = w.data_size_to_append B slice pos := by
    simp only [List.length_take, List.length_drop, data_size_to_append]
    omega
  rw [this]

theorem submit_content (b : S3FileBuffer) (w : S3FileWriter) (hp : w.pending_buf = some b) :
    content (w.submit b) = content w := by
  simp [content, pending_data, submit, hp, stream_of_append, stream_of]

theorem close_submit_content (w : S3FileWriter) :
    w.close_submit.bytes_appended = w.bytes_appended ∧ content w.close_submit = content w := by
  cases h : w.pending_buf <;>
    simp [close_submit, content, pending_data, submit, h, stream_of_append, stream_of]

theorem total_ok_of_side (w w1 : S3FileWriter) (h : writer_side w1 = writer_side w)
    (ht : total_ok w) : total_ok w1 := by
  simp only [writer_side, Prod.mk.injEq] at h
  obtain ⟨-, -, -, -, h5, h6, h7⟩ := h
  unfold total_ok content pending_data at ht ⊢
  rw [h5, h6, h7]
  exact ht

/-- Every operation keeps the byte counter in agreement with the bytes taken. -/
theorem step_total_ok (B : Nat) (op : Op) (w w1 : S3FileWriter) (st : Status)
    (ht : total_ok w) (h : step B op w = some (w1, st)) : total_ok w1 := by
  refine step_preserves B total_ok ?_
    (fun v slice pos _ hv => append_body_total_ok B slice pos v hv)
    ?_ ?_ (fun v s hv => total_ok_of_side v _ (exec_step_side s v) hv)
    (fun _ hw => hw) (fun _ _ hw => hw) (fun _ hw => hw) (fun _ hw => hw) op w w1 st ht h
  · intro v o hv
    unfold open_
    cases o <;> exact hv
  · intro v hv
    unfold finalize
    cases hp : v.pending_buf with
    | none => exact hv
    | some b =>
      unfold total_ok at hv ⊢
      rw [submit_content b v hp]
      exact hv
  · intro v hv
    unfold total_ok at hv ⊢
    rw [(close_submit_content v).1, (close_submit_content v).2]
    exact hv

theorem run_total_ok (B : Nat) (closed0 : Bool) (ops : List Op) (w : S3FileWriter)
    (sts : List Status) (h : run B ops (S3FileWriter.init closed0) = some (w, sts)) :
    total_ok w :=
  run_preserves B total_ok (fun op v v1 st hv hs => step_total_ok B op v v1 st hv hs)
    ops _ w sts (by simp [total_ok, content, pending_data, stream_of, S3FileWriter.init]) h

theorem stream_of_length_sum (xs : List S3FileBuffer) :
    (stream_of xs).length = (xs.map S3FileBuffer.get_size).sum := by
  induction xs with
  | nil => rfl
  | cons x xs ih => simp [stream_of, ih, S3FileBuffer.get_size]

theorem wait_loop_drained (sched : Nat → ExecStep) (fuel : Nat) (w w1 : S3FileWriter)
    (h : wait_loop sched fuel w = some w1) : w1.wait ≤ 0 := by
  induction fuel generalizing w with
  | zero =>
    unfold wait_loop at h
    split at h
    · cases h; assumption
    · cases h
  | succ f ih =>
    unfold wait_loop at h
    split at h
    · cases h; assumption
    · exact ih _ h

theorem wait_loop_failed (sched : Nat → ExecStep) (fuel : Nat) (w w1 : S3FileWriter)
    (h : wait_loop sched fuel w = some w1) (hf : w.failed = true) : w1.failed = true := by
  induction fuel generalizing w with
  | zero =>
    unfold wait_loop at h
    split at h
    · cases h; exact hf
    · cases h
  | succ f ih =>
    unfold wait_loop at h
    split at h
    · cases h; exact hf
    · exact ih _ h (exec_step_failed _ w hf).1

/-- A `close` on a writer that is not closed, which leaves `failed` clear, has waited
for every upload: nothing is queued or outstanding when it returns, and no buffer
is pending. -/
theorem close_drained (early : List ExecStep) (sched : Nat → ExecStep) (o : Outcome Unit)
    (w w1 : S3FileWriter) (st : Status) (hc : w.closed = false) (hw : wait_ok w)
    (h : w.close early sched o = some (w1, st)) (hf : w1.failed = false) :
    w1.queue = [] ∧ w1.inflight = [] ∧ w1.pending_buf = none := by
  obtain ⟨w2, st2, hcm, hs⟩ := close_returns_side early sched o w w1 st hc h
  have hw1 : wait_ok w1 := step_wait_ok 0 (Op.close early sched o) w w1 st hw h
  have hpend : w1.pending_buf = none := by
    simp only [writer_side, Prod.mk.injEq] at hs
    rw [hs.2.2.2.2.2.1]
    unfold close_submit
    cases w.pending_buf <;> rfl
  have hw2 : w1 = w2 := by
    unfold close at h
    simp only [hc, Bool.false_eq_true, if_false, hcm] at h
    split at h <;> cases h <;> rfl
  subst hw2
  have hwait : w1.wait ≤ 0 := by
    unfold _complete at hcm
    split at hcm
    · rename_i hfl
      cases hcm
      rw [hfl] at hf
      cases hf
    · cases hwa : (w.close_submit.exec_steps early).wait_all sched with
      | none => simp [hwa] at hcm
      | some v =>
        have hv := wait_loop_drained sched _ _ v hwa
        simp only [hwa] at hcm
        cases o <;> simp at hcm <;> obtain ⟨rfl, -⟩ := hcm <;> exact hv
  unfold wait_ok at hw1
  have hq : w1.queue.length = 0 := by omega
  have hi : w1.inflight.length = 0 := by omega
  exact ⟨List.length_eq_zero.mp hq, List.length_eq_zero.mp hi, hpend⟩

/-! ## Capacity of the pending buffer -/

theorem cap_inv_pend_ok (B : Nat) (w : S3FileWriter) (h : cap_inv B w) : pend_ok B w :=
  fun b hb => ⟨(h.1 b hb).2.1, (h.1 b hb).2.2⟩

/-- One iteration of the inner loop from a state within capacity: the unsigned
difference does not underflow, at least one byte is appended, the buffer stays
within the buffer size, and the next state is within capacity. -/
theorem append_body_cap (B : Nat) (hB : 0 < B) (slice : Slice) (pos : Nat) (w : S3FileWriter)
    (hlt : pos < slice.length) (hc : cap_inv B w) :
    w.bytes_appended ≤ w.pending_or_allocate.file_offset + B ∧
    0 < w.data_size_to_append B slice pos ∧
    (w.pending_or_allocate.append_data
      ((slice.drop pos).take (w.data_size_to_append B slice pos))).get_size ≤ B ∧
    cap_inv B (w.append_body B slice pos).1 := by
  obtain ⟨h1, h2⟩ := pending_or_allocate_ok B hB w (cap_inv_pend_ok B w hc)
  have hn : w.data_size_to_append B slice pos
      = min (slice.length - pos) (B - w.pending_or_allocate.data.length) := by
    unfold data_size_to_append
    congr 1
    omega
  have hlen : ((slice.drop pos).take (w.data_size_to_append B slice pos)).length
      = w.data_size_to_append B slice pos := by
    rw [hn]
    simp [List.length_take, List.length_drop]
  have hpos : 0 < w.data_size_to_append B slice pos := by rw [hn]; omega
  have hle : w.pending_or_allocate.data.length + w.data_size_to_append B slice pos ≤ B := by
    rw [hn]; omega
  refine ⟨by omega, hpos, ?_, ?_⟩
  · simp only [S3FileBuffer.append_data, S3FileBuffer.get_size, List.length_append, hlen]
    exact hle
  · show cap_inv B (w.append_piece B w.pending_or_allocate _ _)
    rw [append_piece_eq]
    by_cases hfull : w.pending_or_allocate.data.length
        + ((slice.drop pos).take (w.data_size_to_append B slice pos)).length = B
    · rw [if_pos hfull]
      refine ⟨fun b hb => by simp at hb, ?_⟩
      intro b hb
      simp only [List.mem_append, List.mem_singleton] at hb
      rcases hb with hb | rfl
      · exact hc.2 b hb
      · simp only [S3FileBuffer.get_size, List.length_append]
        omega
    · rw [if_neg hfull]
      refine ⟨?_, hc.2⟩
      intro b hb
      simp only [Option.some.injEq] at hb
      subst hb
      simp only [S3FileBuffer.get_size, List.length_append]
      rw [hlen] at hfull ⊢
      exact ⟨by omega, by omega, by omega⟩

theorem cap_inv_of_side (B : Nat) (w w1 : S3FileWriter)
    (h : writer_side w1 = writer_side w) (hc : cap_inv B w) : cap_inv B w1 := by
  simp only [writer_side, Prod.mk.injEq] at h
  obtain ⟨-, -, -, -, h5, h6, h7⟩ := h
  unfold cap_inv at hc ⊢
  rw [h5, h6, h7]
  exact hc

theorem submit_pending_cap (B : Nat) (w : S3FileWriter) (b : S3FileBuffer)
    (hp : w.pending_buf = some b) (hc : cap_inv B w) : cap_inv B (w.submit b) := by
  refine ⟨fun b2 hb2 => by simp [submit] at hb2, ?_⟩
  intro b2 hb2
  simp only [submit, List.mem_append, List.mem_singleton] at hb2
  rcases hb2 with hb2 | rfl
  · exact hc.2 b2 hb2
  · obtain ⟨k1, k2, -⟩ := hc.1 b2 hp
    exact ⟨k1, Nat.le_of_lt k2⟩

/-- Every operation keeps the part assembly within capacity, for `B >= 1`. -/
theorem step_cap_inv (B : Nat) (hB : 0 < B) (op : Op) (w w1 : S3FileWriter) (st : Status)
    (hc : cap_inv B w) (h : step B op w = some (w1, st)) : cap_inv B w1 := by
  refine step_preserves B (cap_inv B) ?_
    (fun v slice pos hlt hv => (append_body_cap B hB slice pos v hlt hv).2.2.2)
    ?_ ?_ (fun v s hv => cap_inv_of_side B v _ (exec_step_side s v) hv)
    (fun _ hw => hw) (fun _ _ hw => hw) (fun _ hw => hw) (fun _ hw => hw) op w w1 st hc h
  · intro v o hv
    unfold open_
    cases o <;> exact hv
  · intro v hv
    unfold finalize
    cases hp : v.pending_buf with
    | none => exact hv
    | some b => exact submit_pending_cap B v b hp hv
  · intro v hv
    have hcl : cap_inv B { v with closed := true } := hv
    unfold close_submit
    split
    · rename_i b hp
      exact submit_pending_cap B { v with closed := true } b hp hcl
    · exact hcl

theorem run_cap_inv (B : Nat) (hB : 0 < B) (closed0 : Bool) (ops : List Op) (w : S3FileWriter)
    (sts : List Status) (h : run B ops (S3FileWriter.init closed0) = some (w, sts)) :
    cap_inv B w :=
  run_preserves B (cap_inv B) (fun op v v1 st hv hs => step_cap_inv B hB op v v1 st hv hs)
    ops _ w sts ⟨fun b hb => by simp [S3FileWriter.init] at hb,
      fun b hb => by simp [S3FileWriter.init] at hb⟩ h

/-- With a consistent wait group `close` returns, whether the writer is closed or not. -/
theorem close_returns_any (early : List ExecStep) (sched : Nat → ExecStep) (o : Outcome Unit)
    (w : S3FileWriter) (hw : wait_ok w) : ∃ w1 st, w.close early sched o = some (w1, st) := by
  cases hc : w.closed with
  | true => exact ⟨w, Status.OK, by simp [close, hc]⟩
  | false =>
    obtain ⟨w2, st, h, -⟩ := close_returns early sched o w hc hw
    exact ⟨w2, st, h⟩

/-- Operations made of empty slices and moves of the executor leave a writer alone
that is opened and has nothing with the executor. -/
theorem append_slices_empty (B : Nat) (data : List Slice) (w : S3FileWriter)
    (hd : data.flatten = []) : append_slices B data w = some w := by
  induction data with
  | nil => rfl
  | cons s rest ih =>
    simp only [List.flatten_cons, List.append_eq_nil] at hd
    obtain ⟨rfl, hr⟩ := hd
    simp only [append_slices]
    have : append_loop B [] ([] : Slice).length.succ 0 w = some w := by
      unfold append_loop
      simp
    rw [show ([] : Slice).length + 1 = ([] : Slice).length.succ from rfl, this]
    exact ih hr

theorem exec_step_idle (s : ExecStep) (w : S3FileWriter) (hq : w.queue = [])
    (hi : w.inflight = []) : w.exec_step s = w := by
  simp [exec_step, hq, hi]

theorem exec_steps_idle (ss : List ExecStep) (w : S3FileWriter) (hq : w.queue = [])
    (hi : w.inflight = []) : w.exec_steps ss = w := by
  induction ss with
  | nil => rfl
  | cons s ss ih =>
    show (w.exec_step s).exec_steps ss = w
    rw [exec_step_idle s w hq hi]
    exact ih

theorem run_zero_bytes (B : Nat) (ops : List Op) (w : S3FileWriter)
    (hops : ∀ op ∈ ops, op.is_append_or_exec = true) (hz : bytes_of ops = [])
    (ho : w.opened = true) (hq : w.queue = []) (hi : w.inflight = []) :
    ∃ sts, run B ops w = some (w, sts) ∧ ∀ st ∈ sts, st = Status.OK := by
  induction ops with
  | nil => exact ⟨[], rfl, by simp⟩
  | cons op rest ih =>
    have hop := hops op (List.mem_cons_self _ _)
    simp only [bytes_of, List.map_cons, List.flatten_cons, List.append_eq_nil] at hz
    obtain ⟨hz1, hz2⟩ := hz
    obtain ⟨sts, h1, h2⟩ := ih (fun o ho => hops o (List.mem_cons_of_mem _ ho)) hz2
    have hst : step B op w = some (w, Status.OK) := by
      cases op with
      | appendv c d =>
        simp only [Op.bytes] at hz1
        simp [step, appendv, ho, append_slices_empty B d w hz1]
      | exec s => simp [step, exec_step_idle s w hq hi]
      | open_ o => simp [Op.is_append_or_exec] at hop
      | finalize => simp [Op.is_append_or_exec] at hop
      | close e s o => simp [Op.is_append_or_exec] at hop
      | abort s o => simp [Op.is_append_or_exec] at hop
    refine ⟨Status.OK :: sts, by simp only [run, hst, h1], ?_⟩
    intro st hst2
    rcases List.mem_cons.mp hst2 with rfl | h
    · rfl
    · exact h2 st h

/-! ## Requests sent and the failure record across `close` -/

theorem close_submit_sent (w : S3FileWriter) :
    w.close_submit.sent = w.sent ∧ w.close_submit.upload_id = w.upload_id ∧
    w.close_submit.failed = w.failed ∧ w.close_submit.st = w.st := by
  unfold close_submit
  cases w.pending_buf <;> simp [submit]

/-- A `_complete` that finds `failed` clear waits for the uploads, sorts the records
and sends CompleteMultipartUpload with them; the status it returns is ok exactly
when that request succeeds. -/
theorem complete_clear (sched : Nat → ExecStep) (o : Outcome Unit) (w w2 : S3FileWriter)
    (st : Status) (hf : w.failed = false) (h : w._complete sched o = some (w2, st)) :
    ∃ v, w.wait_all sched = some v ∧
      w2.completed_parts = v.completed_parts.insertionSort part_le ∧
      w2.sent = v.sent ++ [Request.CompleteMultipartUpload v.upload_id
        (v.completed_parts.insertionSort part_le)] ∧
      w2.failed = v.failed ∧
      (st = Status.OK ↔ ∃ r, o = Outcome.success r) := by
  unfold _complete at h
  simp only [hf] at h
  cases hw : w.wait_all sched with
  | none => simp [hw] at h
  | some v =>
    simp only [hw] at h
    refine ⟨v, rfl, ?_⟩
    cases o <;> simp at h <;> obtain ⟨rfl, rfl⟩ := h <;> simp

/-- The result of `close` on a writer that is not closed is the state left by
`_complete`, with the status of `_complete`. -/
theorem close_eq_complete (early : List ExecStep) (sched : Nat → ExecStep) (o : Outcome Unit)
    (w w1 : S3FileWriter) (st : Status) (hc : w.closed = false)
    (h : w.close early sched o = some (w1, st)) :
    (w.close_submit.exec_steps early)._complete sched o = some (w1, st) := by
  unfold close at h
  simp only [hc, Bool.false_eq_true, if_false] at h
  cases hcm : (w.close_submit.exec_steps early)._complete sched o with
  | none => simp [hcm] at h
  | some r =>
    obtain ⟨w2, st2⟩ := r
    simp only [hcm] at h
    cases st2 with
    | OK => simp [Status.ok] at h; obtain ⟨rfl, rfl⟩ := h; rfl
    | IOError m => simp [Status.ok] at h; obtain ⟨rfl, rfl⟩ := h; rfl

/-- On a writer that is not closed, `finalize` returns ok and sends no request, and
`finalize` followed at once by `close` gives the same result as `close` alone for
the same moves of the executor: the same state, hence the same submitted buffers
with the same part numbers, each once, the same requests and the same status; a
second `finalize` changes nothing. -/
theorem finalize_then_close (w : S3FileWriter) (hc : w.closed = false)
    (early : List ExecStep) (sched : Nat → ExecStep) (o : Outcome Unit) :
    w.finalize.2 = Status.OK ∧ w.finalize.1.sent = w.sent ∧
    w.finalize.1.close early sched o = w.close early sched o ∧
    w.finalize.1.close_submit.submitted = w.submitted ++ w.pending_buf.toList ∧
    w.close_submit.submitted = w.submitted ++ w.pending_buf.toList ∧
    w.finalize.1.finalize = (w.finalize.1, Status.OK) := by
  obtain ⟨uid, op, cl, fl, st0, cpn, ba, bw, pb, cp, wt, q, inf, sub, sn⟩ := w
  simp only at hc
  subst hc
  cases pb <;> simp [finalize, close, close_submit, submit]

theorem exec_step_closed (c : Bool) (s : ExecStep) (w : S3FileWriter) :
    ({ w with closed := c } : S3FileWriter).exec_step s = { w.exec_step s with closed := c } := by
  have hstart : ∀ i, ({ w with closed := c } : S3FileWriter).exec_start i
      = { w.exec_start i with closed := c } := by
    intro i
    unfold exec_start
    cases h : w.queue.get? i with
    | none => simp [h]
    | some b =>
      simp only [h, _upload_one_part_issue, is_cancel]
      cases hf : w.failed <;> simp [finish_upload]
  have hfinish : ∀ j o, ({ w with closed := c } : S3FileWriter).exec_finish j o
      = { w.exec_finish j o with closed := c } := by
    intro j o
    unfold exec_finish
    cases h : w.inflight.get? j with
    | none => simp [h]
    | some b =>
      simp only [h]
      cases o <;> simp [_upload_one_part_result, on_failed, finish_upload]
  unfold exec_step
  simp only []
  split
  · exact hstart _
  · split
    · exact hfinish _ _
    · split
      · exact hstart _
      · rfl

theorem exec_steps_closed (c : Bool) (ss : List ExecStep) (w : S3FileWriter) :
    ({ w with closed := c } : S3FileWriter).exec_steps ss
      = { w.exec_steps ss with closed := c } := by
  induction ss generalizing w with
  | nil => rfl
  | cons s ss ih =>
    show (({ w with closed := c } : S3FileWriter).exec_step s).exec_steps ss
      = { (w.exec_step s).exec_steps ss with closed := c }
    rw [exec_step_closed, ih]

theorem exec_steps_append (xs ys : List ExecStep) (w : S3FileWriter) :
    w.exec_steps (xs ++ ys) = (w.exec_steps xs).exec_steps ys := by
  simp [exec_steps, List.foldl_append]

theorem close_submit_finalize (w : S3FileWriter) :
    w.close_submit = { w.finalize.1 with closed := true } := by
  obtain ⟨uid, op, cl, fl, st0, cpn, ba, bw, pb, cp, wt, q, inf, sub, sn⟩ := w
  cases pb <;> simp [close_submit, finalize, submit]

theorem finalize_pending (w : S3FileWriter) :
    w.finalize.1.pending_buf = none ∧ w.finalize.1.closed = w.closed := by
  obtain ⟨uid, op, cl, fl, st0, cpn, ba, bw, pb, cp, wt, q, inf, sub, sn⟩ := w
  cases pb <;> simp [finalize, submit]

/-- Executor moves between `finalize` and `close` count as moves made inside `close`
alone before its test of `failed`: `finalize`, then the moves `ms`, then `close`
gives the result of `close` alone in which the moves `ms` follow the submission of
the pending buffer at once. -/
theorem finalize_moves_close (w : S3FileWriter) (hc : w.closed = false)
    (ms early : List ExecStep) (sched : Nat → ExecStep) (o : Outcome Unit) :
    (w.finalize.1.exec_steps ms).close early sched o = w.close (ms ++ early) sched o := by
  have hside := exec_steps_side ms w.finalize.1
  have hcl : (w.finalize.1.exec_steps ms).closed = false := by
    have := congrArg (fun t => t.2.2.1) hside
    simp only [writer_side] at this
    rw [this, (finalize_pending w).2, hc]
  have hp : (w.finalize.1.exec_steps ms).pending_buf = none := by
    have := congrArg (fun t => t.2.2.2.2.2.1) hside
    simp only [writer_side] at this
    rw [this, (finalize_pending w).1]
  have hcs : (w.finalize.1.exec_steps ms).close_submit
      = { w.finalize.1.exec_steps ms with closed := true } := by
    unfold close_submit
    split
    · rename_i b hb
      rw [hp] at hb
      cases hb
    · rfl
  unfold close
  simp only [hc, hcl, Bool.false_eq_true, if_false]
  rw [hcs, ← exec_steps_closed, ← close_submit_finalize, exec_steps_append]

/-! ## Numbering of the parts -/

theorem pending_or_allocate_num (w : S3FileWriter) (hn : num_inv w) (hc : cur_ok w) :
    w.pending_or_allocate.part_num = w.submitted.length + 1 := by
  unfold pending_or_allocate
  cases hp : w.pending_buf with
  | none => exact hc
  | some b => exact hn.2 b hp

/-- One byte taken by the part assembly keeps the numbering and the part counter. -/
theorem push_num (B : Nat) (w : S3FileWriter) (x : UInt8) (hn : num_inv w) (hc : cur_ok w) :
    num_inv (push B w x) ∧ cur_ok (push B w x) := by
  have hp := pending_or_allocate_num w hn hc
  unfold push
  rw [append_piece_eq]
  split
  · refine ⟨⟨?_, ?_⟩, ?_⟩
    · simp [hn.1, hp, List.range'_concat, Nat.add_comm]
    · intro b hb
      simp at hb
    · unfold cur_ok at hc ⊢
      simp [hc]
  · refine ⟨⟨hn.1, ?_⟩, hc⟩
    intro b hb
    simp only [Option.some.injEq] at hb
    subst hb
    exact hp

theorem feed_num (B : Nat) (bytes : List UInt8) (w : S3FileWriter) (hn : num_inv w)
    (hc : cur_ok w) : num_inv (feed B w bytes) ∧ cur_ok (feed B w bytes) := by
  induction bytes generalizing w with
  | nil => exact ⟨hn, hc⟩
  | cons x rest ih =>
    obtain ⟨h1, h2⟩ := push_num B w x hn hc
    exact ih (push B w x) h1 h2

theorem num_inv_of_side (w w1 : S3FileWriter) (h : writer_side w1 = writer_side w) :
    (num_inv w → num_inv w1) ∧ (cur_ok w → cur_ok w1) := by
  simp only [writer_side, Prod.mk.injEq] at h
  obtain ⟨-, -, -, h4, -, h6, h7⟩ := h
  unfold num_inv cur_ok
  rw [h4, h6, h7]
  exact ⟨id, id⟩

/-- Submitting the pending buffer keeps the numbering. -/
theorem submit_num (w : S3FileWriter) (b : S3FileBuffer) (hp : w.pending_buf = some b)
    (hn : num_inv w) : num_inv (w.submit b) := by
  refine ⟨?_, ?_⟩
  · simp [submit, hn.1, hn.2 b hp, List.range'_concat, Nat.add_comm]
  · intro b2 hb2
    simp [submit] at hb2

theorem close_submit_num (w : S3FileWriter) (hn : num_inv w) :
    w.close_submit.submitted.map (fun b => b.part_num)
      = List.range' 1 w.close_submit.submitted.length := by
  unfold close_submit
  split
  · rename_i b hp
    exact (submit_num { w with closed := true } b hp hn).1
  · exact hn.1

theorem bytes_of_cons (op : Op) (rest : List Op) :
    bytes_of (op :: rest) = op.bytes ++ bytes_of rest := by
  simp [bytes_of]

/-- A run of `appendv` calls, `finalize` calls and executor moves on an opened writer in
which no byte is appended after a `finalize` that submitted a buffer: every call
returns, the numbering of the buffers is kept, and so are `opened`, `closed` and the
upload id. -/
theorem run_num (B : Nat) (hB : 0 < B) (ops : List Op) (w : S3FileWriter)
    (hops : ∀ op ∈ ops, op.is_append_finalize_or_exec = true)
    (hfl : no_append_after_flush B ops w = true)
    (ho : w.opened = true) (hp : pend_ok B w) (hn : num_inv w)
    (hc : cur_ok w ∨ (w.pending_buf = none ∧ bytes_of ops = [])) :
    ∃ w1 sts, run B ops w = some (w1, sts) ∧ num_inv w1 ∧ w1.closed = w.closed ∧
      w1.upload_id = w.upload_id := by
  induction ops generalizing w with
  | nil => exact ⟨w, [], rfl, hn, rfl, rfl⟩
  | cons op rest ih =>
    have hrest : ∀ op ∈ rest, op.is_append_finalize_or_exec = true :=
      fun o ho => hops o (List.mem_cons_of_mem _ ho)
    have hop := hops op (List.mem_cons_self _ _)
    have key : ∀ v st, step B op w = some (v, st) → v.opened = true → pend_ok B v →
        num_inv v → (cur_ok v ∨ (v.pending_buf = none ∧ bytes_of rest = [])) →
        v.closed = w.closed → v.upload_id = w.upload_id →
        ∃ w1 sts, run B (op :: rest) w = some (w1, sts) ∧ num_inv w1 ∧
          w1.closed = w.closed ∧ w1.upload_id = w.upload_id := by
      intro v st hs hov hpv hnv hcv hcl hid
      have hfl2 : no_append_after_flush B rest v = true := by
        simp only [no_append_after_flush, hs, Bool.and_eq_true] at hfl
        exact hfl.2
      obtain ⟨w1, sts, h1, h2, h3, h4⟩ := ih v hrest hfl2 hov hpv hnv hcv
      exact ⟨w1, st :: sts, by simp only [run, hs, h1], h2, h3.trans hcl, h4.trans hid⟩
    cases op with
    | appendv c d =>
      have hs : step B (Op.appendv c d) w = some (feed B w d.flatten, Status.OK) :=
        appendv_feed B hB c d w ho hp
      have hx := feed_exec_side B d.flatten w
      simp only [exec_side, Prod.mk.injEq] at hx
      refine key _ _ hs (by rw [hx.2.1, ho]) (feed_pend_ok B hB _ w hp) ?_ ?_ hx.2.2.1 hx.1
      · rcases hc with hcur | ⟨-, hb⟩
        · exact (feed_num B _ w hn hcur).1
        · rw [bytes_of_cons, List.append_eq_nil] at hb
          simp only [Op.bytes] at hb
          rw [hb.1]
          exact hn
      · rcases hc with hcur | ⟨hpn, hb⟩
        · exact Or.inl (feed_num B _ w hn hcur).2
        · rw [bytes_of_cons, List.append_eq_nil] at hb
          simp only [Op.bytes] at hb
          rw [hb.1]
          exact Or.inr ⟨hpn, hb.2⟩
    | finalize =>
      cases hpb : w.pending_buf with
      | none =>
        have hs : step B Op.finalize w = some (w, Status.OK) := by
          simp [step, finalize, hpb]
        refine key _ _ hs ho hp hn ?_ rfl rfl
        rcases hc with hcur | ⟨-, hb⟩
        · exact Or.inl hcur
        · rw [bytes_of_cons, List.append_eq_nil] at hb
          exact Or.inr ⟨hpb, hb.2⟩
      | some b =>
        have hs : step B Op.finalize w = some (w.submit b, Status.OK) := by
          simp [step, finalize, hpb]
        have hb : bytes_of rest = [] := by
          simp only [no_append_after_flush, hpb, Option.isNone_some, Bool.false_or,
            Bool.and_eq_true, List.isEmpty_iff] at hfl
          exact hfl.1
        refine key _ _ hs ho ?_ (submit_num w b hpb hn) (Or.inr ⟨rfl, hb⟩) rfl rfl
        intro b2 hb2
        simp [submit] at hb2
    | exec s =>
      have hs : step B (Op.exec s) w = some (w.exec_step s, Status.OK) := rfl
      have hside := exec_step_side s w
      obtain ⟨n1, n2⟩ := num_inv_of_side w _ hside
      have hside2 := hside
      simp only [writer_side, Prod.mk.injEq] at hside2
      refine key _ _ hs (by rw [hside2.2.1, ho]) (pend_ok_of_side B w _ hside hp) (n1 hn) ?_
        hside2.2.2.1 hside2.1
      rcases hc with hcur | ⟨hpn, hb⟩
      · exact Or.inl (n2 hcur)
      · rw [bytes_of_cons, List.append_eq_nil] at hb
        exact Or.inr ⟨by rw [hside2.2.2.2.2.2.1, hpn], hb.2⟩
    | open_ o => simp [Op.is_append_finalize_or_exec] at hop
    | close e s o => simp [Op.is_append_finalize_or_exec] at hop
    | abort s o => simp [Op.is_append_finalize_or_exec] at hop

theorem appendv_failed (B : Nat) (c : Outcome String) (d : List Slice) (w w1 : S3FileWriter)
    (st : Status) (h : w.appendv B c d = some (w1, st)) : w1.failed = w.failed := by
  have hopen : (w.open_ c).1.failed = w.failed := by
    unfold open_
    cases c <;> rfl
  rcases appendv_cases B c d w w1 st h with ⟨-, hs, -⟩ | ⟨-, e, -, rfl, -⟩ | ⟨-, id, -, hs, -⟩
  · have hx := append_slices_exec_side B d w w1 hs
    simp only [exec_side, Prod.mk.injEq] at hx
    exact hx.2.2.2.1
  · exact hopen
  · have hx := append_slices_exec_side B d _ w1 hs
    simp only [exec_side, Prod.mk.injEq] at hx
    rw [hx.2.2.2.1, hopen]

/-- An executor move whose upload succeeds leaves `failed` clear. -/
theorem exec_step_clear (s : ExecStep) (w : S3FileWriter) (hs : s.succeeds = true)
    (hf : w.failed = false) : (w.exec_step s).failed = false := by
  have hstart : ∀ i, (w.exec_start i).failed = false := by
    intro i
    unfold exec_start
    cases h : w.queue.get? i with
    | none => exact hf
    | some b => simp [_upload_one_part_issue, is_cancel, hf]
  have hfinish : (∀ j, (w.exec_finish j s.outcome).failed = false) := by
    intro j
    unfold exec_finish
    cases h : w.inflight.get? j with
    | none => exact hf
    | some b =>
      unfold ExecStep.succeeds at hs
      cases ho : s.outcome with
      | success e => simp [_upload_one_part_result, finish_upload, hf]
      | failure e => simp [ho] at hs
  unfold exec_step
  split
  · exact hstart _
  · split
    · exact hfinish _
    · split
      · exact hstart _
      · exact hf

theorem exec_steps_clear (ss : List ExecStep) (w : S3FileWriter)
    (hs : ∀ s ∈ ss, s.succeeds = true) (hf : w.failed = false) :
    (w.exec_steps ss).failed = false := by
  induction ss generalizing w with
  | nil => exact hf
  | cons s ss ih =>
    exact ih (w.exec_step s) (fun t ht => hs t (List.mem_cons_of_mem _ ht))
      (exec_step_clear s w (hs s (List.mem_cons_self _ _)) hf)

theorem wait_loop_clear (sched : Nat → ExecStep) (hs : ∀ k, (sched k).succeeds = true)
    (fuel : Nat) (w w1 : S3FileWriter) (h : wait_loop sched fuel w = some w1)
    (hf : w.failed = false) : w1.failed = false := by
  induction fuel generalizing w with
  | zero =>
    unfold wait_loop at h
    split at h
    · cases h; exact hf
    · cases h
  | succ f ih =>
    unfold wait_loop at h
    split at h
    · cases h; exact hf
    · exact ih _ h (exec_step_clear _ w (hs f) hf)

/-- A run of `appendv` calls, `finalize` calls and executor moves in which every upload
succeeds leaves `failed` clear. -/
theorem run_clear (B : Nat) (ops : List Op) (w w1 : S3FileWriter) (sts : List Status)
    (hops : ∀ op ∈ ops, op.is_append_finalize_or_exec = true)
    (hup : ∀ op ∈ ops, op.uploads_succeed = true) (hf : w.failed = false)
    (h : run B ops w = some (w1, sts)) : w1.failed = false := by
  induction ops generalizing w sts with
  | nil =>
    simp only [run, Option.some.injEq, Prod.mk.injEq] at h
    obtain ⟨rfl, -⟩ := h
    exact hf
  | cons op rest ih =>
    have hop := hops op (List.mem_cons_self _ _)
    have hu := hup op (List.mem_cons_self _ _)
    unfold run at h
    cases hs : step B op w with
    | none => simp [hs] at h
    | some r =>
      obtain ⟨v, st1⟩ := r
      simp only [hs] at h
      cases hr : run B rest v with
      | none => simp [hr] at h
      | some r2 =>
        obtain ⟨v2, sts2⟩ := r2
        simp only [hr, Option.some.injEq, Prod.mk.injEq] at h
        obtain ⟨rfl, -⟩ := h
        refine ih v sts2 (fun o ho => hops o (List.mem_cons_of_mem _ ho))
          (fun o ho => hup o (List.mem_cons_of_mem _ ho)) ?_ hr
        cases op with
        | appendv c d => rw [appendv_failed B c d w v st1 hs, hf]
        | finalize =>
          simp only [step, Option.some.injEq] at hs
          unfold finalize at hs
          cases hp : w.pending_buf <;> simp [hp] at hs <;> obtain ⟨rfl, -⟩ := hs <;> exact hf
        | exec s =>
          simp only [step, Option.some.injEq, Prod.mk.injEq] at hs
          obtain ⟨rfl, -⟩ := hs
          exact exec_step_clear s w hu hf
        | open_ o => simp [Op.is_append_finalize_or_exec] at hop
        | close e s o => simp [Op.is_append_finalize_or_exec] at hop
        | abort s o => simp [Op.is_append_finalize_or_exec] at hop

/-- A list of records in ascending order of part number whose part numbers are, in
some order, 1, ..., n has the part numbers 1, ..., n in this order. -/
theorem sorted_nums_eq (parts : List CompletedPart) (n : Nat)
    (hs : List.Sorted part_le parts)
    (hp : (parts.map (fun p => p.part_number)).Perm (List.range' 1 n)) :
    parts.map (fun p => p.part_number) = List.range' 1 n := by
  have h1 : List.Sorted (fun a b : Nat => a ≤ b) (parts.map (fun p => p.part_number)) :=
    List.pairwise_map.mpr hs
  have h2 : List.Sorted (fun a b : Nat => a ≤ b) (List.range' 1 n) :=
    (List.pairwise_lt_range' 1 n).imp (fun hab => Nat.le_of_lt hab)
  exact List.eq_of_perm_of_sorted hp h1 h2

/-! ## Claims -/

/-- C7: `close` is idempotent.  On every writer state in which `closed` is set, `close`
returns ok and leaves the whole state as it is, the history of requests and the
history of submitted buffers included; and every state left by a `close` that
returned, whatever it returned, is such a state. -/
theorem close_idempotent (w : S3FileWriter) (early : List ExecStep) (sched : Nat → ExecStep)
    (o : Outcome Unit) :
    (w.closed = true → w.close early sched o = some (w, Status.OK)) ∧
    (∀ early0 sched0 o0 w1 st0, w.close early0 sched0 o0 = some (w1, st0) →
      w1.close early sched o = some (w1, Status.OK)) := by
  constructor
  · intro h
    simp [close, h]
  · intro early0 sched0 o0 w1 st0 h
    simp [close, close_closed early0 sched0 o0 w w1 st0 h]

theorem close_idempotent_witness :
    ((S3FileWriter.init true).close [] fifo (.success ())
        = some (S3FileWriter.init true, Status.OK)) ∧
    (∃ w1, (fresh true "u").close [] fifo (.failure err500) = some (w1, Status.IOError "5xx") ∧
      w1.close [] fifo (.success ()) = some (w1, Status.OK)) :=
  ⟨(close_idempotent (S3FileWriter.init true) [] fifo (.success ())).1 rfl,
   _, rfl,
   (close_idempotent (fresh true "u") [] fifo (.success ())).2 [] fifo (.failure err500) _ _ rfl⟩

/-- C8: on an opened writer that is not closed, `abort` returns whenever the wait group
is consistent with the executor, and whenever it returns, `closed` is set and the
status is ok exactly when the AbortMultipartUpload outcome is a success, or its
error type is NO_SUCH_UPLOAD, or its HTTP response code is 404; for every other
outcome the status is the io_error carrying the remote message. -/
theorem abort_status (sched : Nat → ExecStep) (o : Outcome Unit) (w : S3FileWriter)
    (ho : w.opened = true) (hc : w.closed = false) :
    (wait_ok w → ∃ r, w.abort sched o = some r) ∧
    (∀ w1 st, w.abort sched o = some (w1, st) →
      w1.closed = true ∧
      (st = Status.OK ↔
        ((∃ r, o = Outcome.success r) ∨
          ∃ e, o = Outcome.failure e ∧
            (e.errorType = S3Errors.NO_SUCH_UPLOAD ∨ e.responseCode = 404))) ∧
      (∀ e, o = Outcome.failure e →
        ¬ (e.errorType = S3Errors.NO_SUCH_UPLOAD ∨ e.responseCode = 404) →
        st = Status.IOError e.message)) := by
  obtain ⟨uid, op, cl, fl, st0, cpn, ba, bw, pb, cp, wt, q, inf, sub, sn⟩ := w
  simp only at ho hc
  subst ho hc
  constructor
  · intro hw
    obtain ⟨w2, h2, -⟩ := wait_all_returns sched
      (⟨uid, true, true, true, st0, cpn, ba, bw, pb, cp, wt, q, inf, sub, sn⟩ : S3FileWriter) hw
    unfold abort
    simp only [h2]
    cases o with
    | success r => exact ⟨_, rfl⟩
    | failure e =>
      by_cases he : e.errorType = S3Errors.NO_SUCH_UPLOAD ∨ e.responseCode = NOT_FOUND
      · simp [he]
      · simp [he]
  · intro w1 st h
    unfold abort at h
    cases hw : (⟨uid, true, true, true, st0, cpn, ba, bw, pb, cp, wt, q, inf, sub, sn⟩ :
        S3FileWriter).wait_all sched with
    | none => simp [hw] at h
    | some w2 =>
      have hs := wait_loop_side sched _ _ w2 hw
      have hcl : w2.closed = true := by
        have := congrArg (fun t => t.2.2.1) hs
        simpa [writer_side] using this
      simp only [hw] at h
      cases o with
      | success r =>
        simp at h
        obtain ⟨rfl, rfl⟩ := h
        simp [hcl]
      | failure e =>
        by_cases he : e.errorType = S3Errors.NO_SUCH_UPLOAD ∨ e.responseCode = NOT_FOUND
        · simp [he] at h
          obtain ⟨rfl, rfl⟩ := h
          have he2 : e.errorType = S3Errors.NO_SUCH_UPLOAD ∨ e.responseCode = 404 := he
          refine ⟨hcl, by simp [he2], ?_⟩
          intro e2 h2 hn
          cases h2
          exact absurd he2 hn
        · simp [he] at h
          obtain ⟨rfl, rfl⟩ := h
          have he2 : ¬ (e.errorType = S3Errors.NO_SUCH_UPLOAD ∨ e.responseCode = 404) := he
          refine ⟨hcl, by simp [he2], ?_⟩
          intro e2 h2 _
          cases h2
          rfl

theorem abort_status_witness :
    (∃ r, (fresh true "u").abort fifo (.failure err404) = some r) ∧
    (∃ w1, (fresh true "u").abort fifo (.failure err404) = some (w1, Status.OK) ∧
      w1.closed = true) :=
  ⟨(abort_status fifo (.failure err404) (fresh true "u") rfl rfl).1 (by decide),
   _, rfl,
   ((abort_status fifo (.failure err404) (fresh true "u") rfl rfl).2 _ Status.OK rfl).1⟩

/-- C1: for every buffer size `B >= 1` and every sequence of `appendv` calls, with
executor moves in between at will, on a newly opened writer, followed by `close`:
all calls return, the buffers submitted number `ceil(N/B)` for the `N` bytes passed,
every submitted buffer but the last has size `B`, and the last has size `N mod B`,
or `B` when `B` divides `N`. -/
theorem parts_count_and_sizes (B : Nat) (hB : 1 ≤ B) (closed0 : Bool) (id : String)
    (ops : List Op) (hops : ∀ op ∈ ops, op.is_append_or_exec = true)
    (early : List ExecStep) (sched : Nat → ExecStep) (o : Outcome Unit) :
    ∃ w1 sts w2 st, run B ops (fresh closed0 id) = some (w1, sts) ∧
      w1.close early sched o = some (w2, st) ∧
      w2.submitted.length = ((bytes_of ops).length + B - 1) / B ∧
      (∀ b ∈ w2.submitted.dropLast, b.get_size = B) ∧
      (∀ b, w2.submitted.getLast? = some b →
        b.get_size = if (bytes_of ops).length % B = 0 then B else (bytes_of ops).length % B) := by
  obtain ⟨w1, sts, w2, st, h1, h2, h3, h4, h5⟩ :=
    run_close_spec B hB closed0 id ops hops early sched o
  obtain ⟨-, -, p3, p4, p5⟩ := final_parts B hB w1 h4
  rw [h5] at p3 p5
  rw [← h3] at p3 p4 p5
  exact ⟨w1, sts, w2, st, h1, h2, p3, p4, p5⟩

theorem parts_count_and_sizes_witness :
    ∃ w1 sts w2 st,
      run 2 [Op.appendv (.success "u") [[7], [8, 9]]] (fresh true "u") = some (w1, sts) ∧
      w1.close [] fifo (.success ()) = some (w2, st) ∧
      w2.submitted.length = ((bytes_of [Op.appendv (.success "u") [[7], [8, 9]]]).length + 2 - 1) / 2 ∧
      (∀ b ∈ w2.submitted.dropLast, b.get_size = 2) ∧
      (∀ b, w2.submitted.getLast? = some b →
        b.get_size = if (bytes_of [Op.appendv (.success "u") [[7], [8, 9]]]).length % 2 = 0 then 2
          else (bytes_of [Op.appendv (.success "u") [[7], [8, 9]]]).length % 2) :=
  parts_count_and_sizes 2 (by decide) true "u" [Op.appendv (.success "u") [[7], [8, 9]]]
    (by decide) [] fifo (.success ())

/-- C2, as stated, fails for an empty slice: with `B = 5`, a single `appendv` of the
empty byte sequence followed by `close` submits no part at all, so it does not
submit one part whose content is the sequence. -/
theorem single_empty_append_submits_nothing :
    ¬ (∀ w1 w2 st,
        (fresh true "u").appendv 5 (.success "u") [[]] = some (w1, Status.OK) →
        w1.close [] fifo (.success ()) = some (w2, st) →
        ∃ b, w2.submitted = [b] ∧ b.data = []) := by
  intro h
  obtain ⟨b, hb, -⟩ := h _ _ _ rfl rfl
  have hnil : ([] : List S3FileBuffer) = [b] := hb
  cases hnil

/-- C2, amended: for every buffer size `B >= 1` and every sequence of `appendv` calls,
with executor moves in between at will, on a newly opened writer, followed by
`close`: the contents of the submitted buffers, concatenated in ascending order of
part number, are the bytes of all slices in call order and slice order; the part
numbers are 1, 2, ... in submission order; when between 1 and `B` bytes were passed
(as by a single `appendv(S)` with `1 <= |S| <= B`) exactly one part is submitted and
its content is those bytes; and when no byte was passed no part is submitted. -/
theorem content_in_part_order (B : Nat) (hB : 1 ≤ B) (closed0 : Bool) (id : String)
    (ops : List Op) (hops : ∀ op ∈ ops, op.is_append_or_exec = true)
    (early : List ExecStep) (sched : Nat → ExecStep) (o : Outcome Unit) :
    ∃ w1 sts w2 st, run B ops (fresh closed0 id) = some (w1, sts) ∧
      w1.close early sched o = some (w2, st) ∧
      stream_of (w2.submitted.insertionSort buf_le) = bytes_of ops ∧
      w2.submitted.map (fun b => b.part_num) = List.range' 1 w2.submitted.length ∧
      (bytes_of ops ≠ [] → (bytes_of ops).length ≤ B →
        ∃ b, w2.submitted = [b] ∧ b.data = bytes_of ops) ∧
      (bytes_of ops = [] → w2.submitted = []) := by
  obtain ⟨w1, sts, w2, st, h1, h2, h3, h4, h5⟩ :=
    run_close_spec B hB closed0 id ops hops early sched o
  obtain ⟨p1, p2, p3, -, -⟩ := final_parts B hB w1 h4
  rw [h5] at p1 p3
  rw [← h3] at p1 p2 p3
  refine ⟨w1, sts, w2, st, h1, h2, ?_, p2, ?_, ?_⟩
  · rw [List.Sorted.insertionSort_eq (sorted_of_nums _ _ p2), p1]
  · intro hne hle
    have hpos : 0 < (bytes_of ops).length := List.length_pos.mpr hne
    have hone : w2.submitted.length = 1 := by
      rw [p3]
      apply Nat.div_eq_of_lt_le <;> omega
    obtain ⟨b, hb⟩ := List.length_eq_one.mp hone
    refine ⟨b, hb, ?_⟩
    rw [hb] at p1
    simpa [stream_of] using p1
  · intro he
    rw [he, List.length_nil] at p3
    have : w2.submitted.length = 0 := by
      rw [p3]
      apply Nat.div_eq_of_lt_le <;> omega
    exact List.length_eq_zero.mp this

theorem content_in_part_order_witness :
    ∃ w1 sts w2 st,
      run 2 [Op.appendv (.success "u") [[7, 8]]] (fresh true "u") = some (w1, sts) ∧
      w1.close [] fifo (.success ()) = some (w2, st) ∧
      stream_of (w2.submitted.insertionSort buf_le)
        = bytes_of [Op.appendv (.success "u") [[7, 8]]] ∧
      w2.submitted.map (fun b => b.part_num) = List.range' 1 w2.submitted.length ∧
      (bytes_of [Op.appendv (.success "u") [[7, 8]]] ≠ [] →
        (bytes_of [Op.appendv (.success "u") [[7, 8]]]).length ≤ 2 →
        ∃ b, w2.submitted = [b] ∧ b.data = bytes_of [Op.appendv (.success "u") [[7, 8]]]) ∧
      (bytes_of [Op.appendv (.success "u") [[7, 8]]] = [] → w2.submitted = []) :=
  content_in_part_order 2 (by decide) true "u" [Op.appendv (.success "u") [[7, 8]]]
    (by decide) [] fifo (.success ())

/-- C3, as stated, fails: with `B = 2`, the calls `appendv` of one byte, `finalize`,
`appendv` of one byte, `close`, all uploads succeeding, submit two buffers that
both carry part number 1, and CompleteMultipartUpload is sent with the part
numbers 1, 1. -/
theorem finalize_then_append_reuses_part_number :
    ∃ w sts,
      run 2 [Op.appendv (.success "u") [[1]], Op.finalize, Op.appendv (.success "u") [[2]],
        Op.close [] fifo (.success ())] (fresh true "u") = some (w, sts) ∧
      sts = [Status.OK, Status.OK, Status.OK, Status.OK] ∧
      w.submitted.map (fun b => b.part_num) = [1, 1] ∧
      w.sent.getLast? = some (Request.CompleteMultipartUpload "u" [⟨1, "e"⟩, ⟨1, "e"⟩]) :=
  ⟨_, _, rfl, by decide, by decide, by decide⟩

/-- C3, amended: take, on a newly opened writer and for a buffer size `B >= 1`, a
sequence of `appendv` calls, `finalize` calls and moves of the executor in which
no byte is passed to `appendv` after a `finalize` that submitted a buffer, followed
by `close`, with every upload succeeding.  All calls return, the submitted buffers
carry the part numbers 1, 2, ..., n in submission order, so that no number is used
by two buffers, and the last request sent is CompleteMultipartUpload with a part
list whose part numbers are 1, 2, ..., n in this order. -/
theorem part_numbers_without_append_after_flush (B : Nat) (hB : 1 ≤ B) (closed0 : Bool)
    (id : String) (ops : List Op)
    (hops : ∀ op ∈ ops, op.is_append_finalize_or_exec = true)
    (hflush : no_append_after_flush B ops (fresh closed0 id) = true)
    (hup : ∀ op ∈ ops, op.uploads_succeed = true)
    (early : List ExecStep) (hearly : ∀ s ∈ early, s.succeeds = true)
    (sched : Nat → ExecStep) (hsched : ∀ k, (sched k).succeeds = true)
    (o : Outcome Unit) :
    ∃ w1 sts w2 st parts,
      run B ops (fresh closed0 id) = some (w1, sts) ∧
      w1.close early sched o = some (w2, st) ∧
      w2.submitted.map (fun b => b.part_num) = List.range' 1 w2.submitted.length ∧
      w2.sent.getLast? = some (Request.CompleteMultipartUpload id parts) ∧
      parts.map (fun p => p.part_number) = List.range' 1 w2.submitted.length := by
  obtain ⟨f1, f2, -, f4, -⟩ := fresh_spec B closed0 id
  have hpf : pend_ok B (fresh closed0 id) := by
    intro b hb
    simp [fresh, S3FileWriter.init, open_] at hb
  have hnf : num_inv (fresh closed0 id) := by
    refine ⟨by simp [fresh, S3FileWriter.init, open_], ?_⟩
    intro b hb
    simp [fresh, S3FileWriter.init, open_] at hb
  have hcf : cur_ok (fresh closed0 id) := by
    simp [cur_ok, fresh, S3FileWriter.init, open_]
  have haf : acct (fresh closed0 id) :=
    ⟨[], [], by simp [fresh, S3FileWriter.init, open_],
      by simp [fresh, S3FileWriter.init, open_], by simp [fresh, S3FileWriter.init, open_],
      fun _ => rfl⟩
  obtain ⟨w1, sts, h1, hn1, hc1, hid1⟩ :=
    run_num B hB ops (fresh closed0 id) hops hflush f1 hpf hnf (Or.inl hcf)
  rw [f2] at hc1
  have hw1 : wait_ok w1 :=
    run_preserves B wait_ok (fun op v v1 st hv hs => step_wait_ok B op v v1 st hv hs)
      ops _ w1 sts f4 h1
  have ha1 : acct w1 :=
    run_preserves B acct (fun op v v1 st hv hs => step_acct B op v v1 st hv hs)
      ops _ w1 sts haf h1
  have hf1 : w1.failed = false := run_clear B ops _ w1 sts hops hup rfl h1
  obtain ⟨w2, st, k1, k2⟩ := close_returns early sched o w1 hc1 hw1
  have hcm := close_eq_complete early sched o w1 w2 st hc1 k1
  obtain ⟨-, s2, s3, -⟩ := close_submit_sent w1
  have hf0 : (w1.close_submit.exec_steps early).failed = false :=
    exec_steps_clear early _ hearly (by rw [s3, hf1])
  obtain ⟨v, hv, c1, c2, c3, -⟩ := complete_clear sched o _ w2 st hf0 hcm
  have hf2 : w2.failed = false := by
    rw [c3]
    exact wait_loop_clear sched hsched _ _ v hv hf0
  obtain ⟨hq, hi, -⟩ := close_drained early sched o w1 w2 st hc1 hw1 k1 hf2
  obtain ⟨done, lost, a1, a2, -, a4⟩ := step_acct B (Op.close early sched o) w1 w2 st ha1 k1
  rw [hq, hi, a4 hf2] at a1
  simp only [List.append_nil] at a1
  have hsub : w2.submitted = w1.close_submit.submitted := by
    have := congrArg (fun t => t.2.2.2.2.2.2) k2
    simpa [writer_side] using this
  have hnum : w2.submitted.map (fun b => b.part_num) = List.range' 1 w2.submitted.length := by
    rw [hsub]
    exact close_submit_num w1 hn1
  have hidv : v.upload_id = id := by
    have hside := wait_loop_side sched _ _ v hv
    rw [exec_steps_side] at hside
    have := congrArg (fun t => t.1) hside
    simp only [writer_side] at this
    rw [this, s2, hid1]
    rfl
  refine ⟨w1, sts, w2, st, w2.completed_parts, h1, k1, hnum, ?_, ?_⟩
  · rw [c2, c1, hidv]
    simp
  · haveI : IsTotal CompletedPart part_le := ⟨fun a b => Nat.le_total _ _⟩
    haveI : IsTrans CompletedPart part_le := ⟨fun a b c hab hbc => Nat.le_trans hab hbc⟩
    apply sorted_nums_eq
    · rw [c1]
      exact List.sorted_insertionSort part_le _
    · rw [← hnum]
      exact a2.trans (a1.map _)

theorem part_numbers_without_append_after_flush_witness :
    (∃ w1 sts w2 st parts,
      run 2 [Op.appendv (.success "u") [[1, 2, 3]], Op.exec ⟨true, 0, .success "e"⟩,
        Op.finalize, Op.appendv (.success "u") [[]], Op.finalize]
        (fresh true "u") = some (w1, sts) ∧
      w1.close [] fifo (.success ()) = some (w2, st) ∧
      w2.submitted.map (fun b => b.part_num) = List.range' 1 w2.submitted.length ∧
      w2.sent.getLast? = some (Request.CompleteMultipartUpload "u" parts) ∧
      parts.map (fun p => p.part_number) = List.range' 1 w2.submitted.length) ∧
    (∃ w sts,
      run 2 [Op.appendv (.success "u") [[1, 2, 3]], Op.exec ⟨true, 0, .success "e"⟩,
        Op.finalize, Op.appendv (.success "u") [[]], Op.finalize,
        Op.close [] fifo (.success ())] (fresh true "u") = some (w, sts) ∧
      w.submitted.map (fun b => b.data) = [[1, 2], [3]] ∧
      w.sent.getLast? = some (Request.CompleteMultipartUpload "u" [⟨1, "e"⟩, ⟨2, "e"⟩])) :=
  ⟨part_numbers_without_append_after_flush 2 (by decide) true "u"
      [Op.appendv (.success "u") [[1, 2, 3]], Op.exec ⟨true, 0, .success "e"⟩,
        Op.finalize, Op.appendv (.success "u") [[]], Op.finalize]
      (by decide) (by decide) (by decide) [] (by decide) fifo (fun _ => rfl) (.success ()),
    ⟨_, _, rfl, by decide, by decide⟩⟩

/-- C4, evaluation at the failing input: with `B = 5`, two `appendv` calls of three
bytes each and `close`; the uploads run while `close` waits, part 1 succeeds and
part 2, the buffer that `close` itself submitted, fails.  `close` has tested
`_failed` before the wait, so it sends CompleteMultipartUpload with part 1 alone
and returns ok, although the failure is recorded in the writer. -/
theorem close_misses_failure_during_wait :
    ∃ w sts,
      run 5 [Op.appendv (.success "u") [[1, 2, 3]], Op.appendv (.success "u") [[4, 5, 6]],
        Op.close [] late_failure (.success ())] (fresh true "u") = some (w, sts) ∧
      sts = [Status.OK, Status.OK, Status.OK] ∧
      w.failed = true ∧ w.st = Status.IOError "5xx" ∧
      w.submitted.map (fun b => b.part_num) = [1, 2] ∧
      w.sent.getLast? = some (Request.CompleteMultipartUpload "u" [⟨1, "e1"⟩]) :=
  ⟨_, _, rfl, by decide, by decide, by decide, by decide, by decide⟩

/-- C5, as stated, fails: with `B = 2`, after `appendv` of two bytes the upload of part 1
fails; `close` then returns the recorded status, and the `abort` called after that
`close` returns ok without sending AbortMultipartUpload, because `close` has set
`closed`. -/
theorem abort_after_failed_close_sends_nothing :
    ∃ w sts,
      run 2 [Op.appendv (.success "u") [[1, 2]],
        Op.exec ⟨true, 0, .success "e"⟩, Op.exec ⟨false, 0, .failure err500⟩,
        Op.close [] fifo (.success ()), Op.abort fifo (.success ())] (fresh true "u")
        = some (w, sts) ∧
      sts = [Status.OK, Status.OK, Status.OK, Status.IOError "5xx", Status.OK] ∧
      w.sent = [Request.CreateMultipartUpload, Request.UploadPart 1 "u" [1, 2]] ∧
      Request.AbortMultipartUpload "u" ∉ w.sent :=
  ⟨_, _, rfl, by decide, by decide, by decide⟩

/-- C5, amended: on every opened writer that is not closed and has `failed` set,
`close` returns the status recorded when `_complete` tests the flag (the status the
writer held at the call when no uploader reports in between), sends no request and
sets `closed`; and an `abort` called after that `close` returns ok, sends no request
and leaves the state as it is.  So AbortMultipartUpload is sent only by an `abort`
that finds the writer opened and not closed. -/
theorem close_then_abort_after_failure (w : S3FileWriter) (hc : w.closed = false)
    (hf : w.failed = true) (early : List ExecStep) (sched : Nat → ExecStep) (o : Outcome Unit)
    (sched2 : Nat → ExecStep) (o2 : Outcome Unit) :
    ∃ w1, w.close early sched o = some (w1, w1.st) ∧
      w1 = w.close_submit.exec_steps early ∧
      (early = [] → w1.st = w.st) ∧
      w1.sent = w.sent ∧ w1.closed = true ∧
      w1.abort sched2 o2 = some (w1, Status.OK) := by
  have hf1 : w.close_submit.failed = true := by
    unfold close_submit; cases w.pending_buf <;> simpa [submit] using hf
  have hs1 : w.close_submit.sent = w.sent := by
    unfold close_submit; cases w.pending_buf <;> simp [submit]
  obtain ⟨h1, h2⟩ := exec_steps_failed early _ hf1
  have hcl : (w.close_submit.exec_steps early).closed = true := by
    have := congrArg (fun t => t.2.2.1) (exec_steps_side early w.close_submit)
    simp only [writer_side] at this
    rw [this, close_submit_closed]
  refine ⟨w.close_submit.exec_steps early, ?_, rfl, ?_, h2.trans hs1, hcl, ?_⟩
  · have hcm : (w.close_submit.exec_steps early)._complete sched o
        = some (w.close_submit.exec_steps early, (w.close_submit.exec_steps early).st) := by
      simp [_complete, h1]
    unfold close
    rw [hcm]
    cases hst : (w.close_submit.exec_steps early).st <;> simp [hc, Status.ok]
  · intro he
    subst he
    unfold close_submit
    cases w.pending_buf <;> simp [submit, exec_steps]
  · generalize w.close_submit.exec_steps early = w1 at h1 hcl
    obtain ⟨uid, op, cl, fl, st0, cpn, ba, bw, pb, cp, wt, q, inf, sub, sn⟩ := w1
    simp only at h1 hcl
    subst h1 hcl
    simp [abort]

theorem close_then_abort_after_failure_witness :
    ∃ w1, ((fresh true "u").on_failed (Status.IOError "5xx")).close [] fifo (.success ())
        = some (w1, w1.st) ∧
      w1 = ((fresh true "u").on_failed (Status.IOError "5xx")).close_submit.exec_steps [] ∧
      (([] : List ExecStep) = [] →
        w1.st = ((fresh true "u").on_failed (Status.IOError "5xx")).st) ∧
      w1.sent = ((fresh true "u").on_failed (Status.IOError "5xx")).sent ∧ w1.closed = true ∧
      w1.abort fifo (.success ()) = some (w1, Status.OK) :=
  close_then_abort_after_failure ((fresh true "u").on_failed (Status.IOError "5xx")) rfl rfl
    [] fifo (.success ()) fifo (.success ())

/-- C6, as stated, fails: with `B = 1`, one `appendv` of 10001 bytes on a newly opened
writer returns ok, a buffer with part number 10001 is among the submitted ones and
the part counter is 10002. -/
theorem part_10001_is_submitted :
    ∃ w1 sts,
      run 1 [Op.appendv (.success "u") [List.replicate 10001 0]] (fresh true "u")
        = some (w1, sts) ∧
      (∀ st ∈ sts, st = Status.OK) ∧
      (∃ b ∈ w1.submitted, b.part_num = 10001) ∧ w1.cur_part_num = 10002 := by
  obtain ⟨w1, sts, h1, h2, h3, h4⟩ := run_fresh_spec 1 (by decide) true "u"
    [Op.appendv (.success "u") [List.replicate 10001 0]] (by decide)
  obtain ⟨k1, k2⟩ := inv_counts 1 (by decide) w1 h3
  have hb : ∀ x : Slice, bytes_of [Op.appendv (.success "u") [x]] = x := by
    intro x; simp [bytes_of, Op.bytes]
  have hN : (content w1).length = 10001 := by
    rw [h4, hb, List.length_replicate]
  rw [hN] at k1 k2
  refine ⟨w1, sts, h1, h2, ?_, by simpa using k2⟩
  have hm : 10001 ∈ w1.submitted.map (fun b => b.part_num) := by
    rw [k1]
    exact List.mem_range'_1.mpr (by omega)
  obtain ⟨b, hb, hbn⟩ := List.mem_map.mp hm
  exact ⟨b, hb, hbn⟩

/-- C6, amended: the writer does not limit the number of parts.  For every buffer size
`B >= 1` and every sequence of `appendv` calls, with executor moves in between at
will, on a newly opened writer, every call returns ok, the buffers submitted carry
the part numbers 1 to `N / B` for the `N` bytes passed, and the part counter is
`N / B + 1`, which is at least 1 and exceeds 10000 once 10000 buffers are filled. -/
theorem part_count_is_not_limited (B : Nat) (hB : 1 ≤ B) (closed0 : Bool) (id : String)
    (ops : List Op) (hops : ∀ op ∈ ops, op.is_append_or_exec = true) :
    ∃ w1 sts, run B ops (fresh closed0 id) = some (w1, sts) ∧
      (∀ st ∈ sts, st = Status.OK) ∧
      w1.submitted.map (fun b => b.part_num) = List.range' 1 ((bytes_of ops).length / B) ∧
      w1.cur_part_num = (bytes_of ops).length / B + 1 ∧
      1 ≤ w1.cur_part_num ∧
      (10000 * B ≤ (bytes_of ops).length → 10000 < w1.cur_part_num) := by
  obtain ⟨w1, sts, h1, h2, h3, h4⟩ := run_fresh_spec B hB closed0 id ops hops
  obtain ⟨k1, k2⟩ := inv_counts B hB w1 h3
  rw [h4] at k1 k2
  refine ⟨w1, sts, h1, h2, k1, k2, by rw [k2]; exact Nat.le_add_left _ _, ?_⟩
  intro hbig
  have : 10000 ≤ (bytes_of ops).length / B := (Nat.le_div_iff_mul_le hB).mpr hbig
  rw [k2]
  exact Nat.lt_succ_of_le this

theorem part_count_is_not_limited_witness :
    ∃ w1 sts,
      run 1 [Op.appendv (.success "u") [[1, 2, 3]]] (fresh true "u") = some (w1, sts) ∧
      (∀ st ∈ sts, st = Status.OK) ∧
      w1.submitted.map (fun b => b.part_num)
        = List.range' 1 ((bytes_of [Op.appendv (.success "u") [[1, 2, 3]]]).length / 1) ∧
      w1.cur_part_num = (bytes_of [Op.appendv (.success "u") [[1, 2, 3]]]).length / 1 + 1 ∧
      1 ≤ w1.cur_part_num ∧
      (10000 * 1 ≤ (bytes_of [Op.appendv (.success "u") [[1, 2, 3]]]).length →
        10000 < w1.cur_part_num) :=
  part_count_is_not_limited 1 (by decide) true "u" [Op.appendv (.success "u") [[1, 2, 3]]]
    (by decide)

/-- C9, as stated, fails: with `B = 1`, after `appendv` of two bytes both uploads are
started before either returns; the first to return reports `"first"`, the second
reports `"second"`, and `close` returns `"second"`, not the first report. -/
theorem second_report_overwrites_first :
    ∃ w sts,
      run 1 [Op.appendv (.success "u") [[1, 2]],
        Op.exec ⟨true, 0, .success "e"⟩, Op.exec ⟨true, 0, .success "e"⟩,
        Op.exec ⟨false, 0, .failure ⟨.OTHER 1, 500, "first"⟩⟩,
        Op.exec ⟨false, 0, .failure ⟨.OTHER 1, 500, "second"⟩⟩,
        Op.close [] fifo (.success ())] (fresh true "u") = some (w, sts) ∧
      sts.getLast? = some (Status.IOError "second") ∧
      sts.getLast? ≠ some (Status.IOError "first") :=
  ⟨_, _, rfl, by decide, by decide⟩

/-- C9, amended: the status recorded by the writer is the last failure reported.  For
every writer that is not closed and every sequence of one or more `on_failed`
reports, each report overwrites the status of the one before, and a `close` that
follows returns the status of the last report. -/
theorem last_report_wins (w : S3FileWriter) (hc : w.closed = false) (reports : List Status)
    (last : Status) (sched : Nat → ExecStep) (o : Outcome Unit) :
    ∃ w1, ((reports ++ [last]).foldl (fun w st => w.on_failed st) w).close [] sched o
        = some (w1, last) ∧
      w1.st = last ∧ w1.failed = true ∧ w1.sent = w.sent := by
  have hfold : ∀ (rs : List Status) (v : S3FileWriter),
      (rs.foldl (fun w st => w.on_failed st) v).closed = v.closed ∧
      (rs.foldl (fun w st => w.on_failed st) v).sent = v.sent := by
    intro rs
    induction rs with
    | nil => intro v; exact ⟨rfl, rfl⟩
    | cons r rs ih => intro v; exact ih (v.on_failed r)
  obtain ⟨f1, f2⟩ := hfold reports w
  rw [List.foldl_append]
  generalize reports.foldl (fun w st => w.on_failed st) w = v at f1 f2
  rw [← f1] at hc
  rw [← f2]
  obtain ⟨uid, op, cl, fl, st0, cpn, ba, bw, pb, cp, wt, q, inf, sub, sn⟩ := v
  simp only at hc
  subst hc
  cases pb <;> cases last <;>
    simp [close, close_submit, on_failed, exec_steps, _complete, submit, Status.ok]

theorem last_report_wins_witness :
    ∃ w1, (([Status.IOError "first"] ++ [Status.IOError "second"]).foldl
        (fun w st => w.on_failed st) (fresh true "u")).close [] fifo (.success ())
        = some (w1, Status.IOError "second") ∧
      w1.st = Status.IOError "second" ∧ w1.failed = true ∧ w1.sent = (fresh true "u").sent :=
  last_report_wins (fresh true "u") rfl [Status.IOError "first"] (Status.IOError "second")
    fifo (.success ())

/-- C10, as stated, fails: `abort` on a newly opened writer returns ok and leaves
`failed` set with the status still ok. -/
theorem abort_sets_failed_without_status :
    ∃ w, (fresh true "u").abort fifo (.success ()) = some (w, Status.OK) ∧
      w.failed = true ∧ w.st = Status.OK :=
  ⟨_, rfl, by decide, by decide⟩

/-- C10, amended: the invariant that a set `failed` flag comes with a status that is
not ok holds in the initial state and is preserved by `open`, `appendv`, `finalize`,
`close` and by every move of the upload executor, hence in every state reached
without `abort`; `abort` sets `failed` and stores no status. -/
theorem failed_has_status_without_abort (B : Nat) (closed0 : Bool) :
    fail_inv (S3FileWriter.init closed0) ∧
    (∀ (op : Op) (w w1 : S3FileWriter) (st : Status), op.is_abort = false → fail_inv w →
      step B op w = some (w1, st) → fail_inv w1) ∧
    (∀ (ops : List Op) (w : S3FileWriter) (sts : List Status),
      (∀ op ∈ ops, op.is_abort = false) →
      run B ops (S3FileWriter.init closed0) = some (w, sts) → fail_inv w) := by
  have hstep : ∀ (op : Op) (w w1 : S3FileWriter) (st : Status), op.is_abort = false →
      fail_inv w → step B op w = some (w1, st) → fail_inv w1 := by
    intro op w w1 st hop hi h
    cases op with
    | open_ o =>
      simp only [step, Option.some.injEq] at h
      unfold open_ at h
      cases o <;> simp at h <;> obtain ⟨rfl, -⟩ := h <;> exact hi
    | appendv c d => exact appendv_fail_inv B c d w w1 st h hi
    | finalize =>
      simp only [step, Option.some.injEq] at h
      unfold finalize at h
      cases hp : w.pending_buf <;> simp [hp] at h <;> obtain ⟨rfl, -⟩ := h <;> exact hi
    | close e s o => exact close_fail_inv e s o w w1 st h hi
    | abort s o => simp [Op.is_abort] at hop
    | exec s =>
      simp only [step, Option.some.injEq, Prod.mk.injEq] at h
      obtain ⟨rfl, -⟩ := h
      exact exec_step_fail_inv s w hi
  have hinit : fail_inv (S3FileWriter.init closed0) := by
    intro hf
    simp [S3FileWriter.init] at hf
  refine ⟨hinit, hstep, ?_⟩
  have hrun : ∀ (ops : List Op) (v w : S3FileWriter) (sts : List Status),
      (∀ op ∈ ops, op.is_abort = false) → fail_inv v →
      run B ops v = some (w, sts) → fail_inv w := by
    intro ops
    induction ops with
    | nil =>
      intro v w sts _ hv h
      simp only [run, Option.some.injEq, Prod.mk.injEq] at h
      obtain ⟨rfl, -⟩ := h
      exact hv
    | cons op rest ih =>
      intro v w sts hops hv h
      unfold run at h
      cases hs : step B op v with
      | none => simp [hs] at h
      | some r =>
        obtain ⟨v1, st1⟩ := r
        have hv1 := hstep op v v1 st1 (hops op (List.mem_cons_self _ _)) hv hs
        simp only [hs] at h
        cases hr : run B rest v1 with
        | none => simp [hr] at h
        | some r2 =>
          obtain ⟨v2, sts2⟩ := r2
          simp only [hr, Option.some.injEq, Prod.mk.injEq] at h
          obtain ⟨rfl, -⟩ := h
          exact ih v1 v2 sts2 (fun o ho => hops o (List.mem_cons_of_mem _ ho)) hv1 hr
  intro ops w sts hops h
  exact hrun ops _ w sts hops hinit h

theorem failed_has_status_without_abort_witness :
    ∃ w sts,
      run 2 [Op.appendv (.success "u") [[1, 2]], Op.exec ⟨true, 0, .success "e"⟩,
        Op.exec ⟨false, 0, .failure err500⟩] (S3FileWriter.init true) = some (w, sts) ∧
      w.failed = true ∧ w.st = Status.IOError "5xx" ∧ fail_inv w :=
  ⟨_, _, rfl, by decide, by decide,
    (failed_has_status_without_abort 2 true).2.2
      [Op.appendv (.success "u") [[1, 2]], Op.exec ⟨true, 0, .success "e"⟩,
        Op.exec ⟨false, 0, .failure err500⟩] _ _ (by decide) rfl⟩

/-- C13: a failed InitiateMultipartUpload is atomic.  `open` with a failing outcome
returns the io_error and leaves every member of the writer as it was (only the
request history grows by the request); so does `appendv` on a writer that is not
opened, whose lazy `open` fails: nothing is allocated, submitted or counted.  With
a successful outcome `open` stores the returned upload id, sets `opened`, clears
`closed` and changes nothing else. -/
theorem open_failure_is_atomic (B : Nat) (w : S3FileWriter) (e : AwsError) (id : String)
    (data : List Slice) :
    w.open_ (.failure e)
      = ({ w with sent := w.sent ++ [Request.CreateMultipartUpload] },
          Status.IOError e.message) ∧
    (w.opened = false →
      w.appendv B (.failure e) data
        = some ({ w with sent := w.sent ++ [Request.CreateMultipartUpload] },
            Status.IOError e.message)) ∧
    w.open_ (.success id)
      = ({ w with sent := w.sent ++ [Request.CreateMultipartUpload], upload_id := id,
                  closed := false, opened := true }, Status.OK) := by
  refine ⟨rfl, ?_, rfl⟩
  intro ho
  simp [appendv, ho, open_]

theorem open_failure_is_atomic_witness :
    (S3FileWriter.init true).appendv 5 (.failure err500) [[1, 2, 3]]
      = some ({ S3FileWriter.init true with sent := [Request.CreateMultipartUpload] },
          Status.IOError "5xx") :=
  (open_failure_is_atomic 5 (S3FileWriter.init true) err500 "u" [[1, 2, 3]]).2.1 rfl

/-- C14, evaluation at the failing input: with `B = 5`, after `appendv` of three bytes on
a newly opened writer, (a) `finalize`, then the upload of part 1, which fails with a
5xx, then `close`: `close` returns the recorded io_error and sends no
CompleteMultipartUpload; (b) `close` alone, with the same upload failing while
`close` waits: `close` returns ok and sends CompleteMultipartUpload, with an empty
part list.  Both submit the same buffer, once, as part 1. -/
theorem finalize_then_close_differs_on_failure :
    ∃ wa stsa wb stsb,
      run 5 [Op.appendv (.success "u") [[1, 2, 3]], Op.finalize,
        Op.exec ⟨true, 0, .success "e"⟩, Op.exec ⟨false, 0, .failure err500⟩,
        Op.close [] fifo (.success ())] (fresh true "u") = some (wa, stsa) ∧
      run 5 [Op.appendv (.success "u") [[1, 2, 3]],
        Op.close [] late_failure (.success ())] (fresh true "u") = some (wb, stsb) ∧
      stsa = [Status.OK, Status.OK, Status.OK, Status.OK, Status.IOError "5xx"] ∧
      stsb = [Status.OK, Status.OK] ∧
      wa.submitted = wb.submitted ∧ wa.submitted.map (fun b => b.part_num) = [1] ∧
      wa.sent = [Request.CreateMultipartUpload, Request.UploadPart 1 "u" [1, 2, 3]] ∧
      wb.sent = [Request.CreateMultipartUpload, Request.UploadPart 1 "u" [1, 2, 3],
        Request.CompleteMultipartUpload "u" []] :=
  ⟨_, _, _, _, rfl, rfl, by decide, by decide, by decide, by decide, by decide, by decide⟩

/-- C15: on a writer that is not opened, or is already closed, `abort` returns ok at
once, for every state of the wait group and of the executor, and the state it leaves
differs from the one it found in `failed` alone, which is set; no request is sent. -/
theorem abort_on_unopened_or_closed (sched : Nat → ExecStep) (o : Outcome Unit)
    (w : S3FileWriter) (h : w.opened = false ∨ w.closed = true) :
    w.abort sched o = some ({ w with failed := true }, Status.OK) := by
  rcases h with h | h <;> simp [abort, h]

theorem abort_on_unopened_or_closed_witness :
    (S3FileWriter.init false).abort fifo (.success ())
      = some ({ S3FileWriter.init false with failed := true }, Status.OK) :=
  abort_on_unopened_or_closed fifo (.success ()) (S3FileWriter.init false) (Or.inl rfl)

/-- C16: when `failed` is set at the start of an upload, `_upload_one_part` sends no
UploadPart request and leaves the whole writer state as it is, `completed_parts`,
`bytes_written` and the status included; the executor move that starts such a
buffer only takes it from the queue and runs `finish_upload`. -/
theorem cancelled_upload_changes_nothing (w : S3FileWriter) (hf : w.failed = true)
    (part_num : Nat) (buf : S3FileBuffer) (outcome : Outcome String) :
    w._upload_one_part_issue part_num buf = (w, false) ∧
    w._upload_one_part part_num buf outcome = w ∧
    (∀ i, i < w.queue.length →
      w.exec_start i = { w with queue := w.queue.eraseIdx i, wait := w.wait - 1 }) := by
  have h1 : ∀ (v : S3FileWriter) (pn : Nat) (b : S3FileBuffer), v.failed = true →
      v._upload_one_part_issue pn b = (v, false) := by
    intro v pn b hv
    simp [_upload_one_part_issue, is_cancel, hv]
  refine ⟨h1 w part_num buf hf, ?_, ?_⟩
  · simp [_upload_one_part, h1 w part_num buf hf]
  · intro i hi
    unfold exec_start
    rw [List.get?_eq_get hi]
    simp only
    rw [h1 { w with queue := w.queue.eraseIdx i } _ _ hf]
    rfl

theorem cancelled_upload_changes_nothing_witness :
    ((fresh true "u").on_failed (Status.IOError "5xx"))._upload_one_part 1 ⟨1, 0, [7]⟩
        (.success "e")
      = (fresh true "u").on_failed (Status.IOError "5xx") :=
  (cancelled_upload_changes_nothing ((fresh true "u").on_failed (Status.IOError "5xx")) rfl 1
    ⟨1, 0, [7]⟩ (.success "e")).2.1

/-- C18: on a writer that has not failed, `_complete` returns whenever the wait group is
consistent with the executor, and whenever it returns, the part list of the
CompleteMultipartUpload request it sends is a permutation of the records held in
`completed_parts` after the wait, in ascending order of part number, whatever the
order in which the uploads completed. -/
theorem complete_sends_sorted_records (sched : Nat → ExecStep) (o : Outcome Unit)
    (w : S3FileWriter) (hf : w.failed = false) :
    (wait_ok w → ∃ r, w._complete sched o = some r) ∧
    (∀ w2 st, w._complete sched o = some (w2, st) →
      ∃ w1 parts, w.wait_all sched = some w1 ∧
        w2.sent = w1.sent ++ [Request.CompleteMultipartUpload w1.upload_id parts] ∧
        parts.Perm w1.completed_parts ∧
        List.Sorted (fun p q : CompletedPart => p.part_number ≤ q.part_number) parts) := by
  constructor
  · intro hw
    obtain ⟨w1, st, h⟩ := complete_returns sched o w hw
    exact ⟨_, h⟩
  · intro w2 st h
    unfold _complete at h
    simp only [hf] at h
    cases hw : w.wait_all sched with
    | none => simp [hw] at h
    | some w1 =>
      haveI : IsTotal CompletedPart part_le := ⟨fun a b => Nat.le_total _ _⟩
      haveI : IsTrans CompletedPart part_le := ⟨fun a b c hab hbc => Nat.le_trans hab hbc⟩
      refine ⟨w1, w1.completed_parts.insertionSort part_le, rfl, ?_,
        List.perm_insertionSort part_le _, List.sorted_insertionSort part_le _⟩
      simp only [hw] at h
      cases o <;> simp at h <;> obtain ⟨rfl, -⟩ := h <;> rfl

theorem complete_sends_sorted_records_witness :
    (∃ r, ({ fresh true "u" with completed_parts := [⟨2, "b"⟩, ⟨1, "a"⟩] } : S3FileWriter)._complete
        fifo (.success ()) = some r) ∧
    (∃ w2 st,
      ({ fresh true "u" with completed_parts := [⟨2, "b"⟩, ⟨1, "a"⟩] } : S3FileWriter)._complete
        fifo (.success ()) = some (w2, st) ∧
      ∃ w1 parts,
        ({ fresh true "u" with completed_parts := [⟨2, "b"⟩, ⟨1, "a"⟩] } : S3FileWriter).wait_all
          fifo = some w1 ∧
        w2.sent = w1.sent ++ [Request.CompleteMultipartUpload w1.upload_id parts] ∧
        parts.Perm w1.completed_parts ∧
        List.Sorted (fun p q : CompletedPart => p.part_number ≤ q.part_number) parts) :=
  ⟨(complete_sends_sorted_records fifo (.success ())
      { fresh true "u" with completed_parts := [⟨2, "b"⟩, ⟨1, "a"⟩] } rfl).1 (by decide),
    _, _, rfl,
    (complete_sends_sorted_records fifo (.success ())
      { fresh true "u" with completed_parts := [⟨2, "b"⟩, ⟨1, "a"⟩] } rfl).2 _ _ rfl⟩

/-- C19, evaluation at the failing input: with `B = 1`, after `appendv` of two bytes both
uploads are started and the first fails; `close` then returns the recorded status
at once, while the upload of part 2 is still outstanding and the count of the wait
group is 1. -/
theorem close_returns_before_uploads_finish :
    ∃ w sts,
      run 1 [Op.appendv (.success "u") [[1, 2]],
        Op.exec ⟨true, 0, .success "e"⟩, Op.exec ⟨true, 0, .success "e"⟩,
        Op.exec ⟨false, 0, .failure err500⟩,
        Op.close [] fifo (.success ())] (fresh true "u") = some (w, sts) ∧
      sts.getLast? = some (Status.IOError "5xx") ∧ w.closed = true ∧
      w.wait = 1 ∧ w.inflight.map (fun b => b.part_num) = [2] :=
  ⟨_, _, rfl, by decide, by decide, by decide, by decide⟩

/-- C20: in every state reached from the initial one by calls of the five methods and
moves of the executor, the count of the wait group is the number of buffers handed
to the executor whose `finish_upload` has not run (those queued and those with an
outstanding request), and so it is never negative.  Each submission adds one to
the count and one buffer to the executor, and `finish_upload` takes one off. -/
theorem wait_count_is_executor_load (B : Nat) (closed0 : Bool) :
    (∀ (ops : List Op) (w : S3FileWriter) (sts : List Status),
      run B ops (S3FileWriter.init closed0) = some (w, sts) →
      w.wait = (w.queue.length : Int) + (w.inflight.length : Int) ∧ 0 ≤ w.wait) ∧
    (∀ (w : S3FileWriter) (b : S3FileBuffer),
      (w.submit b).wait = w.wait + 1 ∧ (w.submit b).queue = w.queue ++ [b] ∧
      (w.submit b).inflight = w.inflight) ∧
    (∀ w : S3FileWriter, w.finish_upload.wait = w.wait - 1) := by
  refine ⟨?_, fun w b => ⟨rfl, rfl, rfl⟩, fun w => rfl⟩
  intro ops w sts h
  have hw := run_wait_ok B closed0 ops w sts h
  unfold wait_ok at hw
  exact ⟨hw, by omega⟩

theorem wait_count_is_executor_load_witness :
    ∃ w sts, run 1 [Op.appendv (.success "u") [[1, 2]], Op.exec ⟨true, 0, .success "e"⟩]
        (S3FileWriter.init true) = some (w, sts) ∧
      w.wait = (w.queue.length : Int) + (w.inflight.length : Int) ∧ 0 ≤ w.wait :=
  ⟨_, _, rfl, (wait_count_is_executor_load 1 true).1
    [Op.appendv (.success "u") [[1, 2]], Op.exec ⟨true, 0, .success "e"⟩] _ _ rfl⟩

/-- C11, as stated, fails: with `B = 2`, after `appendv` of one byte on a newly opened
writer, `abort` returns ok with `closed` set while the writer still holds the
pending buffer. -/
theorem abort_keeps_pending_buffer :
    ∃ w sts,
      run 2 [Op.appendv (.success "u") [[1]], Op.abort fifo (.success ())] (fresh true "u")
        = some (w, sts) ∧
      sts = [Status.OK, Status.OK] ∧ w.closed = true ∧
      w.pending_buf = some ⟨1, 0, [1]⟩ :=
  ⟨_, _, rfl, by decide, by decide, by decide⟩

/-- C11, amended: the invariant that a closed writer holds no pending buffer holds in
the initial state and is kept by `open`, `appendv`, `finalize`, `close` and the
moves of the executor, as long as the debug assertions hold (no `appendv` on a
writer that is opened and closed); a `close` that finds the writer not closed leaves
it closed without a pending buffer; `abort` sets `closed` and leaves the pending
buffer as it found it. -/
theorem closed_has_no_pending_buffer (B : Nat) (closed0 : Bool) :
    closed_inv (S3FileWriter.init closed0) ∧
    (∀ (op : Op) (w w1 : S3FileWriter) (st : Status), op.is_abort = false →
      op.dcheck w = true → closed_inv w → step B op w = some (w1, st) → closed_inv w1) ∧
    (∀ (w w1 : S3FileWriter) (st : Status) early sched o, w.closed = false →
      w.close early sched o = some (w1, st) → w1.closed = true ∧ w1.pending_buf = none) ∧
    (∀ (w w1 : S3FileWriter) (st : Status) sched o,
      w.abort sched o = some (w1, st) → w1.pending_buf = w.pending_buf) := by
  have hside : ∀ v v1 : S3FileWriter, writer_side v1 = writer_side v →
      v1.closed = v.closed ∧ v1.pending_buf = v.pending_buf := by
    intro v v1 h
    simp only [writer_side, Prod.mk.injEq] at h
    exact ⟨h.2.2.1, h.2.2.2.2.2.1⟩
  have hclose : ∀ (w w1 : S3FileWriter) (st : Status) early sched o, w.closed = false →
      w.close early sched o = some (w1, st) → w1.closed = true ∧ w1.pending_buf = none := by
    intro w w1 st early sched o hc h
    refine ⟨close_closed early sched o w w1 st h, ?_⟩
    obtain ⟨w2, st2, h2, hs⟩ := close_returns_side early sched o w w1 st hc h
    rw [(hside _ _ hs).2]
    unfold close_submit
    cases w.pending_buf <;> rfl
  refine ⟨fun _ => rfl, ?_, hclose, ?_⟩
  · intro op w w1 st hop hd hi h
    cases op with
    | open_ o =>
      simp only [step, Option.some.injEq] at h
      unfold open_ at h
      cases o with
      | success id =>
        simp at h
        obtain ⟨rfl, -⟩ := h
        intro hc
        simp at hc
      | failure e =>
        simp at h
        obtain ⟨rfl, -⟩ := h
        exact hi
    | appendv c d =>
      simp only [step] at h
      simp only [Op.dcheck, Bool.not_eq_true', Bool.and_eq_false_iff] at hd
      have hfalse : ∀ v : S3FileWriter, v.closed = false →
          append_slices B d v = some w1 → closed_inv w1 := by
        intro v hv hs
        have hx := append_slices_exec_side B d v w1 hs
        simp only [exec_side, Prod.mk.injEq] at hx
        intro hc
        rw [hx.2.2.1, hv] at hc
        cases hc
      rcases appendv_cases B c d w w1 st h with ⟨ho, hs, -⟩ | ⟨ho, e, rfl, rfl, -⟩ |
          ⟨ho, id, rfl, hs, -⟩
      · have hcl : w.closed = false := by
          rcases hd with hd | hd
          · rw [ho] at hd; cases hd
          · exact hd
        exact hfalse w hcl hs
      · exact hi
      · exact hfalse _ rfl hs
    | finalize =>
      simp only [step, Option.some.injEq] at h
      unfold finalize at h
      cases hp : w.pending_buf <;> simp [hp] at h <;> obtain ⟨rfl, -⟩ := h
      · exact hi
      · intro _; rfl
    | close e s o =>
      simp only [step] at h
      by_cases hc : w.closed = true
      · simp [close, hc] at h
        obtain ⟨rfl, -⟩ := h
        exact hi
      · intro _
        exact (hclose w w1 st e s o (by simpa using hc) h).2
    | abort s o => simp [Op.is_abort] at hop
    | exec s =>
      simp only [step, Option.some.injEq, Prod.mk.injEq] at h
      obtain ⟨rfl, -⟩ := h
      obtain ⟨h1, h2⟩ := hside _ _ (exec_step_side s w)
      intro hc
      rw [h2]
      exact hi (by rw [← h1]; exact hc)
  · intro w w1 st sched o h
    unfold abort at h
    simp only at h
    split at h
    · cases h; rfl
    · cases hw : ({ w with failed := true, closed := true } : S3FileWriter).wait_all sched with
      | none => simp [hw] at h
      | some v2 =>
        have hs := (hside _ _ (wait_loop_side sched _ _ v2 hw)).2
        simp only [hw] at h
        cases o with
        | success r => simp at h; obtain ⟨rfl, -⟩ := h; exact hs
        | failure e =>
          simp only at h
          split at h <;> cases h <;> exact hs

theorem closed_has_no_pending_buffer_witness :
    ∃ w1 st,
      ({ fresh true "u" with pending_buf := some ⟨1, 0, [1]⟩, bytes_appended := 1 } :
        S3FileWriter).close [] fifo (.success ()) = some (w1, st) ∧
      w1.closed = true ∧ w1.pending_buf = none :=
  ⟨_, _, rfl, (closed_has_no_pending_buffer 2 true).2.2.1
    { fresh true "u" with pending_buf := some ⟨1, 0, [1]⟩, bytes_appended := 1 } _ _
    [] fifo (.success ()) rfl rfl⟩

/-- C12: `appendv` treats its slices as one byte stream.  For every buffer size `B >= 1`,
every opened writer state reached from the initial one and every list of slices,
the call `appendv([s1, .., sk])`, the `k` calls `appendv([s1])`, ..., `appendv([sk])`
and the call `appendv([s1 ++ .. ++ sk])` all return ok and leave the same state:
the same `bytes_appended`, part counter and pending buffer and the same submitted
buffers, with all other members. -/
theorem appendv_is_one_stream (B : Nat) (hB : 1 ≤ B) (closed0 : Bool) (ops : List Op)
    (w : S3FileWriter) (sts : List Status)
    (hreach : run B ops (S3FileWriter.init closed0) = some (w, sts))
    (ho : w.opened = true) (c : Outcome String) (slices : List Slice) :
    ∃ w1, w.appendv B c slices = some (w1, Status.OK) ∧
      appendv_each B c slices w = some (w1, Status.OK) ∧
      w.appendv B c [slices.flatten] = some (w1, Status.OK) := by
  have hp := run_pend_ok B hB closed0 ops w sts hreach
  refine ⟨feed B w slices.flatten, appendv_feed B hB c slices w ho hp,
    appendv_each_feed B hB c slices w ho hp, ?_⟩
  have := appendv_feed B hB c [slices.flatten] w ho hp
  simpa using this

theorem appendv_is_one_stream_witness :
    ∃ w1, (fresh true "u").appendv 2 (.success "u") [[1], [2, 3]] = some (w1, Status.OK) ∧
      appendv_each 2 (.success "u") [[1], [2, 3]] (fresh true "u") = some (w1, Status.OK) ∧
      (fresh true "u").appendv 2 (.success "u") [[[1], [2, 3]].flatten]
        = some (w1, Status.OK) :=
  appendv_is_one_stream 2 (by decide) true [Op.open_ (.success "u")] (fresh true "u")
    [Status.OK] rfl rfl (.success "u") [[1], [2, 3]]

/-- C17: `bytes_written` accounts for the records in `completed_parts`.  A successful
`_upload_one_part` on a writer that has not failed adds one record, with the part
number it was given and the returned etag, and adds the size of the buffer to
`bytes_written`, and so does the executor move in which an outstanding request
returns with success, with the part number the buffer carries; a failed or a
cancelled upload leaves both as they were.  In every
state reached from the initial one there are submitted buffers, each taken once,
whose part numbers are those of the records and whose sizes add up to
`bytes_written`.  And when a `close` on a writer that is not closed returns with
`failed` clear, `bytes_written` equals `bytes_appended`. -/
theorem bytes_written_accounts_for_records (B : Nat) (closed0 : Bool) :
    (∀ (w : S3FileWriter) (pn : Nat) (buf : S3FileBuffer) (etag : String), w.failed = false →
      (w._upload_one_part pn buf (.success etag)).completed_parts
        = w.completed_parts ++ [⟨pn, etag⟩] ∧
      (w._upload_one_part pn buf (.success etag)).bytes_written
        = w.bytes_written + buf.get_size) ∧
    (∀ (w : S3FileWriter) (j : Nat) (hj : j < w.inflight.length) (etag : String),
      (w.exec_finish j (.success etag)).completed_parts
        = w.completed_parts ++ [⟨(w.inflight.get ⟨j, hj⟩).part_num, etag⟩] ∧
      (w.exec_finish j (.success etag)).bytes_written
        = w.bytes_written + (w.inflight.get ⟨j, hj⟩).get_size) ∧
    (∀ (w : S3FileWriter) (pn : Nat) (buf : S3FileBuffer) (e : AwsError),
      (w._upload_one_part pn buf (.failure e)).completed_parts = w.completed_parts ∧
      (w._upload_one_part pn buf (.failure e)).bytes_written = w.bytes_written) ∧
    (∀ (w : S3FileWriter) (pn : Nat) (buf : S3FileBuffer) (o : Outcome String),
      w.failed = true →
      (w._upload_one_part pn buf o).completed_parts = w.completed_parts ∧
      (w._upload_one_part pn buf o).bytes_written = w.bytes_written) ∧
    (∀ (ops : List Op) (w : S3FileWriter) (sts : List Status),
      run B ops (S3FileWriter.init closed0) = some (w, sts) →
      ∃ done : List S3FileBuffer, done.Subperm w.submitted ∧
        (w.completed_parts.map (fun p => p.part_number)).Perm
          (done.map (fun b => b.part_num)) ∧
        w.bytes_written = (done.map S3FileBuffer.get_size).sum) ∧
    (∀ (ops : List Op) (w w1 : S3FileWriter) (sts : List Status) (st : Status)
      (early : List ExecStep) (sched : Nat → ExecStep) (o : Outcome Unit),
      run B ops (S3FileWriter.init closed0) = some (w, sts) → w.closed = false →
      w.close early sched o = some (w1, st) → w1.failed = false →
      w1.bytes_written = w1.bytes_appended) := by
  refine ⟨?_, ?_, ?_, ?_, ?_, ?_⟩
  · intro w pn buf etag hf
    simp [_upload_one_part, _upload_one_part_issue, is_cancel, hf, _upload_one_part_result]
  · intro w j hj etag
    unfold exec_finish
    rw [List.get?_eq_get hj]
    exact ⟨rfl, rfl⟩
  · intro w pn buf e
    cases hf : w.failed <;>
      simp [_upload_one_part, _upload_one_part_issue, is_cancel, hf, _upload_one_part_result,
        on_failed]
  · intro w pn buf o hf
    simp [_upload_one_part, _upload_one_part_issue, is_cancel, hf]
  · intro ops w sts h
    obtain ⟨done, lost, h1, h2, h3, -⟩ := run_acct B closed0 ops w sts h
    refine ⟨done, ?_, h2, h3⟩
    have hsub : done.Sublist (done ++ lost ++ w.inflight ++ w.queue) := by
      rw [List.append_assoc, List.append_assoc]
      exact List.sublist_append_left _ _
    exact hsub.subperm.trans h1.subperm
  · intro ops w w1 sts st early sched o h hc hcl hf
    have hw := run_wait_ok B closed0 ops w sts h
    have ha := step_acct B (Op.close early sched o) w w1 st (run_acct B closed0 ops w sts h) hcl
    have ht := step_total_ok B (Op.close early sched o) w w1 st
      (run_total_ok B closed0 ops w sts h) hcl
    obtain ⟨hq, hi, hp⟩ := close_drained early sched o w w1 st hc hw hcl hf
    obtain ⟨done, lost, h1, -, h3, h4⟩ := ha
    rw [hq, hi, h4 hf] at h1
    simp only [List.append_nil] at h1
    unfold total_ok content pending_data at ht
    rw [hp] at ht
    simp only [List.append_nil] at ht
    rw [ht, h3, stream_of_length_sum]
    exact (h1.map _).sum_eq

theorem bytes_written_accounts_for_records_witness :
    ∃ w1 st,
      ({ fresh true "u" with pending_buf := some ⟨1, 0, [7]⟩, bytes_appended := 1 } :
        S3FileWriter).close [] fifo (.success ()) = some (w1, st) ∧
      w1.bytes_written = w1.bytes_appended :=
  ⟨_, _, rfl, (bytes_written_accounts_for_records 2 true).2.2.2.2.2
    [Op.open_ (.success "u"), Op.appendv (.success "u") [[7]]]
    { fresh true "u" with pending_buf := some ⟨1, 0, [7]⟩, bytes_appended := 1 } _
    [Status.OK, Status.OK] _ [] fifo (.success ()) rfl rfl rfl rfl⟩

/-- C21: capacity invariant of `appendv`, for every buffer size `B >= 1`.  In every state
reached from the initial one by calls of the five methods and moves of the executor,
a held pending buffer satisfies `size = bytes_appended - file_offset` with
`0 < size < B`, and no submitted buffer is empty or larger than `B`.  From every
state within capacity, in particular from every state in the middle of a call, an
iteration of the inner loop evaluates `file_offset + B - bytes_appended` without
underflow, leaves the buffer after `append_data` with at most `B` bytes, and ends
in a state within capacity. -/
theorem capacity_invariant (B : Nat) (hB : 1 ≤ B) (closed0 : Bool) :
    (∀ (ops : List Op) (w : S3FileWriter) (sts : List Status),
      run B ops (S3FileWriter.init closed0) = some (w, sts) →
      cap_inv B w ∧
      (∀ b, w.pending_buf = some b →
        0 < b.get_size ∧ b.get_size < B ∧ b.file_offset ≤ w.bytes_appended ∧
        b.get_size = w.bytes_appended - b.file_offset) ∧
      (∀ b ∈ w.submitted, 0 < b.get_size ∧ b.get_size ≤ B)) ∧
    (∀ (v : S3FileWriter) (slice : Slice) (pos : Nat), cap_inv B v → pos < slice.length →
      v.bytes_appended ≤ v.pending_or_allocate.file_offset + B ∧
      (v.pending_or_allocate.append_data
        ((slice.drop pos).take (v.data_size_to_append B slice pos))).get_size ≤ B ∧
      cap_inv B (v.append_body B slice pos).1) := by
  constructor
  · intro ops w sts h
    have hc := run_cap_inv B hB closed0 ops w sts h
    refine ⟨hc, ?_, hc.2⟩
    intro b hb
    obtain ⟨h1, h2, h3⟩ := hc.1 b hb
    exact ⟨h1, h2, by omega, by omega⟩
  · intro v slice pos hc hlt
    obtain ⟨h1, -, h3, h4⟩ := append_body_cap B hB slice pos v hlt hc
    exact ⟨h1, h3, h4⟩

theorem capacity_invariant_witness :
    (∃ w sts, run 2 [Op.appendv (.success "u") [[1, 2, 3]]] (S3FileWriter.init true)
        = some (w, sts) ∧
      w.pending_buf = some ⟨2, 2, [3]⟩ ∧
      (∀ b, w.pending_buf = some b →
        0 < b.get_size ∧ b.get_size < 2 ∧ b.file_offset ≤ w.bytes_appended ∧
        b.get_size = w.bytes_appended - b.file_offset) ∧
      (∀ b ∈ w.submitted, 0 < b.get_size ∧ b.get_size ≤ 2)) ∧
    ((S3FileWriter.init true).bytes_appended
        ≤ (S3FileWriter.init true).pending_or_allocate.file_offset + 2 ∧
      ((S3FileWriter.init true).pending_or_allocate.append_data
        ((([1, 2, 3] : Slice).drop 0).take
          ((S3FileWriter.init true).data_size_to_append 2 [1, 2, 3] 0))).get_size ≤ 2 ∧
      cap_inv 2 ((S3FileWriter.init true).append_body 2 [1, 2, 3] 0).1) :=
  ⟨⟨_, _, rfl, rfl,
    ((capacity_invariant 2 (by decide) true).1 [Op.appendv (.success "u") [[1, 2, 3]]]
      _ _ rfl).2⟩,
    (capacity_invariant 2 (by decide) true).2 (S3FileWriter.init true) [1, 2, 3] 0
      ((capacity_invariant 2 (by decide) true).1 [] (S3FileWriter.init true) [] rfl).1
      (by decide)⟩

/-- C24: `appendv` terminates, for every buffer size `B >= 1`.  From every state in which
the pending buffer is within its capacity, as is every state reached from the
initial one and every state in the middle of a call, an iteration of the inner loop
appends at least one byte (`data_size_to_append > 0`) and leaves such a state.  So
in every reached state the inner loop for a slice returns within as many iterations
as the slice has bytes (with the same result for every larger bound), and `appendv`
returns for every list of slices. -/
theorem appendv_terminates (B : Nat) (hB : 1 ≤ B) (closed0 : Bool) (ops : List Op)
    (w : S3FileWriter) (sts : List Status)
    (hreach : run B ops (S3FileWriter.init closed0) = some (w, sts)) :
    pend_ok B w ∧
    (∀ (v : S3FileWriter) (slice : Slice) (pos : Nat), pend_ok B v → pos < slice.length →
      0 < v.data_size_to_append B slice pos ∧
      pos + v.data_size_to_append B slice pos ≤ slice.length ∧
      pend_ok B (v.append_body B slice pos).1) ∧
    (∀ slice : Slice, ∃ w1, ∀ fuel, slice.length ≤ fuel →
      append_loop B slice fuel 0 w = some w1) ∧
    (∀ (c : Outcome String) (data : List Slice), ∃ r, w.appendv B c data = some r) := by
  have hp := run_pend_ok B hB closed0 ops w sts hreach
  refine ⟨hp, ?_, ?_, ?_⟩
  · intro v slice pos hv hlt
    obtain ⟨h1, h2, h3⟩ := append_body_feed B hB slice pos v hlt hv
    refine ⟨h1, h2, ?_⟩
    rw [h3]
    exact feed_pend_ok B hB _ v hv
  · intro slice
    refine ⟨feed B w slice, fun fuel hf => ?_⟩
    have := append_loop_feed B hB slice fuel 0 w (Nat.zero_le _) (by omega) hp
    rw [List.drop_zero] at this
    exact this
  · intro c data
    cases ho : w.opened with
    | true => exact ⟨_, appendv_feed B hB c data w ho hp⟩
    | false =>
      cases c with
      | failure e =>
        exact ⟨((w.open_ (.failure e)).1, Status.IOError e.message),
          by simp [appendv, ho, open_]⟩
      | success id =>
        have hp2 : pend_ok B (w.open_ (.success id)).1 := hp
        have hs := append_slices_feed B hB data _ hp2
        refine ⟨(feed B (w.open_ (.success id)).1 data.flatten, Status.OK), ?_⟩
        unfold appendv
        simp only [ho, Bool.not_false, if_true]
        have h2 : (w.open_ (.success id)).2 = Status.OK := rfl
        generalize w.open_ (.success id) = r at hs h2
        obtain ⟨v, stv⟩ := r
        simp only at h2 hs
        subst h2
        simp only [hs]

theorem appendv_terminates_witness :
    ∃ r, (S3FileWriter.init true).appendv 2 (.success "u") [[1, 2, 3], [4]] = some r :=
  (appendv_terminates 2 (by decide) true [] (S3FileWriter.init true) [] rfl).2.2.2
    (.success "u") [[1, 2, 3], [4]]

/-- C22: destroying a writer does not trip the assertion of the destructor.  In every
state reached from the initial one the destructor's conditional `close` returns and
the condition `!_opened || _closed` holds afterwards, whatever status that `close`
returned; and in any state at all, whenever the destructor gets to the assertion,
the condition holds. -/
theorem destructor_check_holds (B : Nat) (closed0 : Bool) (ops : List Op) (w : S3FileWriter)
    (sts : List Status) (hreach : run B ops (S3FileWriter.init closed0) = some (w, sts))
    (early : List ExecStep) (sched : Nat → ExecStep) (o : Outcome Unit) :
    (∃ w1, w.destructor early sched o = some (w1, true)) ∧
    (∀ (v v1 : S3FileWriter) (c : Bool), v.destructor early sched o = some (v1, c) →
      c = true) := by
  have hall : ∀ (v v1 : S3FileWriter) (c : Bool), v.destructor early sched o = some (v1, c) →
      c = true := by
    intro v v1 c h
    unfold S3FileWriter.destructor at h
    split at h
    · cases hc : v.close early sched o with
      | none => simp [hc] at h
      | some r =>
        obtain ⟨v2, st⟩ := r
        have hcl := close_closed early sched o v v2 st hc
        simp only [hc, Option.some.injEq, Prod.mk.injEq] at h
        obtain ⟨rfl, rfl⟩ := h
        simp [hcl]
    · rename_i hno
      simp only [Option.some.injEq, Prod.mk.injEq] at h
      obtain ⟨rfl, rfl⟩ := h
      simp at hno
      simp [hno]
  refine ⟨?_, hall⟩
  have hw := run_wait_ok B closed0 ops w sts hreach
  obtain ⟨w1, st, hc⟩ := close_returns_any early sched o w hw
  have hex : ∃ r, w.destructor early sched o = some r := by
    unfold S3FileWriter.destructor
    split
    · exact ⟨(w1, !w1.opened || w1.closed), by simp only [hc]⟩
    · exact ⟨_, rfl⟩
  obtain ⟨⟨v1, c⟩, hr⟩ := hex
  have := hall w v1 c hr
  subst this
  exact ⟨v1, hr⟩

theorem destructor_check_holds_witness :
    ∃ w1, (fresh true "u").destructor [] fifo (.failure err500) = some (w1, true) :=
  (destructor_check_holds 2 true [Op.open_ (.success "u")] (fresh true "u") [Status.OK] rfl
    [] fifo (.failure err500)).1

/-- C25: empty write.  On a newly opened writer, `appendv` calls that pass no byte and
moves of the executor change nothing; `close` then submits no buffer and sends
CompleteMultipartUpload with an empty part list, for the upload id of the writer,
as its only request, and returns ok exactly when that request succeeds. -/
theorem empty_write (B : Nat) (closed0 : Bool) (id : String) (ops : List Op)
    (hops : ∀ op ∈ ops, op.is_append_or_exec = true) (hz : bytes_of ops = [])
    (early : List ExecStep) (sched : Nat → ExecStep) (o : Outcome Unit) :
    ∃ sts w1 st, run B ops (fresh closed0 id) = some (fresh closed0 id, sts) ∧
      (fresh closed0 id).close early sched o = some (w1, st) ∧
      w1.submitted = [] ∧
      w1.sent = (fresh closed0 id).sent ++ [Request.CompleteMultipartUpload id []] ∧
      (st = Status.OK ↔ ∃ r, o = Outcome.success r) := by
  obtain ⟨sts, h1, -⟩ := run_zero_bytes B ops (fresh closed0 id) hops hz rfl rfl rfl
  have hidle : (fresh closed0 id).close_submit.exec_steps early
      = { fresh closed0 id with closed := true } :=
    exec_steps_idle early _ rfl rfl
  have hwait : ({ fresh closed0 id with closed := true } : S3FileWriter).wait_all sched
      = some { fresh closed0 id with closed := true } := by
    unfold wait_all wait_loop
    simp [fresh, S3FileWriter.init, open_]
  have hclose : (fresh closed0 id).close early sched o
      = some (closed_empty closed0 id, match o with
          | .success _ => Status.OK
          | .failure e => Status.IOError e.message) := by
    unfold close
    rw [hidle]
    unfold _complete
    rw [hwait]
    cases o <;> rfl
  refine ⟨sts, _, _, h1, hclose, rfl, rfl, ?_⟩
  cases o <;> simp

theorem empty_write_witness :
    ∃ sts w1 st,
      run 5 [Op.appendv (.success "u") [[], []]] (fresh true "u") = some (fresh true "u", sts) ∧
      (fresh true "u").close [] fifo (.success ()) = some (w1, st) ∧
      w1.submitted = [] ∧
      w1.sent = (fresh true "u").sent ++ [Request.CompleteMultipartUpload "u" []] ∧
      (st = Status.OK ↔ ∃ r, (Outcome.success () : Outcome Unit) = Outcome.success r) :=
  empty_write 5 true "u" [Op.appendv (.success "u") [[], []]] (by decide) (by decide)
    [] fifo (.success ())

end doris.io

namespace doris.vectorized

theorem compare_loop_spec {C : Type} (sub : C → Nat → Nat → C → Int → Int)
    (self rhs : ColumnStruct C) (n m : Nat) (hint : Int) (fuel i : Nat)
    (hf : min self.columns.length rhs.columns.length ≤ i + fuel) :
    ColumnStruct.compare_loop sub self rhs n m hint
        (min self.columns.length rhs.columns.length) fuel i
      = (List.zipWith (fun a b => sub a n m b hint) (self.columns.drop i)
          (rhs.columns.drop i)).find? (fun r => r ≠ 0) := by
  induction fuel generalizing i with
  | zero =>
    have h : self.columns.length ≤ i ∨ rhs.columns.length ≤ i := by omega
    rcases h with h | h
    · rw [List.drop_eq_nil_of_le h]; rfl
    · rw [List.drop_eq_nil_of_le h]; simp [ColumnStruct.compare_loop]
  | succ f ih =>
    unfold ColumnStruct.compare_loop
    by_cases hlt : i < min self.columns.length rhs.columns.length
    · have h1 : i < self.columns.length := by omega
      have h2 : i < rhs.columns.length := by omega
      rw [if_pos hlt, ih (i + 1) (by omega)]
      have e1 : self.columns.drop i = self.columns.get ⟨i, h1⟩ :: self.columns.drop (i + 1) :=
        List.drop_eq_getElem_cons h1
      have e2 : rhs.columns.drop i = rhs.columns.get ⟨i, h2⟩ :: rhs.columns.drop (i + 1) :=
        List.drop_eq_getElem_cons h2
      have hr : self.res_at sub rhs n m hint i
          = sub (self.columns.get ⟨i, h1⟩) n m (rhs.columns.get ⟨i, h2⟩) hint := by
        unfold ColumnStruct.res_at
        rw [List.get?_eq_get h1, List.get?_eq_get h2]
      rw [e1, e2, List.zipWith_cons_cons, List.find?_cons, hr]
      generalize sub (self.columns.get ⟨i, h1⟩) n m (rhs.columns.get ⟨i, h2⟩) hint = r
      by_cases hz : r = 0
      · simp [hz]
      · simp [hz]
    · rw [if_neg hlt]
      have h : self.columns.length ≤ i ∨ rhs.columns.length ≤ i := by omega
      rcases h with h | h
      · rw [List.drop_eq_nil_of_le h]; rfl
      · rw [List.drop_eq_nil_of_le h]; simp

theorem compare_at_eq_lexicographic {C : Type} (sub : C → Nat → Nat → C → Int → Int)
    (self rhs : ColumnStruct C) (n m : Nat) (hint : Int) :
    self.compare_at sub n m rhs hint
      = lexicographic (fun a b => sub a n m b hint) self.columns rhs.columns := by
  unfold ColumnStruct.compare_at lexicographic
  simp only
  rw [compare_loop_spec sub self rhs n m hint _ 0 (by omega)]
  rfl

theorem lexicographic_cons {C : Type} (cmp : C → C → Int) (a b : C) (as bs : List C) :
    lexicographic cmp (a :: as) (b :: bs)
      = if cmp a b ≠ 0 then cmp a b else lexicographic cmp as bs := by
  unfold lexicographic
  rw [List.zipWith_cons_cons, List.find?_cons]
  by_cases hz : cmp a b = 0
  · simp [hz]
  · simp [hz]

theorem compare_antisymm (a b h : Int) :
    CompareHelper.compare a b h = - CompareHelper.compare b a h := by
  unfold CompareHelper.compare
  split_ifs <;> omega

theorem lexicographic_antisymm {C : Type} (cmp cmp2 : C → C → Int)
    (h : ∀ a b, cmp a b = - cmp2 b a) (lhs rhs : List C) :
    lexicographic cmp lhs rhs = - lexicographic cmp2 rhs lhs := by
  induction lhs generalizing rhs with
  | nil =>
    cases rhs with
    | nil => simp [lexicographic]
    | cons b bs => simp [lexicographic]
  | cons a as ih =>
    cases rhs with
    | nil => simp [lexicographic]
    | cons b bs =>
      rw [lexicographic_cons, lexicographic_cons, ih bs, h a b]
      by_cases hz : cmp2 b a = 0
      · simp [hz]
      · simp [hz]

/-- C26: `ColumnStruct::compare_at` is the lexicographic comparison of rows.  For struct
columns with any sub-columns: when the results of the sub-columns with the same
index, in index order up to the smaller number of sub-columns, begin with zeros
followed by a result that is not zero, that result is returned; when all of them
are zero, the value is 1, -1 or 0 as the left column has more, fewer or as many
sub-columns as the right one.  With integer sub-columns, whose comparison gives 1,
-1, 0 for greater, less, equal, swapping the two rows negates the result. -/
theorem compare_at_is_lexicographic :
    (∀ (C : Type) (sub : C → Nat → Nat → C → Int → Int) (self rhs : ColumnStruct C)
      (n m : Nat) (hint : Int),
      self.compare_at sub n m rhs hint
        = lexicographic (fun a b => sub a n m b hint) self.columns rhs.columns ∧
      (∀ (zeros : List Int) (r : Int) (rest : List Int),
        List.zipWith (fun a b => sub a n m b hint) self.columns rhs.columns
          = zeros ++ r :: rest →
        (∀ z ∈ zeros, z = 0) → r ≠ 0 → self.compare_at sub n m rhs hint = r) ∧
      ((∀ z ∈ List.zipWith (fun a b => sub a n m b hint) self.columns rhs.columns, z = 0) →
        self.compare_at sub n m rhs hint
          = if self.columns.length > rhs.columns.length then 1
            else (if self.columns.length < rhs.columns.length then -1 else 0))) ∧
    (∀ a b hint : Int,
      CompareHelper.compare a b hint = (if a > b then 1 else (if a < b then -1 else 0))) ∧
    (∀ (self rhs : ColumnStruct ColumnVector) (n m : Nat) (hint : Int),
      self.compare_at ColumnVector.compare_at n m rhs hint
        = - rhs.compare_at ColumnVector.compare_at m n self hint) := by
  refine ⟨?_, fun a b hint => rfl, ?_⟩
  · intro C sub self rhs n m hint
    have heq := compare_at_eq_lexicographic sub self rhs n m hint
    refine ⟨heq, ?_, ?_⟩
    · intro zeros r rest hz hzeros hr
      rw [heq]
      unfold lexicographic
      rw [hz, List.find?_append]
      have hnone : zeros.find? (fun r => decide (r ≠ 0)) = none := by
        rw [List.find?_eq_none]
        intro z hzm
        simp [hzeros z hzm]
      rw [hnone, List.find?_cons]
      simp [hr]
    · intro hall
      rw [heq]
      unfold lexicographic
      have hnone : (List.zipWith (fun a b => sub a n m b hint) self.columns
          rhs.columns).find? (fun r => decide (r ≠ 0)) = none := by
        rw [List.find?_eq_none]
        intro z hzm
        simp [hall z hzm]
      rw [hnone]
  · intro self rhs n m hint
    rw [compare_at_eq_lexicographic, compare_at_eq_lexicographic]
    exact lexicographic_antisymm _ _
      (fun (a b : ColumnVector) => compare_antisymm (a.data.getD n 0) (b.data.getD m 0) hint)
      _ _

theorem compare_at_is_lexicographic_witness :
    (ColumnStruct.mk [ColumnVector.mk [5, 7], ColumnVector.mk [1, 2]]).compare_at
        ColumnVector.compare_at 0 1 (ColumnStruct.mk [ColumnVector.mk [5, 5]]) 1 = 1 :=
  ((compare_at_is_lexicographic.1 ColumnVector ColumnVector.compare_at
      (ColumnStruct.mk [ColumnVector.mk [5, 7], ColumnVector.mk [1, 2]])
      (ColumnStruct.mk [ColumnVector.mk [5, 5]]) 0 1 1).2.2
    (by decide)).trans (by decide)

end doris.vectorized
